import Mathlib

/-!
# Real-time bidding platform: the per-auction room engine

A shallow embedding of `internal/auction/engine.go` and `internal/auction/types.go`, of the
message handlers of `internal/realtime/websocket.go` and `internal/realtime/webrtc.go`, and of
the money conversion of `cmd/rtb-server/main.go`.

Modelling conventions
* `int64` values are `Int`s; every `int64` addition or multiplication of the program is
  wrapped with `wrap64` (two's complement).
* `time.Time` is an `Int` count of nanoseconds on the wall clock (unbounded);
  `time.Duration` is an `int64` count of nanoseconds.
* Every call of `time.Now()` is an input of the function that makes it.  `processBid` reads the
  clock twice: `now := time.Now().UTC()` (line 210) and once more inside
  `time.Until(r.auction.EndsAt)` (line 229); the two readings are the parameters `now` and `clk`.
* Go maps are association lists (key, value); the iteration order of a Go map is unspecified and
  the list order stands for one such order.
* A channel `chan Outbound` of capacity 256 is a record of its buffered messages (oldest first)
  and its closed flag.  Sending on a closed channel, closing a closed channel and dereferencing a
  nil pointer are the panics of the program; fallible functions return `Except Panic _`.
* The subscriber counter `nextSubID` and the subscriber ids are Go `int`s, taken 64 bits wide:
  `r.nextSubID++` wraps around like every other machine addition.
* A `*Auction` is an index into the store of descriptors that `Manager.Create` has allocated;
  the room reads and writes its descriptor through that index (`Manager.stepRoom`).
* JSON decoding is not modelled: the transport handlers take decoded envelopes.
* A `float64` is an `Option ℚ`: `some q` is the finite double of value `q`, `none` stands for
  the infinities and the NaNs.  Every operation rounds its exact result to the nearest double,
  ties to even (`roundF64`); the product and the sum of `toCents` are rounded one after the
  other.  The sign of a zero is not kept.  `int64(f)` of a value outside the `int64` range
  gives -2^63, which is what the conversion instruction of amd64 returns.
* The receive end of a subscriber channel belongs to the transport adapters and is not
  modelled: a queue holds what the writer has sent to it.
-/

namespace Rtb

/-! ## Machine integers, time -/

/-- Two's-complement reduction of an integer to the `int64` range. -/
def wrap64 (x : Int) : Int := (x + 9223372036854775808) % 18446744073709551616 - 9223372036854775808

/-- Predicate: the integer is a value of type `int64`. -/
def IsInt64 (x : Int) : Prop := -9223372036854775808 ≤ x ∧ x ≤ 9223372036854775807

instance (x : Int) : Decidable (IsInt64 x) := by unfold IsInt64; exact inferInstance

/-- Go `a + b` on `int64`. -/
def add64 (a b : Int) : Int := wrap64 (a + b)

/-- Go `a * b` on `int64`. -/
def mul64 (a b : Int) : Int := wrap64 (a * b)

/-- Wall-clock instant, in nanoseconds. -/
abbrev Time := Int

/-- Go `time.Duration`: an `int64` number of nanoseconds. -/
abbrev Duration := Int

/-- Go `time.Second`. -/
def Second : Duration := 1000000000

/-- The smallest `time.Duration`. -/
def minDuration : Duration := -9223372036854775808

/-- The largest `time.Duration`. -/
def maxDuration : Duration := 9223372036854775807

/-- Go `t.After(u)`. -/
def Time.After (t u : Time) : Bool := decide (u < t)

/-- Go `t.Add(d)`. -/
def Time.Add (t : Time) (d : Duration) : Time := t + d

/-- Go `t.Sub(u)`: the difference, saturated to the range of `time.Duration`. -/
def Time.Sub (t u : Time) : Duration :=
  if t - u < minDuration then minDuration
  else if maxDuration < t - u then maxDuration
  else t - u

/-- Go `time.Until(t)`, which is `t.Sub(time.Now())`; `clk` is that clock reading. -/
def Time.Until (clk : Time) (t : Time) : Duration := Time.Sub t clk

/-- Go `time.Duration(n) * time.Second`. -/
def secondsToDuration (n : Int) : Duration := mul64 n Second

/-! ## Data model (`types.go`, `engine.go`) -/

structure User where
  ID : String
  Handle : String
deriving DecidableEq, Repr

structure Auction where
  ID : String
  Title : String
  StartPriceCents : Int
  MinIncrementCents : Int
  ReservePriceCents : Int
  EndsAt : Time
  SoftCloseSeconds : Int
  CreatedAt : Time
deriving DecidableEq, Repr

structure ParticipantView where
  UserID : String
  Handle : String
deriving DecidableEq, Repr

/-- Inbound event; the field `Typ` is the source's `Type`, a nil `User` pointer is `none`, and
the raw `Payload`, which the room never reads, is left out. -/
structure Event where
  Typ : String
  User : Option User
  AmountCts : Int
deriving DecidableEq, Repr

structure BidView where
  UserID : String
  Handle : String
  AmountCts : Int
  Accepted : Bool
  Reason : String
  CreatedAt : Time
deriving DecidableEq, Repr

structure RoomState where
  AuctionID : String
  Title : String
  CurrentPriceCts : Int
  LeaderUserID : String
  LeaderHandle : String
  EndsAt : Time
  SoftCloseSeconds : Int
  MinIncrementCts : Int
  Participants : Nat
  ParticipantsList : List ParticipantView
  ReservePriceCts : Int
  BidHistory : List BidView
deriving DecidableEq, Repr

/-- The values stored in `Outbound.Payload` (an `interface{}` in the source). -/
inductive Payload where
  | presence (participants : Nat)
  | roomState (state : RoomState)
  | bidAccepted (amountCents : Int) (leaderUserId leaderHandle : String) (endsAt : Time)
  | bidRejected (reason : String)
deriving DecidableEq, Repr

/-- Outbound message; the field `Typ` is the source's `Type`. -/
structure Outbound where
  Typ : String
  RoomID : String
  Payload : Payload
deriving DecidableEq, Repr

/-- The run-time panics the room writer could raise. -/
inductive Panic where
  | sendOnClosed
  | closeOfClosed
  | nilDeref
deriving DecidableEq, Repr

/-- Capacity of a subscriber channel: `make(chan Outbound, 256)`. -/
def chanCap : Nat := 256

/-- A buffered channel: the messages waiting in it, oldest first, and whether it is closed. -/
structure Chan where
  buf : List Outbound
  closed : Bool
deriving DecidableEq, Repr

/-- The room.  `closedChans` is not a field of the source's `Room`: it records the subscriber
channels the writer has closed (on unsubscribe or eviction), each under the id it was allocated;
in the program they live on in the transport adapter that holds their receive end.  An id
names one channel at a time: when the counter comes round to an id again, the record kept
under that id is dropped. -/
structure Room where
  auction : Auction
  currentPriceCts : Int
  leader : Option User
  participants : List (String × Option User)
  bidHistory : List BidView
  subscribers : List (Int × Chan)
  nextSubID : Int
  closedChans : List (Int × Chan)
deriving DecidableEq, Repr

/-- Source `newRoom`. -/
def newRoom (a : Auction) : Room :=
  { auction := a
    currentPriceCts := a.StartPriceCents
    leader := none
    participants := []
    bidHistory := []
    subscribers := []
    nextSubID := 0
    closedChans := [] }

/-! ## Go map operations on association lists -/

/-- Go `m[k]` with the comma-ok form. -/
def mapGet {α β : Type} [DecidableEq α] (m : List (α × β)) (k : α) : Option β :=
  match m with
  | [] => none
  | (k1, v) :: rest => if k1 = k then some v else mapGet rest k

/-- Go `delete(m, k)`. -/
def mapDelete {α β : Type} [DecidableEq α] (m : List (α × β)) (k : α) : List (α × β) :=
  match m with
  | [] => []
  | (k1, v) :: rest => if k1 = k then mapDelete rest k else (k1, v) :: mapDelete rest k

/-- Go `m[k] = v`. -/
def mapSet {α β : Type} [DecidableEq α] (m : List (α × β)) (k : α) (v : β) : List (α × β) :=
  match m with
  | [] => [(k, v)]
  | (k1, v1) :: rest => if k1 = k then (k, v) :: rest else (k1, v1) :: mapSet rest k v

/-- The keys of a map. -/
def mapKeys {α β : Type} (m : List (α × β)) : List α := m.map Prod.fst

/-! ## Channels -/

/-- Go `select { case ch <- msg: default: }`: a non-blocking send.  The flag tells whether the
message was enqueued.  Sending on a closed channel panics. -/
def trySend (ch : Chan) (msg : Outbound) : Except Panic (Chan × Bool) :=
  if ch.closed then .error Panic.sendOnClosed
  else if ch.buf.length < chanCap then .ok ({ ch with buf := ch.buf ++ [msg] }, true)
  else .ok (ch, false)

/-- Go `close(ch)`. -/
def closeChan (ch : Chan) : Except Panic Chan :=
  if ch.closed then .error Panic.closeOfClosed
  else .ok { ch with closed := true }

/-- Go `u.ID` / `u.Handle` on a `*User`: the dereference of a pointer. -/
def deref (u : Option User) : Except Panic User :=
  match u with
  | none => .error Panic.nilDeref
  | some v => .ok v

/-- Source `userID`. -/
def userID (u : Option User) : String :=
  match u with
  | none => ""
  | some v => v.ID

/-- Source `userHandle`. -/
def userHandle (u : Option User) : String :=
  match u with
  | none => ""
  | some v => v.Handle

/-! ## The room's operations -/

/-- Source `Room.buildState`. -/
def buildState (r : Room) : RoomState :=
  let plist := r.participants.filterMap (fun kv =>
    match kv.2 with
    | none => none
    | some u => some { UserID := u.ID, Handle := u.Handle : ParticipantView })
  { AuctionID := r.auction.ID
    Title := r.auction.Title
    CurrentPriceCts := r.currentPriceCts
    LeaderUserID := match r.leader with
      | none => ""
      | some u => u.ID
    LeaderHandle := match r.leader with
      | none => ""
      | some u => u.Handle
    EndsAt := r.auction.EndsAt
    SoftCloseSeconds := r.auction.SoftCloseSeconds
    MinIncrementCts := r.auction.MinIncrementCents
    Participants := r.participants.length
    ParticipantsList := plist
    ReservePriceCts := r.auction.ReservePriceCents
    BidHistory := r.bidHistory }

/-- The loop of `Room.broadcast` over the subscriber map: a non-blocking send to each channel,
the message being dropped for a subscriber whose buffer is full. -/
def broadcastSubs (msg : Outbound) : List (Int × Chan) → Except Panic (List (Int × Chan))
  | [] => .ok []
  | (id, ch) :: rest =>
    match trySend ch msg with
    | .error e => .error e
    | .ok (ch1, _) =>
      match broadcastSubs msg rest with
      | .error e => .error e
      | .ok rest1 => .ok ((id, ch1) :: rest1)

/-- Source `Room.broadcast`. -/
def broadcast (r : Room) (msg : Outbound) : Except Panic Room :=
  match broadcastSubs msg r.subscribers with
  | .error e => .error e
  | .ok subs => .ok { r with subscribers := subs }

/-- The loop of `Room.broadcastCritical`: a non-blocking send to each channel; a subscriber whose
buffer is full has its channel closed and is deleted from the map.  The result is the map after
the loop and the channels closed by it. -/
def broadcastCriticalSubs (msg : Outbound) :
    List (Int × Chan) → Except Panic (List (Int × Chan) × List (Int × Chan))
  | [] => .ok ([], [])
  | (id, ch) :: rest =>
    match trySend ch msg with
    | .error e => .error e
    | .ok (ch1, true) =>
      match broadcastCriticalSubs msg rest with
      | .error e => .error e
      | .ok (kept, gone) => .ok ((id, ch1) :: kept, gone)
    | .ok (ch1, false) =>
      match closeChan ch1 with
      | .error e => .error e
      | .ok chClosed =>
        match broadcastCriticalSubs msg rest with
        | .error e => .error e
        | .ok (kept, gone) => .ok (kept, (id, chClosed) :: gone)

/-- Source `Room.broadcastCritical`. -/
def broadcastCritical (r : Room) (msg : Outbound) : Except Panic Room :=
  match broadcastCriticalSubs msg r.subscribers with
  | .error e => .error e
  | .ok (kept, gone) => .ok { r with subscribers := kept, closedChans := r.closedChans ++ gone }

/-- Source `Room.broadcastState`. -/
def broadcastState (r : Room) : Except Panic Room :=
  broadcast r { Typ := "room_state", RoomID := r.auction.ID, Payload := .roomState (buildState r) }

/-- The decision of `Room.processBid` (lines 213-234): the room after the price, leader and
end-time updates, the `accepted` flag and the `reason` tag.  `now` is the clock reading of
line 210, `clk` the one taken inside `time.Until` on line 229. -/
def bidVerdict (r : Room) (ev : Event) (now clk : Time) : Room × Bool × String :=
  match ev.User with
  | none => (r, false, "unauthorized")
  | some user =>
    if Time.After now r.auction.EndsAt then (r, false, "auction_closed")
    else if ev.AmountCts < add64 r.currentPriceCts r.auction.MinIncrementCents then
      (r, false, "below_min_increment")
    else
      let r1 : Room := { r with currentPriceCts := ev.AmountCts, leader := some user }
      let r2 : Room :=
        if r1.auction.SoftCloseSeconds > 0 then
          let remaining := Time.Until clk r1.auction.EndsAt
          if remaining ≤ secondsToDuration r1.auction.SoftCloseSeconds then
            { r1 with auction := { r1.auction with
                EndsAt := Time.Add r1.auction.EndsAt
                  (secondsToDuration r1.auction.SoftCloseSeconds) } }
          else r1
        else r1
      (r2, true, "")

/-- The record `Room.processBid` appends to the history (lines 236-243). -/
def bidEntry (ev : Event) (accepted : Bool) (reason : String) (now : Time) : BidView :=
  { UserID := userID ev.User
    Handle := userHandle ev.User
    AmountCts := ev.AmountCts
    Accepted := accepted
    Reason := reason
    CreatedAt := now }

/-- Source `Room.processBid`. -/
def processBid (r : Room) (ev : Event) (now clk : Time) : Except Panic Room :=
  match bidVerdict r ev now clk with
  | (r1, accepted, reason) =>
    let r2 : Room := { r1 with bidHistory := r1.bidHistory ++ [bidEntry ev accepted reason now] }
    if accepted then
      match deref ev.User with
      | .error e => .error e
      | .ok user =>
        match broadcastCritical r2
            { Typ := "bid_accepted", RoomID := r2.auction.ID,
              Payload := .bidAccepted ev.AmountCts user.ID user.Handle r2.auction.EndsAt } with
        | .error e => .error e
        | .ok r3 => broadcastState r3
    else
      broadcast r2
        { Typ := "bid_rejected", RoomID := r2.auction.ID, Payload := .bidRejected reason }

/-- The presence message of `Room.handle`. -/
def presenceMsg (r : Room) : Outbound :=
  { Typ := "presence", RoomID := r.auction.ID, Payload := .presence r.participants.length }

/-- Source `Room.handle`. -/
def handle (r : Room) (ev : Event) (now clk : Time) : Except Panic Room :=
  if ev.Typ = "join_room" then
    let r1 : Room :=
      match ev.User with
      | none => r
      | some u => { r with participants := mapSet r.participants u.ID (some u) }
    match broadcast r1 (presenceMsg r1) with
    | .error e => .error e
    | .ok r2 => broadcastState r2
  else if ev.Typ = "leave_room" then
    let r1 : Room :=
      match ev.User with
      | none => r
      | some u => { r with participants := mapDelete r.participants u.ID }
    broadcast r1 (presenceMsg r1)
  else if ev.Typ = "place_bid" then
    processBid r ev now clk
  else
    .ok r

/-- The `subReq` case of `Room.run` (lines 162-173): the room after the step and the id of the
response. -/
def runSubscribe (r : Room) : Except Panic (Room × Int) :=
  let ch : Chan := { buf := [], closed := false }
  let id := r.nextSubID
  let r1 : Room :=
    { r with
      nextSubID := wrap64 (r.nextSubID + 1)
      subscribers := mapSet r.subscribers id ch
      closedChans := r.closedChans.filter (fun p => decide (p.1 ≠ id)) }
  let state := buildState r1
  match trySend ch { Typ := "room_state", RoomID := r1.auction.ID, Payload := .roomState state } with
  | .error e => .error e
  | .ok (ch1, _) => .ok ({ r1 with subscribers := mapSet r1.subscribers id ch1 }, id)

/-- The `unsubReq` case of `Room.run` (lines 174-178). -/
def runUnsubscribe (r : Room) (id : Int) : Except Panic Room :=
  match mapGet r.subscribers id with
  | none => .ok r
  | some ch =>
    let r1 : Room := { r with subscribers := mapDelete r.subscribers id }
    match closeChan ch with
    | .error e => .error e
    | .ok ch1 => .ok { r1 with closedChans := r1.closedChans ++ [(id, ch1)] }

/-- The ticker case of `Room.run` (lines 179-185); the closure check that follows the broadcast
has an empty body. -/
def runTick (r : Room) : Except Panic Room :=
  broadcastState r

/-- One thing the `select` of `Room.run` can pick. -/
inductive Step where
  | input (ev : Event) (now clk : Time)
  | subscribe
  | unsubscribe (id : Int)
  | tick
deriving DecidableEq, Repr

/-- One iteration of the loop of `Room.run`. -/
def step (r : Room) (s : Step) : Except Panic Room :=
  match s with
  | .input ev now clk => handle r ev now clk
  | .subscribe => (runSubscribe r).map Prod.fst
  | .unsubscribe id => runUnsubscribe r id
  | .tick => runTick r

/-- Source `Room.run`, on a finite sequence of picks; a panic ends the run. -/
def run (r : Room) : List Step → Except Panic Room
  | [] => .ok r
  | s :: rest =>
    match step r s with
    | .error e => .error e
    | .ok r1 => run r1 rest

/-! ## Specification-side notions -/

/-- Every channel of a subscriber map is open. -/
def ChansOpen (subs : List (Int × Chan)) : Prop := ∀ p ∈ subs, p.2.closed = false

instance (subs : List (Int × Chan)) : Decidable (ChansOpen subs) := by
  unfold ChansOpen; exact inferInstance

/-- The effect of a successful or dropped non-blocking send on an open channel. -/
def enqueue (msg : Outbound) (ch : Chan) : Chan :=
  if ch.buf.length < chanCap then { ch with buf := ch.buf ++ [msg] } else ch

/-- The subscriber map after a lossy broadcast over open channels. -/
def lossySubs (msg : Outbound) (subs : List (Int × Chan)) : List (Int × Chan) :=
  subs.map (fun p => (p.1, enqueue msg p.2))

/-- The subscribers that survive a critical broadcast over open channels. -/
def keptSubs (msg : Outbound) (subs : List (Int × Chan)) : List (Int × Chan) :=
  (subs.filter (fun p => decide (p.2.buf.length < chanCap))).map
    (fun p => (p.1, { p.2 with buf := p.2.buf ++ [msg] }))

/-- The channels closed by a critical broadcast over open channels. -/
def goneSubs (subs : List (Int × Chan)) : List (Int × Chan) :=
  (subs.filter (fun p => !decide (p.2.buf.length < chanCap))).map
    (fun p => (p.1, { p.2 with closed := true }))

/-- The `room_state` message `Room.broadcastState` builds. -/
def stateMsg (r : Room) : Outbound :=
  { Typ := "room_state", RoomID := r.auction.ID, Payload := Payload.roomState (buildState r) }

/-- The `bid_rejected` message of `Room.processBid`. -/
def rejectedMsg (r : Room) (reason : String) : Outbound :=
  { Typ := "bid_rejected", RoomID := r.auction.ID, Payload := Payload.bidRejected reason }

/-- The reason tag given by the ordered checks of the specification, the sum being the
program's `int64` sum of line 220; the empty tag stands for acceptance. -/
def specReason (r : Room) (ev : Event) (now : Time) : String :=
  match ev.User with
  | none => "unauthorized"
  | some _ =>
    if r.auction.EndsAt < now then "auction_closed"
    else if ev.AmountCts < add64 r.currentPriceCts r.auction.MinIncrementCents then
      "below_min_increment"
    else ""

/-- The same ordered checks with the sum taken over the mathematical integers. -/
def specReasonExact (r : Room) (ev : Event) (now : Time) : String :=
  match ev.User with
  | none => "unauthorized"
  | some _ =>
    if r.auction.EndsAt < now then "auction_closed"
    else if ev.AmountCts < r.currentPriceCts + r.auction.MinIncrementCents then
      "below_min_increment"
    else ""

/-- Example auction: start 100, increment 10, one minute, no soft close. -/
def auctionA : Auction :=
  { ID := "a1", Title := "lot", StartPriceCents := 100, MinIncrementCents := 10,
    ReservePriceCents := 0, EndsAt := 60000000000, SoftCloseSeconds := 0, CreatedAt := 0 }

/-- Example user. -/
def alice : User := { ID := "A", Handle := "alice" }

/-- Example user. -/
def bob : User := { ID := "B", Handle := "bob" }

/-- A `place_bid` event as the transports build it. -/
def placeBid (u : User) (amount : Int) : Event :=
  { Typ := "place_bid", User := some u, AmountCts := amount }

/-- Example room: `auctionA` with one subscriber whose queue is empty. -/
def roomA : Room :=
  { newRoom auctionA with subscribers := [(0, { buf := [], closed := false })], nextSubID := 1 }

/-- The end time after the anti-sniping step of an accepted bid (lines 228-233), `clk` being
the clock reading of `time.Until`. -/
def extendedEndsAt (a : Auction) (clk : Time) : Time :=
  if 0 < a.SoftCloseSeconds ∧ Time.Until clk a.EndsAt ≤ secondsToDuration a.SoftCloseSeconds then
    Time.Add a.EndsAt (secondsToDuration a.SoftCloseSeconds)
  else a.EndsAt

/-- The room fields after an accepted bid, before the broadcasts. -/
def acceptedCore (r : Room) (ev : Event) (now clk : Time) : Room :=
  { r with
    currentPriceCts := ev.AmountCts
    leader := ev.User
    auction := { r.auction with EndsAt := extendedEndsAt r.auction clk }
    bidHistory := r.bidHistory ++ [bidEntry ev true "" now] }

/-- The `bid_accepted` message of `Room.processBid`. -/
def acceptedMsg (r : Room) (ev : Event) : Outbound :=
  { Typ := "bid_accepted", RoomID := r.auction.ID,
    Payload := Payload.bidAccepted ev.AmountCts (userID ev.User) (userHandle ev.User)
      r.auction.EndsAt }

/-- The room after the critical broadcast of an accepted bid over open channels. -/
def acceptedEvicted (r : Room) (ev : Event) (now clk : Time) : Room :=
  { acceptedCore r ev now clk with
    subscribers := keptSubs (acceptedMsg (acceptedCore r ev now clk) ev) r.subscribers
    closedChans := r.closedChans ++ goneSubs r.subscribers }

/-- The room after an accepted bid over open channels. -/
def acceptedRoom (r : Room) (ev : Event) (now clk : Time) : Room :=
  { acceptedEvicted r ev now clk with
    subscribers := lossySubs (stateMsg (acceptedEvicted r ev now clk))
      (acceptedEvicted r ev now clk).subscribers }

/-- The end time the specification's anti-sniping rule gives when the remaining time is
measured from the instant `t`: extended by the soft-close window when the window is positive
and `ends-at - t` is at most the window, unchanged otherwise. -/
def antiSnipingSpec (a : Auction) (t : Time) : Time :=
  if 0 < a.SoftCloseSeconds ∧ a.EndsAt - t ≤ a.SoftCloseSeconds * Second then
    a.EndsAt + a.SoftCloseSeconds * Second
  else a.EndsAt

/-- Example auction with a soft-close window of 10 s, ending at 100 s. -/
def auctionSoft : Auction :=
  { ID := "a2", Title := "lot", StartPriceCents := 100, MinIncrementCents := 10,
    ReservePriceCents := 0, EndsAt := 100000000000, SoftCloseSeconds := 10, CreatedAt := 0 }

/-- Example auction whose soft-close window, 15817289833210771 s, times `time.Second` wraps
around to -512 ns; it ends at 60 s. -/
def auctionWrap : Auction :=
  { ID := "a3", Title := "lot", StartPriceCents := 100, MinIncrementCents := 10,
    ReservePriceCents := 0, EndsAt := 60000000000, SoftCloseSeconds := 15817289833210771,
    CreatedAt := 0 }

/-- Well-formedness of the subscriber wiring: the channels of the map are open, the recorded
closed channels are closed, the keys of the map are distinct and below the counter, and the ids
of the closed channels are below the counter and are not keys of the map. -/
structure WFSubs (subs closed : List (Int × Chan)) (next : Int) : Prop where
  chansOpen : ChansOpen subs
  closedClosed : ∀ p ∈ closed, p.2.closed = true
  keysNodup : (mapKeys subs).Nodup
  keysLt : ∀ k ∈ mapKeys subs, k < next
  closedLt : ∀ p ∈ closed, p.1 < next
  closedAbsent : ∀ p ∈ closed, p.1 ∉ mapKeys subs

/-- Well-formedness of a room: that of its subscriber wiring. -/
def WF (r : Room) : Prop := WFSubs r.subscribers r.closedChans r.nextSubID

/-- The part of the well-formedness that does not depend on the counter: the channels of the
map are open, the recorded closed channels are closed, the keys of the map are distinct, and
the ids of the closed channels are not keys of the map. -/
structure OpenWiring (subs closed : List (Int × Chan)) : Prop where
  chansOpen : ChansOpen subs
  closedClosed : ∀ p ∈ closed, p.2.closed = true
  keysNodup : (mapKeys subs).Nodup
  closedAbsent : ∀ p ∈ closed, p.1 ∉ mapKeys subs

/-- The wiring of a room is open. -/
def Wired (r : Room) : Prop := OpenWiring r.subscribers r.closedChans

/-- The number of subscribe requests in a sequence of writer steps. -/
def subscribeCount : List Step → Nat
  | [] => 0
  | Step.subscribe :: rest => subscribeCount rest + 1
  | Step.input _ _ _ :: rest => subscribeCount rest
  | Step.unsubscribe _ :: rest => subscribeCount rest
  | Step.tick :: rest => subscribeCount rest

/-- Every queue of `subs1` with an id below `n` is a queue of `subs0` under the same id, with
messages added at the tail only. -/
def ExtendsBelow (n : Int) (subs0 subs1 : List (Int × Chan)) : Prop :=
  ∀ id ch1, (id, ch1) ∈ subs1 → id < n →
    ∃ ch0 tail, (id, ch0) ∈ subs0 ∧ ch1.buf = ch0.buf ++ tail

/-- The room after a rejected bid over open channels. -/
def rejectedRoom (r : Room) (ev : Event) (now : Time) : Room :=
  { r with
    bidHistory := r.bidHistory ++ [bidEntry ev false (specReason r ev now) now]
    subscribers := lossySubs (rejectedMsg r (specReason r ev now)) r.subscribers }

/-- The participants update of a `join_room` event. -/
def joinedCore (r : Room) (ev : Event) : Room :=
  match ev.User with
  | none => r
  | some u => { r with participants := mapSet r.participants u.ID (some u) }

/-- The room after the presence broadcast of a `join_room` event over open channels. -/
def joinedPresence (r : Room) (ev : Event) : Room :=
  { joinedCore r ev with
    subscribers := lossySubs (presenceMsg (joinedCore r ev)) r.subscribers }

/-- The room after a `join_room` event over open channels. -/
def joinedRoom (r : Room) (ev : Event) : Room :=
  { joinedPresence r ev with
    subscribers := lossySubs (stateMsg (joinedPresence r ev)) (joinedPresence r ev).subscribers }

/-- The participants update of a `leave_room` event. -/
def leftCore (r : Room) (ev : Event) : Room :=
  match ev.User with
  | none => r
  | some u => { r with participants := mapDelete r.participants u.ID }

/-- The room after a `leave_room` event over open channels. -/
def leftRoom (r : Room) (ev : Event) : Room :=
  { leftCore r ev with subscribers := lossySubs (presenceMsg (leftCore r ev)) r.subscribers }

/-- The room after an event over open channels. -/
def handledRoom (r : Room) (ev : Event) (now clk : Time) : Room :=
  if ev.Typ = "join_room" then joinedRoom r ev
  else if ev.Typ = "leave_room" then leftRoom r ev
  else if ev.Typ = "place_bid" then
    if (bidVerdict r ev now clk).2.1 then acceptedRoom r ev now clk else rejectedRoom r ev now
  else r

/-- The queue a subscribe request installs: open, holding the snapshot of the room. -/
def snapshotChan (r : Room) : Chan := { buf := [stateMsg r], closed := false }

/-- The room after a subscribe request. -/
def subscribedRoom (r : Room) : Room :=
  { r with
    nextSubID := wrap64 (r.nextSubID + 1)
    subscribers := mapSet (mapSet r.subscribers r.nextSubID { buf := [], closed := false })
      r.nextSubID (snapshotChan r)
    closedChans := r.closedChans.filter (fun p => decide (p.1 ≠ r.nextSubID)) }

/-- The room after an unsubscribe request over open channels. -/
def unsubscribedRoom (r : Room) (id : Int) : Room :=
  match mapGet r.subscribers id with
  | none => r
  | some ch =>
    { r with
      subscribers := mapDelete r.subscribers id
      closedChans := r.closedChans ++ [(id, { ch with closed := true })] }

/-- The room after a tick over open channels. -/
def tickedRoom (r : Room) : Room :=
  { r with subscribers := lossySubs (stateMsg r) r.subscribers }

/-- The room after one writer step over open channels. -/
def steppedRoom (r : Room) (s : Step) : Room :=
  match s with
  | .input ev now clk => handledRoom r ev now clk
  | .subscribe => subscribedRoom r
  | .unsubscribe id => unsubscribedRoom r id
  | .tick => tickedRoom r

/-- The bids of a sequence of writer steps, in arrival order: bidder id, bidder handle, amount
and arrival time of every `place_bid` event. -/
def placedBids : List Step → List (String × String × Int × Time)
  | [] => []
  | Step.input ev now _ :: rest =>
    if ev.Typ = "place_bid" then
      (userID ev.User, userHandle ev.User, ev.AmountCts, now) :: placedBids rest
    else placedBids rest
  | Step.subscribe :: rest => placedBids rest
  | Step.unsubscribe _ :: rest => placedBids rest
  | Step.tick :: rest => placedBids rest

/-- The bidder id, bidder handle, amount and time of a history record. -/
def recordKey (b : BidView) : String × String × Int × Time :=
  (b.UserID, b.Handle, b.AmountCts, b.CreatedAt)

/-- Example message. -/
def pingMsg : Outbound := { Typ := "presence", RoomID := "a1", Payload := Payload.presence 1 }

/-- Example room: `auctionA` with subscriber 0, whose queue holds 256 messages, and
subscriber 1, whose queue is empty. -/
def roomFull : Room :=
  { newRoom auctionA with
    subscribers := [(0, { buf := List.replicate 256 pingMsg, closed := false }),
                    (1, { buf := [], closed := false })]
    nextSubID := 2 }

/-- Example room: `auctionA` at price 120, led by alice, who is its one participant;
subscriber 0 has one message waiting and subscriber 3 none, the channel of the former
subscriber 1 is closed, and the counter is at 5. -/
def roomBusy : Room :=
  { auction := auctionA
    currentPriceCts := 120
    leader := some alice
    participants := [("A", some alice)]
    bidHistory := [{ UserID := "A", Handle := "alice", AmountCts := 120, Accepted := true,
                     Reason := "", CreatedAt := 1000 }]
    subscribers := [(0, { buf := [pingMsg], closed := false }),
                    (3, { buf := [], closed := false })]
    nextSubID := 5
    closedChans := [(1, { buf := [], closed := true })] }

/-- The wiring is well formed, subscriber `id` has been allocated, and if it is still in the map
its queue starts with the message `snap`. -/
def HeadedBy (id : Int) (snap : Outbound) (r : Room) : Prop :=
  WF r ∧ id < r.nextSubID ∧ ∀ ch, (id, ch) ∈ r.subscribers → ∃ tail, ch.buf = snap :: tail

/-- The amounts of the accepted records of a history, in order. -/
def acceptedAmounts (h : List BidView) : List Int :=
  (h.filter (fun b => b.Accepted)).map (fun b => b.AmountCts)

/-! ## The registry (`Manager`, `engine.go` lines 51-115) -/

structure CreateAuctionParams where
  Title : String
  StartPriceCents : Int
  MinIncrementCents : Int
  DurationSeconds : Int
  SoftCloseSeconds : Int
  ReservePriceCents : Int
deriving DecidableEq, Repr

/-- A `*Room` of the registry.  The `auction` field of the source's `Room` is a `*Auction`:
`auctionPtr` is the address it holds and `room.auction` the value last read or written through
it. -/
structure RoomRef where
  auctionPtr : Nat
  room : Room
deriving DecidableEq, Repr

/-- Source `Manager` (the mutex apart).  `objects` is the store of the `Auction` objects that
`Create` has allocated; a `*Auction` is an index into it. -/
structure Manager where
  objects : List Auction
  auctions : List (String × Nat)
  rooms : List (String × RoomRef)
deriving DecidableEq, Repr

/-- Source `NewManager`. -/
def NewManager : Manager := { objects := [], auctions := [], rooms := [] }

/-- Source `Manager.Get`: the descriptor the returned pointer leads to, if the id is known. -/
def Manager.Get (m : Manager) (id : String) : Option Auction :=
  match mapGet m.auctions id with
  | none => none
  | some ptr => m.objects[ptr]?

/-- Source `Manager.Create`; `now` is the reading of `time.Now()` (nanoseconds since the Unix
epoch) and `rnd` the draw of `rand.IntN(999999)`.  The result is the registry afterwards and
the descriptor the returned pointer leads to. -/
def Manager.Create (m : Manager) (p : CreateAuctionParams) (now : Time) (rnd : Nat) :
    Manager × Auction :=
  let id := toString (now / 1000000000) ++ "-" ++ toString rnd
  let a : Auction :=
    { ID := id
      Title := p.Title
      StartPriceCents := p.StartPriceCents
      MinIncrementCents := p.MinIncrementCents
      ReservePriceCents := p.ReservePriceCents
      EndsAt := Time.Add now (secondsToDuration p.DurationSeconds)
      SoftCloseSeconds := p.SoftCloseSeconds
      CreatedAt := now }
  ({ m with objects := m.objects ++ [a], auctions := mapSet m.auctions a.ID m.objects.length }, a)

/-- Source `Manager.RoomFor`: the registry afterwards and whether a room was returned (the room
is then the one under `id` in `rooms`).  The goroutine `r.run()` it starts is `Manager.runRoom`.
An index of the id map always leads to an object of the store; the branch for a missing object
only makes the function total. -/
def Manager.RoomFor (m : Manager) (id : String) : Manager × Bool :=
  match mapGet m.rooms id with
  | some _ => (m, true)
  | none =>
    match mapGet m.auctions id with
    | none => (m, false)
    | some ptr =>
      match m.objects[ptr]? with
      | none => (m, false)
      | some a =>
        ({ m with rooms := mapSet m.rooms id { auctionPtr := ptr, room := newRoom a } }, true)

/-- One iteration of `Room.run` for the room under `id`, seen from the registry: the room reads
its descriptor through its pointer, takes the step, and what it wrote to the descriptor is in
the store afterwards.  The pointer of a room always leads to an object of the store; the
default of the read only makes the function total. -/
def Manager.stepRoom (m : Manager) (id : String) (s : Step) : Except Panic Manager :=
  match mapGet m.rooms id with
  | none => .ok m
  | some ref =>
    let a := (m.objects[ref.auctionPtr]?).getD ref.room.auction
    match step { ref.room with auction := a } s with
    | .error e => .error e
    | .ok r1 =>
      .ok { m with
        objects := m.objects.set ref.auctionPtr r1.auction
        rooms := mapSet m.rooms id { ref with room := r1 } }

/-- The goroutine `r.run()` of the room under `id` on a finite sequence of picks. -/
def Manager.runRoom (m : Manager) (id : String) : List Step → Except Panic Manager
  | [] => .ok m
  | s :: rest =>
    match Manager.stepRoom m id s with
    | .error e => .error e
    | .ok m1 => Manager.runRoom m1 id rest

/-! ## The transport adapters (`internal/realtime`) -/

/-- A decoded inbound envelope (`clientJoin`, `clientBid` and the envelope struct of the
data-channel handler); a JSON field that is absent is the zero value. -/
structure Envelope where
  Typ : String
  RoomID : String
  User : User
  AmountCts : Int
deriving DecidableEq, Repr

/-- What a transport handler does for one inbound message: a send on the input queue of a
room (named by its id), a call of `Subscribe` on a room, a text frame to the client. -/
inductive Effect where
  | input (room : String) (ev : Event)
  | subscribe (room : String)
  | sendText (frame : String)
deriving DecidableEq, Repr

/-- The body of the read loop of `WSHandler.ServeHTTP` (lines 109-122) for a message that
decodes to `e`, on a connection that joined room `room` with `join.User = joinUser`. -/
def wsOnMessage (room : String) (joinUser : User) (e : Envelope) : List Effect :=
  if e.Typ = "place_bid" then
    [Effect.input room
      { Typ := "place_bid", User := some { ID := e.User.ID, Handle := e.User.Handle },
        AmountCts := e.AmountCts }]
  else if e.Typ = "leave_room" then
    [Effect.input room { Typ := "leave_room", User := some joinUser, AmountCts := 0 }]
  else []

/-- The variables `room` and `user` captured by the data-channel handler of
`SignalWS.ServeHTTP` (lines 60-62); the room is named by its id. -/
structure DCState where
  room : Option String
  user : Option User
deriving DecidableEq, Repr

/-- The `OnMessage` callback of `SignalWS.ServeHTTP` (lines 68-105) for a message that decodes
to `e`: the registry and the captured variables afterwards, and the effects in order. -/
def dcOnMessage (m : Manager) (st : DCState) (e : Envelope) :
    Manager × DCState × List Effect :=
  if e.Typ = "join_room" then
    let user : User := { ID := e.User.ID, Handle := e.User.Handle }
    match Manager.RoomFor m e.RoomID with
    | (m1, false) =>
      (m1, { room := none, user := some user },
        [Effect.sendText "\x7b\"type\":\"error\",\"message\":\"room_not_found\"\x7d"])
    | (m1, true) =>
      (m1, { room := some e.RoomID, user := some user },
        [Effect.subscribe e.RoomID,
         Effect.input e.RoomID { Typ := "join_room", User := some user, AmountCts := 0 }])
  else if e.Typ = "place_bid" then
    match st.room, st.user with
    | some room, some user =>
      (m, st, [Effect.input room
        { Typ := "place_bid", User := some user, AmountCts := e.AmountCts }])
    | _, _ => (m, st, [])
  else if e.Typ = "leave_room" then
    match st.room, st.user with
    | some room, some user =>
      (m, st, [Effect.input room { Typ := "leave_room", User := some user, AmountCts := 0 }])
    | _, _ => (m, st, [])
  else (m, st, [])

/-- The events a handler forwards to room input queues, in order, each with its room. -/
def forwarded : List Effect → List (String × Event)
  | [] => []
  | Effect.input room ev :: rest => (room, ev) :: forwarded rest
  | Effect.subscribe _ :: rest => forwarded rest
  | Effect.sendText _ :: rest => forwarded rest

/-! ## The HTTP boundary (`cmd/rtb-server/main.go`) -/

/-- A `float64`: `some q` is the finite double of value `q`; `none` is an infinity or a NaN.
The operations below return doubles (`roundF64`); their arguments are meant to be doubles. -/
abbrev F64 := Option ℚ

/-- Rounding of a rational to the nearest integer, a tie going to the even neighbour. -/
def roundHalfEven (m : ℚ) : Int :=
  if m - ⌊m⌋ < 1 / 2 then ⌊m⌋
  else if 1 / 2 < m - ⌊m⌋ then ⌊m⌋ + 1
  else if ⌊m⌋ % 2 = 0 then ⌊m⌋ else ⌊m⌋ + 1

/-- The binary exponent of the binade in which a double holds `q`: the exponent of the
leading bit of `q`, and -1022 for every value below the normal range. -/
def f64Exponent (q : ℚ) : Int := max (Int.log 2 |q|) (-1022)

/-- IEEE 754 binary64 rounding of an exact result, to nearest with ties to even: the value
is rounded to a multiple of the unit in the last place of its binade (53 significant bits);
a result of magnitude 2^1024 or more overflows. -/
def roundF64 (q : ℚ) : F64 :=
  let u : ℚ := 2 ^ (f64Exponent q - 52)
  let r : ℚ := roundHalfEven (q / u) * u
  if |r| < 2 ^ (1024 : ℤ) then some r else none

/-- The `float64` product. -/
def F64.mul (a b : F64) : F64 :=
  match a, b with
  | some x, some y => roundF64 (x * y)
  | _, _ => none

/-- The `float64` sum. -/
def F64.add (a b : F64) : F64 :=
  match a, b with
  | some x, some y => roundF64 (x + y)
  | _, _ => none

/-- The `float64` quotient; a division by zero gives an infinity or a NaN. -/
def F64.div (a b : F64) : F64 :=
  match a, b with
  | some x, some y => if y = 0 then none else roundF64 (x / y)
  | _, _ => none

/-- Go `float64(v)` for an `int64` value `v`. -/
def F64.ofInt (v : Int) : F64 := roundF64 v

/-- Go `int64(f)` for a `float64` value `f`: the fraction is discarded (truncation toward
zero); for a value outside the `int64` range, an infinity or a NaN the result is -2^63, the
value that the conversion instruction of amd64 returns (the language leaves it open). -/
def truncToInt64 (v : F64) : Int :=
  match v with
  | none => -9223372036854775808
  | some z =>
    let t : Int := if 0 ≤ z then ⌊z⌋ else ⌈z⌉
    if -9223372036854775808 ≤ t ∧ t ≤ 9223372036854775807 then t else -9223372036854775808

/-- Source `toCents`: `int64(v*100 + 0.5)`; the constants 100 and 0.5 are doubles. -/
def toCents (v : F64) : Int := truncToInt64 (F64.add (F64.mul v (some 100)) (some (1 / 2)))

/-- Source `fromCents`: `float64(v) / 100`. -/
def fromCents (v : Int) : F64 := F64.div (F64.ofInt v) (some 100)

/-- The body of `toCents` as a compiler that fuses the product and the sum into one
multiply-add evaluates it, with a single rounding.  The language permits the fusion; the
amd64 compiler does not fuse by default, and `toCents` above rounds twice. -/
def toCentsFused (v : F64) : Int :=
  match v with
  | some x => truncToInt64 (roundF64 (x * 100 + 1 / 2))
  | none => truncToInt64 none

/-- Specification side, not the program: truncation toward zero of an exact rational. -/
def truncExact (y : ℚ) : Int := if 0 ≤ y then ⌊y⌋ else ⌈y⌉

/-- Specification side, not the program: the conversion to cents with the arithmetic taken
exactly over the rationals, as the specification words it. -/
def toCentsExact (v : ℚ) : Int := truncExact (v * 100 + 1 / 2)

/-- Specification side, not the program: the conversion from cents with the arithmetic taken
exactly over the rationals, as the specification words it. -/
def fromCentsExact (v : Int) : ℚ := (v : ℚ) / 100

/-! ## Specification-side notions for the leader -/

/-- The last accepted record of a history, if there is one. -/
def lastAccepted (h : List BidView) : Option BidView :=
  (h.filter (fun b => b.Accepted)).getLast?

/-- The leader and the last accepted record are absent together, and when present they carry
the same user id and handle. -/
def LeaderInv (r : Room) : Prop :=
  (lastAccepted r.bidHistory).map (fun b => (b.UserID, b.Handle)) =
    r.leader.map (fun u => (u.ID, u.Handle))

/-- The user a bid envelope without a `user` field decodes to. -/
def noUser : User := { ID := "", Handle := "" }

/-- A bid envelope without a `user` field, for 110 cents. -/
def bidWithoutUser : Envelope :=
  { Typ := "place_bid", RoomID := "a1", User := noUser, AmountCts := 110 }

/-! ## Examples for the registry and the transports -/

/-- Example parameters: start 100, increment 10, 5 s long, soft-close window 10 s. -/
def paramsSoft : CreateAuctionParams :=
  { Title := "lot", StartPriceCents := 100, MinIncrementCents := 10, DurationSeconds := 5,
    SoftCloseSeconds := 10, ReservePriceCents := 0 }

/-- Example registry: one auction, created at time 0 with the random draw 7 (id `0-7`), and
its room. -/
def managerSoft : Manager := ((NewManager.Create paramsSoft 0 7).1.RoomFor "0-7").1

/-- The captured variables of a data-channel handler that has joined room `room` as `user`. -/
def dcJoined (room : String) (user : User) : DCState := { room := some room, user := some user }

/-- Alice's own bid of 110 cents, as an envelope. -/
def aliceBid : Envelope :=
  { Typ := "place_bid", RoomID := "0-7", User := alice, AmountCts := 110 }

/-- The descriptor with its end time blanked: what of a descriptor the room never writes. -/
def withoutEndsAt (a : Auction) : Auction := { a with EndsAt := 0 }

/-- The store holds the descriptors `K` up to their end times, the id map is `A`, and the room
under `id` exists and has open wiring. -/
def RegistryInv (K : List Auction) (A : List (String × Nat)) (id : String) (m : Manager) :
    Prop :=
  m.objects.map withoutEndsAt = K ∧ m.auctions = A ∧
    ∃ ref, mapGet m.rooms id = some ref ∧ Wired ref.room

/-! ## Lemmas: machine integers -/

theorem wrap64_eq_self {x : Int} (h : IsInt64 x) : wrap64 x = x := by
  unfold IsInt64 at h
  unfold wrap64
  omega

theorem wrap64_isInt64 (x : Int) : IsInt64 (wrap64 x) := by
  unfold IsInt64 wrap64
  omega

theorem add64_eq_add {a b : Int} (h : IsInt64 (a + b)) : add64 a b = a + b :=
  wrap64_eq_self h

/-! ## Lemmas: broadcasts over open channels do not panic -/

theorem ChansOpen_nil : ChansOpen [] := by
  intro p hp
  cases hp

theorem ChansOpen_cons {p : Int × Chan} {subs : List (Int × Chan)} :
    ChansOpen (p :: subs) ↔ p.2.closed = false ∧ ChansOpen subs := by
  unfold ChansOpen
  simp

theorem trySend_open {ch : Chan} (msg : Outbound) (h : ch.closed = false) :
    trySend ch msg = .ok (enqueue msg ch, decide (ch.buf.length < chanCap)) := by
  unfold trySend enqueue
  by_cases hlen : ch.buf.length < chanCap <;> simp [h, hlen]

theorem broadcastSubs_open (msg : Outbound) :
    ∀ subs : List (Int × Chan), ChansOpen subs →
      broadcastSubs msg subs = .ok (lossySubs msg subs)
  | [], _ => rfl
  | (id, ch) :: rest, h => by
    have hh := ChansOpen_cons.mp h
    have ih := broadcastSubs_open msg rest hh.2
    simp only [broadcastSubs, trySend_open msg hh.1, ih, lossySubs, List.map_cons]

theorem broadcastCriticalSubs_open (msg : Outbound) :
    ∀ subs : List (Int × Chan), ChansOpen subs →
      broadcastCriticalSubs msg subs = .ok (keptSubs msg subs, goneSubs subs)
  | [], _ => rfl
  | (id, ch) :: rest, h => by
    have hh := ChansOpen_cons.mp h
    have hc : ch.closed = false := hh.1
    have ih := broadcastCriticalSubs_open msg rest hh.2
    by_cases hlen : ch.buf.length < chanCap
    · simp [broadcastCriticalSubs, trySend, hc, hlen, ih, keptSubs, goneSubs]
    · simp [broadcastCriticalSubs, trySend, closeChan, hc, hlen, ih, keptSubs, goneSubs]

theorem broadcast_open (r : Room) (msg : Outbound) (h : ChansOpen r.subscribers) :
    broadcast r msg = .ok { r with subscribers := lossySubs msg r.subscribers } := by
  simp only [broadcast, broadcastSubs_open msg r.subscribers h]

theorem broadcastCritical_open (r : Room) (msg : Outbound) (h : ChansOpen r.subscribers) :
    broadcastCritical r msg =
      .ok { r with subscribers := keptSubs msg r.subscribers
                   closedChans := r.closedChans ++ goneSubs r.subscribers } := by
  simp only [broadcastCritical, broadcastCriticalSubs_open msg r.subscribers h]

theorem lossySubs_open {msg : Outbound} {subs : List (Int × Chan)} (h : ChansOpen subs) :
    ChansOpen (lossySubs msg subs) := by
  intro p hp
  simp only [lossySubs, List.mem_map] at hp
  obtain ⟨q, hq, rfl⟩ := hp
  have := h q hq
  simp only [enqueue]
  split <;> simpa using this

theorem keptSubs_open {msg : Outbound} {subs : List (Int × Chan)} (h : ChansOpen subs) :
    ChansOpen (keptSubs msg subs) := by
  intro p hp
  simp only [keptSubs, List.mem_map, List.mem_filter] at hp
  obtain ⟨q, hq, rfl⟩ := hp
  exact h q hq.1

theorem mapKeys_lossySubs (msg : Outbound) (subs : List (Int × Chan)) :
    mapKeys (lossySubs msg subs) = mapKeys subs := by
  simp [mapKeys, lossySubs, List.map_map, Function.comp_def]

theorem broadcastState_open (r : Room) (h : ChansOpen r.subscribers) :
    broadcastState r = .ok { r with subscribers := lossySubs (stateMsg r) r.subscribers } := by
  simp only [broadcastState, stateMsg, broadcast_open r _ h]

/-! ## Lemmas: `processBid` -/

theorem bidVerdict_reason (r : Room) (ev : Event) (now clk : Time) :
    (bidVerdict r ev now clk).2.2 = specReason r ev now := by
  unfold bidVerdict specReason Time.After
  cases ev.User with
  | none => rfl
  | some u =>
    by_cases h1 : r.auction.EndsAt < now
    · simp [h1]
    · by_cases h2 : ev.AmountCts < add64 r.currentPriceCts r.auction.MinIncrementCents
      · simp [h1, h2]
      · simp [h1, h2]

theorem bidVerdict_accepted_iff (r : Room) (ev : Event) (now clk : Time) :
    (bidVerdict r ev now clk).2.1 = true ↔ specReason r ev now = "" := by
  unfold bidVerdict specReason Time.After
  cases ev.User with
  | none => simp
  | some u =>
    by_cases h1 : r.auction.EndsAt < now
    · simp [h1]
    · by_cases h2 : ev.AmountCts < add64 r.currentPriceCts r.auction.MinIncrementCents
      · simp [h1, h2]
      · simp [h1, h2]

theorem bidVerdict_rejected_room (r : Room) (ev : Event) (now clk : Time)
    (h : (bidVerdict r ev now clk).2.1 = false) : (bidVerdict r ev now clk).1 = r := by
  unfold bidVerdict Time.After at h ⊢
  cases hu : ev.User with
  | none => rfl
  | some u =>
    rw [hu] at h
    by_cases h1 : r.auction.EndsAt < now
    · simp [h1]
    · by_cases h2 : ev.AmountCts < add64 r.currentPriceCts r.auction.MinIncrementCents
      · simp [h1, h2]
      · simp [h1, h2] at h

theorem processBid_rejected (r : Room) (ev : Event) (now clk : Time)
    (h : (bidVerdict r ev now clk).2.1 = false) :
    processBid r ev now clk =
      broadcast { r with bidHistory := r.bidHistory ++
          [bidEntry ev false (specReason r ev now) now] }
        (rejectedMsg r (specReason r ev now)) := by
  have h1 := bidVerdict_rejected_room r ev now clk h
  have h2 := bidVerdict_reason r ev now clk
  unfold processBid
  rcases hv : bidVerdict r ev now clk with ⟨r1, acc, reason⟩
  rw [hv] at h h1 h2
  simp only at h h1 h2
  subst h h1 h2
  simp [rejectedMsg]

theorem bidVerdict_accepted (r : Room) (ev : Event) (now clk : Time)
    (h : (bidVerdict r ev now clk).2.1 = true) :
    (∃ u, ev.User = some u) ∧ now ≤ r.auction.EndsAt ∧
      add64 r.currentPriceCts r.auction.MinIncrementCents ≤ ev.AmountCts ∧
      (bidVerdict r ev now clk).1 =
        { r with currentPriceCts := ev.AmountCts
                 leader := ev.User
                 auction := { r.auction with EndsAt := extendedEndsAt r.auction clk } } := by
  unfold bidVerdict Time.After at h ⊢
  cases hu : ev.User with
  | none => rw [hu] at h; simp at h
  | some u =>
    rw [hu] at h
    by_cases h1 : r.auction.EndsAt < now
    · simp [h1] at h
    · by_cases h2 : ev.AmountCts < add64 r.currentPriceCts r.auction.MinIncrementCents
      · simp [h1, h2] at h
      · refine ⟨⟨u, rfl⟩, not_lt.mp h1, not_lt.mp h2, ?_⟩
        unfold extendedEndsAt
        by_cases h3 : 0 < r.auction.SoftCloseSeconds
        · by_cases h4 : Time.Until clk r.auction.EndsAt ≤
              secondsToDuration r.auction.SoftCloseSeconds
          · simp [h1, h2, h3, h4]
          · simp [h1, h2, h3, h4]
        · simp [h1, h2, h3]

theorem processBid_accepted (r : Room) (ev : Event) (now clk : Time)
    (hopen : ChansOpen r.subscribers) (h : (bidVerdict r ev now clk).2.1 = true) :
    processBid r ev now clk = .ok (acceptedRoom r ev now clk) := by
  obtain ⟨⟨u, hu⟩, -, -, h1⟩ := bidVerdict_accepted r ev now clk h
  have h2 := bidVerdict_reason r ev now clk
  have h3 := (bidVerdict_accepted_iff r ev now clk).mp h
  rw [h3] at h2
  unfold processBid
  rcases hv : bidVerdict r ev now clk with ⟨r1, acc, reason⟩
  rw [hv] at h h1 h2
  simp only at h h1 h2
  subst h h1 h2
  have hk : ∀ m, ChansOpen (keptSubs m r.subscribers) := fun m => keptSubs_open hopen
  simp only [hu, deref, if_true, broadcastCritical, broadcastCriticalSubs_open _ _ hopen,
    broadcastState, broadcast, broadcastSubs_open _ _ (hk _)]
  simp [acceptedRoom, acceptedEvicted, acceptedCore, acceptedMsg, stateMsg, hu, userID,
    userHandle]

/-- With open subscriber channels an accepted bid satisfies the checks of lines 216-226 and
installs the new price and leader; the increment inequality is the one of the program's
`int64` sum, and the one of the true sum whenever that sum is an `int64`. -/
theorem processBid_accept_sound (r : Room) (ev : Event) (now clk : Time)
    (hopen : ChansOpen r.subscribers) (h : (bidVerdict r ev now clk).2.1 = true) :
    ∃ r', processBid r ev now clk = .ok r' ∧ now ≤ r.auction.EndsAt ∧
      r'.currentPriceCts = ev.AmountCts ∧ r'.leader = ev.User ∧ (∃ u, ev.User = some u) ∧
      add64 r.currentPriceCts r.auction.MinIncrementCents ≤ ev.AmountCts ∧
      (IsInt64 (r.currentPriceCts + r.auction.MinIncrementCents) →
        r.currentPriceCts + r.auction.MinIncrementCents ≤ ev.AmountCts) := by
  obtain ⟨hu, h1, h2, -⟩ := bidVerdict_accepted r ev now clk h
  refine ⟨_, processBid_accepted r ev now clk hopen h, h1, rfl, rfl, hu, h2, ?_⟩
  intro hr
  rw [add64_eq_add hr] at h2
  exact h2

/-! ## C1: the accepted amount against price plus increment -/

/-- C1 (code defect): in the room reached from `newRoom` by one accepted bid of the largest
`int64`, `processBid` accepts a bid of 0 from a present user before the end time and makes 0
the current price, although current-price + min-increment, as integers, exceeds the amount:
the sum of line 220 wraps around. -/
theorem processBid_accepts_under_wrapped_sum :
    ∃ r1 r2, run (newRoom auctionA)
        [Step.input (placeBid alice 9223372036854775807) 1000 1001] = .ok r1 ∧
      processBid r1 (placeBid bob 0) 2000 2001 = .ok r2 ∧
      (bidVerdict r1 (placeBid bob 0) 2000 2001).2.1 = true ∧
      (2000 : Int) ≤ r1.auction.EndsAt ∧
      r1.currentPriceCts = 9223372036854775807 ∧ r1.auction.MinIncrementCents = 10 ∧
      r2.currentPriceCts = 0 ∧ r2.leader = some bob ∧
      ¬ (r1.currentPriceCts + r1.auction.MinIncrementCents ≤ (placeBid bob 0).AmountCts) := by
  refine ⟨_, _, rfl, rfl, ?_, ?_, ?_, ?_, ?_, ?_, ?_⟩ <;> decide

/-! ## C2: the accepted amounts of a run -/

/-- C2 (code defect): from `newRoom` of an auction with a positive increment, the run
subscribe, join, bid of the largest `int64`, bid of 0 leaves two accepted records whose
amounts, in order, are 9223372036854775807 and 0: they are not strictly increasing. -/
theorem accepted_amounts_can_decrease :
    0 < auctionA.MinIncrementCents ∧
    ∃ r, run (newRoom auctionA)
        [Step.subscribe,
         Step.input { Typ := "join_room", User := some alice, AmountCts := 0 } 500 500,
         Step.input (placeBid alice 9223372036854775807) 1000 1001,
         Step.input (placeBid alice 0) 2000 2001] = .ok r ∧
      acceptedAmounts r.bidHistory = [9223372036854775807, 0] ∧
      ¬ List.Chain' (fun x y : Int => x < y) (acceptedAmounts r.bidHistory) := by
  have hrun : ∃ r, run (newRoom auctionA)
        [Step.subscribe,
         Step.input { Typ := "join_room", User := some alice, AmountCts := 0 } 500 500,
         Step.input (placeBid alice 9223372036854775807) 1000 1001,
         Step.input (placeBid alice 0) 2000 2001] = .ok r ∧
      acceptedAmounts r.bidHistory = [9223372036854775807, 0] := ⟨_, rfl, by decide⟩
  obtain ⟨r, h1, h2⟩ := hrun
  refine ⟨by decide, r, h1, h2, ?_⟩
  rw [h2]
  simp

/-! ## C3: the order of the checks -/

/-- With open subscriber channels `processBid` takes the reason from the first failing check
in the order user absent, `now` after the end time, amount below the `int64` sum
current-price + min-increment, and accepts with the empty reason otherwise; the appended
record carries that reason, and on a rejection the subscriber map is the lossy broadcast of
the `bid_rejected` message with exactly that reason.  Whenever the true sum
current-price + min-increment is an `int64`, the third check is the comparison with the true
sum. -/
theorem processBid_reason_order (r : Room) (ev : Event) (now clk : Time)
    (hopen : ChansOpen r.subscribers) :
    (bidVerdict r ev now clk).2.2 = specReason r ev now ∧
    ((bidVerdict r ev now clk).2.1 = true ↔ specReason r ev now = "") ∧
    (∃ r', processBid r ev now clk = .ok r' ∧
      r'.bidHistory = r.bidHistory ++
        [bidEntry ev (decide (specReason r ev now = "")) (specReason r ev now) now] ∧
      (specReason r ev now ≠ "" →
        r'.subscribers = lossySubs (rejectedMsg r (specReason r ev now)) r.subscribers)) ∧
    (IsInt64 (r.currentPriceCts + r.auction.MinIncrementCents) →
      specReason r ev now = specReasonExact r ev now) := by
  refine ⟨bidVerdict_reason r ev now clk, bidVerdict_accepted_iff r ev now clk, ?_, ?_⟩
  · cases hacc : (bidVerdict r ev now clk).2.1 with
    | true =>
      have hs := (bidVerdict_accepted_iff r ev now clk).mp hacc
      refine ⟨_, processBid_accepted r ev now clk hopen hacc, ?_, ?_⟩
      · simp [acceptedRoom, acceptedEvicted, acceptedCore, hs]
      · intro hne
        exact absurd hs hne
    | false =>
      have hs : specReason r ev now ≠ "" := by
        intro hh
        have := (bidVerdict_accepted_iff r ev now clk).mpr hh
        rw [hacc] at this
        cases this
      rw [processBid_rejected r ev now clk hacc]
      simp only [broadcast, broadcastSubs_open _ _ hopen]
      refine ⟨_, rfl, ?_, ?_⟩
      · simp [hs]
      · intro _
        rfl
  · intro hr
    unfold specReason specReasonExact
    rw [add64_eq_add hr]

/-- In the example room a bid of 105 against price 100 and increment 10 is tagged
`below_min_increment`. -/
theorem processBid_reason_order_witness :
    ChansOpen roomA.subscribers ∧
    (bidVerdict roomA (placeBid alice 105) 1000 1001).2.2 = "below_min_increment" := by
  refine ⟨by decide, ?_⟩
  have h := (processBid_reason_order roomA (placeBid alice 105) 1000 1001 (by decide)).1
  rw [h]
  decide

/-- C3 (code defect): in the room reached from `newRoom` by a subscribe request and one
accepted bid of the largest `int64`, a bid of 0 by a present user before the end time is below
current-price + min-increment, so the ordered checks give `below_min_increment`; `processBid`
decides with the empty reason and accepts, the record it appends is accepted with an empty
reason, and no `bid_rejected` message reaches the subscriber. -/
theorem reason_order_breaks_under_wrapped_sum :
    ∃ r1 r2, run (newRoom auctionA)
        [Step.subscribe, Step.input (placeBid alice 9223372036854775807) 1000 1001] = .ok r1 ∧
      (placeBid bob 0).User = some bob ∧ ¬ (r1.auction.EndsAt < 2000) ∧
      (placeBid bob 0).AmountCts < r1.currentPriceCts + r1.auction.MinIncrementCents ∧
      specReasonExact r1 (placeBid bob 0) 2000 = "below_min_increment" ∧
      (bidVerdict r1 (placeBid bob 0) 2000 2001).2.2 = "" ∧
      (bidVerdict r1 (placeBid bob 0) 2000 2001).2.1 = true ∧
      processBid r1 (placeBid bob 0) 2000 2001 = .ok r2 ∧
      r2.bidHistory.getLast? = some (bidEntry (placeBid bob 0) true "" 2000) ∧
      (∀ p ∈ r2.subscribers, ∀ m ∈ p.2.buf, m.Typ ≠ "bid_rejected") := by
  refine ⟨_, _, rfl, ?_, ?_, ?_, ?_, ?_, ?_, rfl, ?_, ?_⟩ <;> decide

/-! ## C4: anti-sniping -/

theorem saturated_le_window (d s : Int) (hs : 0 < s)
    (hfit : s * 1000000000 ≤ 9223372036854775807) :
    ((if d < -9223372036854775808 then (-9223372036854775808 : Int)
      else if 9223372036854775807 < d then 9223372036854775807 else d) ≤ s * 1000000000) ↔
      d ≤ s * 1000000000 := by
  split_ifs <;> constructor <;> intro <;> omega

theorem extendedEndsAt_eq_spec (a : Auction) (clk : Time)
    (hfit : a.SoftCloseSeconds * Second ≤ maxDuration) :
    extendedEndsAt a clk = antiSnipingSpec a clk := by
  unfold extendedEndsAt antiSnipingSpec
  by_cases hpos : 0 < a.SoftCloseSeconds
  · have hw : secondsToDuration a.SoftCloseSeconds = a.SoftCloseSeconds * Second := by
      unfold secondsToDuration mul64
      apply wrap64_eq_self
      unfold IsInt64
      unfold Second maxDuration at *
      constructor <;> omega
    have hu : (Time.Until clk a.EndsAt ≤ a.SoftCloseSeconds * Second) ↔
        (a.EndsAt - clk ≤ a.SoftCloseSeconds * Second) :=
      saturated_le_window (a.EndsAt - clk) a.SoftCloseSeconds hpos hfit
    rw [hw]
    simp only [hpos, true_and, hu, Time.Add]
  · simp [hpos]

/-- C4 (counterexample): a bid stamped `now` = 89.999999999 s on an auction ending at 100 s
with a 10 s window has `ends-at - now` = 10.000000001 s, above the window, so the rule stated
with `now` leaves the end time at 100 s; `time.Until` reads the clock 1 ns later, finds exactly
10 s remaining and `processBid` moves the end time to 110 s. -/
theorem antiSniping_not_measured_from_now :
    ∃ r', processBid (newRoom auctionSoft) (placeBid alice 110) 89999999999 90000000000 = .ok r' ∧
      (bidVerdict (newRoom auctionSoft) (placeBid alice 110) 89999999999 90000000000).2.1 = true ∧
      antiSnipingSpec (newRoom auctionSoft).auction 89999999999 = 100000000000 ∧
      r'.auction.EndsAt = 110000000000 ∧
      r'.auction.EndsAt ≠ antiSnipingSpec (newRoom auctionSoft).auction 89999999999 := by
  refine ⟨_, rfl, ?_, ?_, ?_, ?_⟩ <;> decide

/-- C4 (amended): for every accepted bid on a room whose soft-close window, in nanoseconds,
fits `time.Duration`, with remaining = ends-at-before - clk where `clk` is the clock reading
`time.Until` takes (line 229): if the window is positive and remaining is at most the window
then ends-at-after = ends-at-before + window, otherwise ends-at-after = ends-at-before; the
other fields of the auction are unchanged, and a window of zero never changes ends-at. -/
theorem processBid_antiSniping (r : Room) (ev : Event) (now clk : Time)
    (hopen : ChansOpen r.subscribers) (hacc : (bidVerdict r ev now clk).2.1 = true)
    (hfit : r.auction.SoftCloseSeconds * Second ≤ maxDuration) :
    ∃ r', processBid r ev now clk = .ok r' ∧
      r'.auction = { r.auction with EndsAt := antiSnipingSpec r.auction clk } ∧
      (0 < r.auction.SoftCloseSeconds →
        r.auction.EndsAt - clk ≤ r.auction.SoftCloseSeconds * Second →
        r'.auction.EndsAt = r.auction.EndsAt + r.auction.SoftCloseSeconds * Second) ∧
      (r.auction.SoftCloseSeconds * Second < r.auction.EndsAt - clk →
        r'.auction.EndsAt = r.auction.EndsAt) ∧
      (r.auction.SoftCloseSeconds = 0 → r'.auction.EndsAt = r.auction.EndsAt) := by
  have hspec := extendedEndsAt_eq_spec r.auction clk hfit
  refine ⟨_, processBid_accepted r ev now clk hopen hacc, ?_, ?_, ?_, ?_⟩
  · simp [acceptedRoom, acceptedEvicted, acceptedCore, hspec]
  · intro h1 h2
    simp [acceptedRoom, acceptedEvicted, acceptedCore, hspec, antiSnipingSpec, h1, h2]
  · intro h1
    have : ¬ (r.auction.EndsAt - clk ≤ r.auction.SoftCloseSeconds * Second) := not_le.mpr h1
    simp [acceptedRoom, acceptedEvicted, acceptedCore, hspec, antiSnipingSpec, this]
  · intro h1
    simp [acceptedRoom, acceptedEvicted, acceptedCore, hspec, antiSnipingSpec, h1]

/-- Witness of `processBid_antiSniping`: a bid accepted 5 s before the end of `auctionSoft`
moves the end time from 100 s to 110 s. -/
theorem processBid_antiSniping_witness :
    ChansOpen (newRoom auctionSoft).subscribers ∧
    (bidVerdict (newRoom auctionSoft) (placeBid alice 110) 95000000000 95000000001).2.1 = true ∧
    (newRoom auctionSoft).auction.SoftCloseSeconds * Second ≤ maxDuration ∧
    ∃ r', processBid (newRoom auctionSoft) (placeBid alice 110) 95000000000 95000000001 = .ok r' ∧
      r'.auction.EndsAt = 110000000000 := by
  refine ⟨by decide, by decide, by decide, ?_⟩
  obtain ⟨r', h1, h2, -⟩ := processBid_antiSniping (newRoom auctionSoft) (placeBid alice 110)
    95000000000 95000000001 (by decide) (by decide) (by decide)
  refine ⟨r', h1, ?_⟩
  rw [h2]
  decide

/-! ## C5: the end time along the writer steps -/

/-- C5 (code defect): on `auctionWrap` the soft-close window of 15817289833210771 s becomes
the duration -512 ns (the `int64` product of line 230 wraps around); a bid stamped at the end
time is accepted, `time.Until` reads the clock 1000 ns later and returns -1000 ns, which is
below the wrapped window, and the step moves the end time 512 ns back. -/
theorem step_can_decrease_endsAt :
    ∃ r', step (newRoom auctionWrap)
        (Step.input (placeBid alice 110) 60000000000 60000001000) = .ok r' ∧
      secondsToDuration auctionWrap.SoftCloseSeconds = -512 ∧
      IsInt64 auctionWrap.SoftCloseSeconds ∧
      (newRoom auctionWrap).auction.EndsAt = 60000000000 ∧
      r'.auction.EndsAt = 59999999488 ∧
      r'.auction.EndsAt < (newRoom auctionWrap).auction.EndsAt := by
  refine ⟨_, rfl, ?_, ?_, ?_, ?_, ?_⟩ <;> decide

/-! ## Lemmas: maps as association lists -/

theorem mem_mapKeys {α β : Type} {m : List (α × β)} {k : α} :
    k ∈ mapKeys m ↔ ∃ v, (k, v) ∈ m := by
  simp [mapKeys]

theorem mapGet_mem {α β : Type} [DecidableEq α] :
    ∀ (m : List (α × β)) (k : α) (v : β), mapGet m k = some v → (k, v) ∈ m
  | [], _, _, h => by simp [mapGet] at h
  | (k1, v1) :: rest, k, v, h => by
    unfold mapGet at h
    by_cases hk : k1 = k
    · simp only [hk, if_true, Option.some.injEq] at h
      subst hk h
      exact List.mem_cons_self _ _
    · simp only [hk, if_false] at h
      exact List.mem_cons_of_mem _ (mapGet_mem rest k v h)

theorem mapGet_none {α β : Type} [DecidableEq α] :
    ∀ (m : List (α × β)) (k : α), mapGet m k = none ↔ k ∉ mapKeys m
  | [], _ => by simp [mapGet, mapKeys]
  | (k1, v1) :: rest, k => by
    have ih := mapGet_none rest k
    unfold mapGet
    by_cases hk : k1 = k
    · simp [hk, mapKeys]
    · have hk2 : ¬ k = k1 := fun h => hk h.symm
      simp only [hk, if_false, ih, mapKeys, List.map_cons, List.mem_cons, hk2, false_or]

theorem mapGet_of_mem {α β : Type} [DecidableEq α] :
    ∀ (m : List (α × β)) (k : α) (v : β), (mapKeys m).Nodup → (k, v) ∈ m →
      mapGet m k = some v
  | [], _, _, _, h => by cases h
  | (k1, v1) :: rest, k, v, hnd, h => by
    simp only [mapKeys, List.map_cons, List.nodup_cons] at hnd
    unfold mapGet
    rcases List.mem_cons.mp h with heq | hmem
    · cases heq
      simp
    · have hne : k1 ≠ k := by
        intro hk
        subst hk
        exact hnd.1 (List.mem_map.mpr ⟨(k1, v), hmem, rfl⟩)
      simp only [hne, if_false]
      exact mapGet_of_mem rest k v hnd.2 hmem

theorem mem_mapDelete {α β : Type} [DecidableEq α] :
    ∀ (m : List (α × β)) (k : α) (p : α × β), p ∈ mapDelete m k ↔ p ∈ m ∧ p.1 ≠ k
  | [], _, _ => by simp [mapDelete]
  | (k1, v1) :: rest, k, p => by
    have ih := mem_mapDelete rest k p
    unfold mapDelete
    by_cases hk : k1 = k
    · simp only [hk, if_true, ih, List.mem_cons]
      constructor
      · intro h
        exact ⟨Or.inr h.1, h.2⟩
      · rintro ⟨h1 | h1, h2⟩
        · subst h1
          exact absurd rfl h2
        · exact ⟨h1, h2⟩
    · simp only [hk, if_false, List.mem_cons, ih]
      constructor
      · rintro (h | h)
        · subst h
          exact ⟨Or.inl rfl, hk⟩
        · exact ⟨Or.inr h.1, h.2⟩
      · rintro ⟨h1 | h1, h2⟩
        · exact Or.inl h1
        · exact Or.inr ⟨h1, h2⟩

theorem mapDelete_sublist {α β : Type} [DecidableEq α] :
    ∀ (m : List (α × β)) (k : α), (mapDelete m k).Sublist m
  | [], _ => by simp [mapDelete]
  | (k1, v1) :: rest, k => by
    unfold mapDelete
    by_cases hk : k1 = k
    · simp only [hk, if_true]
      exact (mapDelete_sublist rest k).trans (List.sublist_cons_self _ _)
    · simp only [hk, if_false]
      exact (mapDelete_sublist rest k).cons₂ _

theorem mapSet_fresh {α β : Type} [DecidableEq α] :
    ∀ (m : List (α × β)) (k : α) (v : β), k ∉ mapKeys m → mapSet m k v = m ++ [(k, v)]
  | [], _, _, _ => rfl
  | (k1, v1) :: rest, k, v, h => by
    simp only [mapKeys, List.map_cons, List.mem_cons, not_or] at h
    have hk : ¬ k1 = k := fun e => h.1 e.symm
    unfold mapSet
    simp only [hk, if_false, List.cons_append]
    rw [mapSet_fresh rest k v h.2]

theorem mapSet_append_same {α β : Type} [DecidableEq α] :
    ∀ (m : List (α × β)) (k : α) (v w : β), k ∉ mapKeys m →
      mapSet (m ++ [(k, v)]) k w = m ++ [(k, w)]
  | [], _, _, _, _ => by simp [mapSet]
  | (k1, v1) :: rest, k, v, w, h => by
    simp only [mapKeys, List.map_cons, List.mem_cons, not_or] at h
    have hk : ¬ k1 = k := fun e => h.1 e.symm
    simp only [List.cons_append]
    unfold mapSet
    simp only [hk, if_false]
    rw [mapSet_append_same rest k v w h.2]

theorem eq_of_mem_of_nodupKeys {β : Type} {m : List (Int × β)} (hnd : (mapKeys m).Nodup)
    {k : Int} {v w : β} (hv : (k, v) ∈ m) (hw : (k, w) ∈ m) : v = w := by
  have h := List.inj_on_of_nodup_map hnd hv hw rfl
  exact (Prod.mk.injEq _ _ _ _ ▸ h).2

/-! ## Lemmas: the subscriber wiring under broadcasts, subscribe and unsubscribe -/

theorem mapKeys_keptSubs (msg : Outbound) (subs : List (Int × Chan)) :
    mapKeys (keptSubs msg subs) =
      mapKeys (subs.filter (fun p => decide (p.2.buf.length < chanCap))) := by
  simp [mapKeys, keptSubs, List.map_map, Function.comp_def]

theorem mapKeys_keptSubs_sublist (msg : Outbound) (subs : List (Int × Chan)) :
    (mapKeys (keptSubs msg subs)).Sublist (mapKeys subs) := by
  rw [mapKeys_keptSubs]
  exact List.Sublist.map _ (List.filter_sublist _)

theorem mem_keptSubs {msg : Outbound} {subs : List (Int × Chan)} {id : Int} {ch1 : Chan} :
    (id, ch1) ∈ keptSubs msg subs ↔
      ∃ ch, (id, ch) ∈ subs ∧ ch.buf.length < chanCap ∧
        ch1 = { ch with buf := ch.buf ++ [msg] } := by
  simp only [keptSubs, List.mem_map, List.mem_filter, decide_eq_true_eq, Prod.mk.injEq,
    Prod.exists]
  constructor
  · rintro ⟨a, b, ⟨hm, hl⟩, ha, hb⟩
    subst ha
    exact ⟨b, hm, hl, hb.symm⟩
  · rintro ⟨ch, hm, hl, he⟩
    exact ⟨id, ch, ⟨hm, hl⟩, rfl, he.symm⟩

theorem mem_goneSubs {subs : List (Int × Chan)} {id : Int} {ch1 : Chan} :
    (id, ch1) ∈ goneSubs subs ↔
      ∃ ch, (id, ch) ∈ subs ∧ ¬ ch.buf.length < chanCap ∧ ch1 = { ch with closed := true } := by
  simp only [goneSubs, List.mem_map, List.mem_filter, Bool.not_eq_true', decide_eq_false_iff_not,
    Prod.mk.injEq, Prod.exists]
  constructor
  · rintro ⟨a, b, ⟨hm, hl⟩, ha, hb⟩
    subst ha
    exact ⟨b, hm, hl, hb.symm⟩
  · rintro ⟨ch, hm, hl, he⟩
    exact ⟨id, ch, ⟨hm, hl⟩, rfl, he.symm⟩

theorem mem_lossySubs {msg : Outbound} {subs : List (Int × Chan)} {id : Int} {ch1 : Chan} :
    (id, ch1) ∈ lossySubs msg subs ↔ ∃ ch, (id, ch) ∈ subs ∧ ch1 = enqueue msg ch := by
  simp only [lossySubs, List.mem_map, Prod.mk.injEq, Prod.exists]
  constructor
  · rintro ⟨a, b, hm, ha, hb⟩
    subst ha
    exact ⟨b, hm, hb.symm⟩
  · rintro ⟨ch, hm, he⟩
    exact ⟨id, ch, hm, rfl, he.symm⟩

theorem wfSubs_lossy {subs closed : List (Int × Chan)} {next : Int} (msg : Outbound)
    (h : WFSubs subs closed next) : WFSubs (lossySubs msg subs) closed next where
  chansOpen := lossySubs_open h.chansOpen
  closedClosed := h.closedClosed
  keysNodup := by rw [mapKeys_lossySubs]; exact h.keysNodup
  keysLt := by rw [mapKeys_lossySubs]; exact h.keysLt
  closedLt := h.closedLt
  closedAbsent := by rw [mapKeys_lossySubs]; exact h.closedAbsent

theorem wfSubs_critical {subs closed : List (Int × Chan)} {next : Int} (msg : Outbound)
    (h : WFSubs subs closed next) :
    WFSubs (keptSubs msg subs) (closed ++ goneSubs subs) next where
  chansOpen := keptSubs_open h.chansOpen
  closedClosed := by
    intro p hp
    rcases List.mem_append.mp hp with hp | hp
    · exact h.closedClosed p hp
    · obtain ⟨ch, -, -, he⟩ := mem_goneSubs.mp (show (p.1, p.2) ∈ goneSubs subs from hp)
      rw [he]
  keysNodup := h.keysNodup.sublist (mapKeys_keptSubs_sublist msg subs)
  keysLt := fun k hk => h.keysLt k ((mapKeys_keptSubs_sublist msg subs).subset hk)
  closedLt := by
    intro p hp
    rcases List.mem_append.mp hp with hp | hp
    · exact h.closedLt p hp
    · obtain ⟨ch, hm, -, -⟩ := mem_goneSubs.mp (show (p.1, p.2) ∈ goneSubs subs from hp)
      exact h.keysLt p.1 (mem_mapKeys.mpr ⟨ch, hm⟩)
  closedAbsent := by
    intro p hp hk
    rcases List.mem_append.mp hp with hp | hp
    · exact h.closedAbsent p hp ((mapKeys_keptSubs_sublist msg subs).subset hk)
    · obtain ⟨ch, hm, hfull, -⟩ := mem_goneSubs.mp (show (p.1, p.2) ∈ goneSubs subs from hp)
      obtain ⟨v, hv⟩ := mem_mapKeys.mp hk
      obtain ⟨ch2, hm2, hroom, -⟩ := mem_keptSubs.mp hv
      have := eq_of_mem_of_nodupKeys h.keysNodup hm hm2
      subst this
      exact hfull hroom

theorem wfSubs_subscribe {subs closed : List (Int × Chan)} {next : Int} (ch : Chan)
    (hch : ch.closed = false) (h : WFSubs subs closed next) :
    WFSubs (subs ++ [(next, ch)]) closed (next + 1) where
  chansOpen := by
    intro p hp
    rcases List.mem_append.mp hp with hp | hp
    · exact h.chansOpen p hp
    · rw [List.mem_singleton.mp hp]
      exact hch
  closedClosed := h.closedClosed
  keysNodup := by
    have hfresh : next ∉ mapKeys subs := fun hk => lt_irrefl _ (h.keysLt next hk)
    simp only [mapKeys, List.map_append, List.map_cons, List.map_nil]
    exact List.Nodup.append h.keysNodup (List.nodup_singleton _)
      (by
        intro a ha hb
        rw [List.mem_singleton.mp hb] at ha
        exact hfresh ha)
  keysLt := by
    intro k hk
    simp only [mapKeys, List.map_append, List.map_cons, List.map_nil, List.mem_append,
      List.mem_singleton] at hk
    rcases hk with hk | hk
    · exact lt_trans (h.keysLt k hk) (lt_add_one _)
    · rw [hk]
      exact lt_add_one _
  closedLt := fun p hp => lt_trans (h.closedLt p hp) (lt_add_one _)
  closedAbsent := by
    intro p hp hk
    simp only [mapKeys, List.map_append, List.map_cons, List.map_nil, List.mem_append,
      List.mem_singleton] at hk
    rcases hk with hk | hk
    · exact h.closedAbsent p hp hk
    · exact lt_irrefl _ (hk ▸ h.closedLt p hp)

theorem wfSubs_unsubscribe {subs closed : List (Int × Chan)} {next : Int} {id : Int}
    {ch : Chan} (hm : (id, ch) ∈ subs) (h : WFSubs subs closed next) :
    WFSubs (mapDelete subs id) (closed ++ [(id, { ch with closed := true })]) next where
  chansOpen := fun p hp => h.chansOpen p ((mem_mapDelete subs id p).mp hp).1
  closedClosed := by
    intro p hp
    rcases List.mem_append.mp hp with hp | hp
    · exact h.closedClosed p hp
    · rw [List.mem_singleton.mp hp]
  keysNodup := h.keysNodup.sublist (List.Sublist.map _ (mapDelete_sublist subs id))
  keysLt := fun k hk =>
    h.keysLt k ((List.Sublist.map _ (mapDelete_sublist subs id)).subset hk)
  closedLt := by
    intro p hp
    rcases List.mem_append.mp hp with hp | hp
    · exact h.closedLt p hp
    · rw [List.mem_singleton.mp hp]
      exact h.keysLt id (mem_mapKeys.mpr ⟨ch, hm⟩)
  closedAbsent := by
    intro p hp hk
    obtain ⟨v, hv⟩ := mem_mapKeys.mp hk
    have hv2 := (mem_mapDelete subs id (p.1, v)).mp hv
    rcases List.mem_append.mp hp with hp | hp
    · exact h.closedAbsent p hp (mem_mapKeys.mpr ⟨v, hv2.1⟩)
    · rw [List.mem_singleton.mp hp] at hv2
      exact hv2.2 rfl

theorem extendsBelow_refl (n : Int) (subs : List (Int × Chan)) : ExtendsBelow n subs subs :=
  fun _ ch1 hm _ => ⟨ch1, [], hm, by simp⟩

theorem extendsBelow_trans {n : Int} {s0 s1 s2 : List (Int × Chan)}
    (h01 : ExtendsBelow n s0 s1) (h12 : ExtendsBelow n s1 s2) : ExtendsBelow n s0 s2 := by
  intro id ch2 hm hlt
  obtain ⟨ch1, t1, hm1, e1⟩ := h12 id ch2 hm hlt
  obtain ⟨ch0, t0, hm0, e0⟩ := h01 id ch1 hm1 hlt
  exact ⟨ch0, t0 ++ t1, hm0, by rw [e1, e0, List.append_assoc]⟩

theorem extendsBelow_lossy (n : Int) (msg : Outbound) (subs : List (Int × Chan)) :
    ExtendsBelow n subs (lossySubs msg subs) := by
  intro id ch1 hm _
  obtain ⟨ch, hmem, he⟩ := mem_lossySubs.mp hm
  subst he
  unfold enqueue
  by_cases hl : ch.buf.length < chanCap
  · exact ⟨ch, [msg], hmem, by simp [hl]⟩
  · exact ⟨ch, [], hmem, by simp [hl]⟩

theorem extendsBelow_kept (n : Int) (msg : Outbound) (subs : List (Int × Chan)) :
    ExtendsBelow n subs (keptSubs msg subs) := by
  intro id ch1 hm _
  obtain ⟨ch, hmem, -, he⟩ := mem_keptSubs.mp hm
  subst he
  exact ⟨ch, [msg], hmem, rfl⟩

theorem extendsBelow_delete (n : Int) (k : Int) (subs : List (Int × Chan)) :
    ExtendsBelow n subs (mapDelete subs k) :=
  fun _ ch1 hm _ => ⟨ch1, [], ((mem_mapDelete subs k _).mp hm).1, by simp⟩

theorem extendsBelow_append_fresh (n : Int) (ch : Chan) (subs : List (Int × Chan)) :
    ExtendsBelow n subs (subs ++ [(n, ch)]) := by
  intro id ch1 hm hlt
  rcases List.mem_append.mp hm with hm | hm
  · exact ⟨ch1, [], hm, by simp⟩
  · have := (Prod.mk.injEq _ _ _ _ ▸ List.mem_singleton.mp hm).1
    exact absurd (this ▸ hlt) (lt_irrefl _)

/-! ## Lemmas: the open wiring, whatever the counter -/

theorem mem_mapSet_subset {α β : Type} [DecidableEq α] :
    ∀ (m : List (α × β)) (k : α) (v : β) (p : α × β), p ∈ mapSet m k v →
      p = (k, v) ∨ p ∈ m
  | [], k, v, p, h => by
    simp only [mapSet, List.mem_singleton] at h
    exact Or.inl h
  | (k1, v1) :: rest, k, v, p, h => by
    unfold mapSet at h
    by_cases hk : k1 = k
    · simp only [hk, if_true, List.mem_cons] at h
      rcases h with h | h
      · exact Or.inl h
      · exact Or.inr (List.mem_cons_of_mem _ h)
    · simp only [hk, if_false, List.mem_cons] at h
      rcases h with h | h
      · exact Or.inr (h ▸ List.mem_cons_self _ _)
      · rcases mem_mapSet_subset rest k v p h with h1 | h1
        · exact Or.inl h1
        · exact Or.inr (List.mem_cons_of_mem _ h1)

theorem mapKeys_mapSet_subset {α β : Type} [DecidableEq α] (m : List (α × β)) (k : α) (v : β)
    (k1 : α) (h : k1 ∈ mapKeys (mapSet m k v)) : k1 = k ∨ k1 ∈ mapKeys m := by
  obtain ⟨w, hw⟩ := (List.mem_map.mp h)
  rcases mem_mapSet_subset m k v w hw.1 with h1 | h1
  · left
    rw [← hw.2, h1]
  · right
    exact List.mem_map.mpr ⟨w, h1, hw.2⟩

theorem nodup_mapKeys_mapSet {α β : Type} [DecidableEq α] :
    ∀ (m : List (α × β)) (k : α) (v : β), (mapKeys m).Nodup → (mapKeys (mapSet m k v)).Nodup
  | [], k, v, _ => by simp [mapSet, mapKeys]
  | (k1, v1) :: rest, k, v, h => by
    simp only [mapKeys, List.map_cons, List.nodup_cons] at h
    unfold mapSet
    by_cases hk : k1 = k
    · simp only [hk, if_true, mapKeys, List.map_cons, List.nodup_cons]
      exact ⟨hk ▸ h.1, h.2⟩
    · simp only [hk, if_false, mapKeys, List.map_cons, List.nodup_cons]
      refine ⟨?_, nodup_mapKeys_mapSet rest k v h.2⟩
      intro hmem
      rcases mapKeys_mapSet_subset rest k v k1 hmem with h1 | h1
      · exact hk h1
      · exact h.1 h1

theorem wired_of_wf {r : Room} (h : WF r) : Wired r :=
  ⟨h.chansOpen, h.closedClosed, h.keysNodup, h.closedAbsent⟩

theorem openWiring_lossy {subs closed : List (Int × Chan)} (msg : Outbound)
    (h : OpenWiring subs closed) : OpenWiring (lossySubs msg subs) closed where
  chansOpen := lossySubs_open h.chansOpen
  closedClosed := h.closedClosed
  keysNodup := by rw [mapKeys_lossySubs]; exact h.keysNodup
  closedAbsent := by rw [mapKeys_lossySubs]; exact h.closedAbsent

theorem openWiring_critical {subs closed : List (Int × Chan)} (msg : Outbound)
    (h : OpenWiring subs closed) :
    OpenWiring (keptSubs msg subs) (closed ++ goneSubs subs) where
  chansOpen := keptSubs_open h.chansOpen
  closedClosed := by
    intro p hp
    rcases List.mem_append.mp hp with hp | hp
    · exact h.closedClosed p hp
    · obtain ⟨ch, -, -, he⟩ := mem_goneSubs.mp (show (p.1, p.2) ∈ goneSubs subs from hp)
      rw [he]
  keysNodup := h.keysNodup.sublist (mapKeys_keptSubs_sublist msg subs)
  closedAbsent := by
    intro p hp hk
    rcases List.mem_append.mp hp with hp | hp
    · exact h.closedAbsent p hp ((mapKeys_keptSubs_sublist msg subs).subset hk)
    · obtain ⟨ch, hm, hfull, -⟩ := mem_goneSubs.mp (show (p.1, p.2) ∈ goneSubs subs from hp)
      obtain ⟨v, hv⟩ := mem_mapKeys.mp hk
      obtain ⟨ch2, hm2, hroom, -⟩ := mem_keptSubs.mp hv
      have := eq_of_mem_of_nodupKeys h.keysNodup hm hm2
      subst this
      exact hfull hroom

theorem openWiring_subscribe {subs closed : List (Int × Chan)} (id : Int) (c0 c1 : Chan)
    (h0 : c0.closed = false) (h1 : c1.closed = false) (h : OpenWiring subs closed) :
    OpenWiring (mapSet (mapSet subs id c0) id c1)
      (closed.filter (fun p => decide (p.1 ≠ id))) where
  chansOpen := by
    intro p hp
    rcases mem_mapSet_subset _ _ _ p hp with hp | hp
    · rw [hp]
      exact h1
    · rcases mem_mapSet_subset _ _ _ p hp with hp | hp
      · rw [hp]
        exact h0
      · exact h.chansOpen p hp
  closedClosed := fun p hp => h.closedClosed p (List.mem_filter.mp hp).1
  keysNodup := nodup_mapKeys_mapSet _ _ _ (nodup_mapKeys_mapSet _ _ _ h.keysNodup)
  closedAbsent := by
    intro p hp hk
    obtain ⟨hp1, hp2⟩ := List.mem_filter.mp hp
    have hne : p.1 ≠ id := by simpa using hp2
    rcases mapKeys_mapSet_subset _ _ _ _ hk with hk | hk
    · exact hne hk
    · rcases mapKeys_mapSet_subset _ _ _ _ hk with hk | hk
      · exact hne hk
      · exact h.closedAbsent p hp1 hk

theorem openWiring_unsubscribe {subs closed : List (Int × Chan)} {id : Int} {ch : Chan}
    (h : OpenWiring subs closed) :
    OpenWiring (mapDelete subs id) (closed ++ [(id, { ch with closed := true })]) where
  chansOpen := fun p hp => h.chansOpen p ((mem_mapDelete subs id p).mp hp).1
  closedClosed := by
    intro p hp
    rcases List.mem_append.mp hp with hp | hp
    · exact h.closedClosed p hp
    · rw [List.mem_singleton.mp hp]
  keysNodup := h.keysNodup.sublist (List.Sublist.map _ (mapDelete_sublist subs id))
  closedAbsent := by
    intro p hp hk
    obtain ⟨v, hv⟩ := mem_mapKeys.mp hk
    have hv2 := (mem_mapDelete subs id (p.1, v)).mp hv
    rcases List.mem_append.mp hp with hp | hp
    · exact h.closedAbsent p hp (mem_mapKeys.mpr ⟨v, hv2.1⟩)
    · rw [List.mem_singleton.mp hp] at hv2
      exact hv2.2 rfl

/-! ## Lemmas: a writer step over open channels does not panic -/

theorem processBid_rejected_open (r : Room) (ev : Event) (now clk : Time)
    (hopen : ChansOpen r.subscribers) (h : (bidVerdict r ev now clk).2.1 = false) :
    processBid r ev now clk = .ok (rejectedRoom r ev now) := by
  rw [processBid_rejected r ev now clk h]
  simp only [broadcast, broadcastSubs_open _ _ hopen, rejectedRoom]

theorem handle_open (r : Room) (ev : Event) (now clk : Time) (hopen : ChansOpen r.subscribers) :
    handle r ev now clk = .ok (handledRoom r ev now clk) := by
  unfold handle handledRoom
  have hl : ∀ m, ChansOpen (lossySubs m r.subscribers) := fun m => lossySubs_open hopen
  by_cases h1 : ev.Typ = "join_room"
  · simp only [h1, if_true]
    cases hu : ev.User with
    | none =>
      simp only [broadcast, broadcastSubs_open _ _ hopen, broadcastState,
        broadcastSubs_open _ _ (hl _)]
      simp [joinedRoom, joinedPresence, joinedCore, hu, stateMsg, presenceMsg]
    | some u =>
      simp only [broadcast, broadcastSubs_open _ _ hopen, broadcastState,
        broadcastSubs_open _ _ (hl _)]
      simp [joinedRoom, joinedPresence, joinedCore, hu, stateMsg, presenceMsg]
  · simp only [h1, if_false]
    by_cases h2 : ev.Typ = "leave_room"
    · simp only [h2, if_true]
      cases hu : ev.User with
      | none =>
        simp only [broadcast, broadcastSubs_open _ _ hopen]
        simp [leftRoom, leftCore, hu, presenceMsg]
      | some u =>
        simp only [broadcast, broadcastSubs_open _ _ hopen]
        simp [leftRoom, leftCore, hu, presenceMsg]
    · simp only [h2, if_false]
      by_cases h3 : ev.Typ = "place_bid"
      · simp only [h3, if_true]
        cases hacc : (bidVerdict r ev now clk).2.1 with
        | true => simpa using processBid_accepted r ev now clk hopen hacc
        | false => simpa using processBid_rejected_open r ev now clk hopen hacc
      · simp only [h3, if_false]

theorem runSubscribe_eq (r : Room) : runSubscribe r = .ok (subscribedRoom r, r.nextSubID) := by
  simp [runSubscribe, trySend, chanCap, subscribedRoom, snapshotChan, stateMsg, buildState]

theorem runUnsubscribe_open (r : Room) (id : Int) (hopen : ChansOpen r.subscribers) :
    runUnsubscribe r id = .ok (unsubscribedRoom r id) := by
  unfold runUnsubscribe unsubscribedRoom
  cases hg : mapGet r.subscribers id with
  | none => rfl
  | some ch =>
    have hc : ch.closed = false := hopen (id, ch) (mapGet_mem _ _ _ hg)
    simp [closeChan, hc]

theorem runTick_open (r : Room) (hopen : ChansOpen r.subscribers) :
    runTick r = .ok (tickedRoom r) := by
  simp only [runTick, broadcastState_open r hopen, tickedRoom]

theorem step_open (r : Room) (s : Step) (hopen : ChansOpen r.subscribers) :
    step r s = .ok (steppedRoom r s) := by
  cases s with
  | input ev now clk => exact handle_open r ev now clk hopen
  | subscribe => simp [step, steppedRoom, runSubscribe_eq, Except.map]
  | unsubscribe id => exact runUnsubscribe_open r id hopen
  | tick => exact runTick_open r hopen

/-! ## Lemmas: the wiring invariant along the writer steps -/

theorem joinedCore_wiring (r : Room) (ev : Event) :
    (joinedCore r ev).subscribers = r.subscribers ∧
      (joinedCore r ev).closedChans = r.closedChans ∧
      (joinedCore r ev).nextSubID = r.nextSubID ∧
      (joinedCore r ev).bidHistory = r.bidHistory ∧
      (joinedCore r ev).auction = r.auction := by
  unfold joinedCore
  cases ev.User <;> simp

theorem leftCore_wiring (r : Room) (ev : Event) :
    (leftCore r ev).subscribers = r.subscribers ∧
      (leftCore r ev).closedChans = r.closedChans ∧
      (leftCore r ev).nextSubID = r.nextSubID ∧
      (leftCore r ev).bidHistory = r.bidHistory ∧
      (leftCore r ev).auction = r.auction := by
  unfold leftCore
  cases ev.User <;> simp

theorem subscribedRoom_subscribers (r : Room) (h : WF r) :
    (subscribedRoom r).subscribers = r.subscribers ++ [(r.nextSubID, snapshotChan r)] := by
  have hfresh : r.nextSubID ∉ mapKeys r.subscribers :=
    fun hk => lt_irrefl _ (h.keysLt r.nextSubID hk)
  simp only [subscribedRoom]
  rw [mapSet_fresh _ _ _ hfresh, mapSet_append_same _ _ _ _ hfresh]

theorem handledRoom_wf (r : Room) (ev : Event) (now clk : Time) (h : WF r) :
    WF (handledRoom r ev now clk) ∧
      (handledRoom r ev now clk).nextSubID = r.nextSubID ∧
      ExtendsBelow r.nextSubID r.subscribers (handledRoom r ev now clk).subscribers := by
  unfold handledRoom
  by_cases h1 : ev.Typ = "join_room"
  · obtain ⟨e1, e2, e3, -, -⟩ := joinedCore_wiring r ev
    simp only [h1, if_true, WF, joinedRoom, joinedPresence, e2, e3]
    exact ⟨wfSubs_lossy _ (wfSubs_lossy _ h), trivial,
      extendsBelow_trans (extendsBelow_lossy _ _ _) (extendsBelow_lossy _ _ _)⟩
  · simp only [h1, if_false]
    by_cases h2 : ev.Typ = "leave_room"
    · obtain ⟨e1, e2, e3, -, -⟩ := leftCore_wiring r ev
      simp only [h2, if_true, WF, leftRoom, e2, e3]
      exact ⟨wfSubs_lossy _ h, trivial, extendsBelow_lossy _ _ _⟩
    · simp only [h2, if_false]
      by_cases h3 : ev.Typ = "place_bid"
      · simp only [h3, if_true]
        cases (bidVerdict r ev now clk).2.1 with
        | true =>
          simp only [if_true, WF, acceptedRoom, acceptedEvicted, acceptedCore]
          exact ⟨wfSubs_lossy _ (wfSubs_critical _ h), trivial,
            extendsBelow_trans (extendsBelow_kept _ _ _) (extendsBelow_lossy _ _ _)⟩
        | false =>
          simp only [Bool.false_eq_true, if_false, WF, rejectedRoom]
          exact ⟨wfSubs_lossy _ h, trivial, extendsBelow_lossy _ _ _⟩
      · simp only [h3, if_false]
        exact ⟨h, trivial, extendsBelow_refl _ _⟩

theorem subscribedRoom_counter (r : Room) (h : WF r) (hfit : IsInt64 (r.nextSubID + 1)) :
    (subscribedRoom r).nextSubID = r.nextSubID + 1 ∧
      (subscribedRoom r).closedChans = r.closedChans := by
  constructor
  · simp only [subscribedRoom]
    exact wrap64_eq_self hfit
  · simp only [subscribedRoom]
    apply List.filter_eq_self.mpr
    intro p hp
    have := h.closedLt p hp
    simp only [decide_eq_true_eq]
    exact ne_of_lt this

theorem steppedRoom_wf (r : Room) (s : Step) (h : WF r)
    (hfit : s = Step.subscribe → IsInt64 (r.nextSubID + 1)) :
    WF (steppedRoom r s) ∧
      (steppedRoom r s).nextSubID = r.nextSubID + (subscribeCount [s] : Nat) ∧
      ExtendsBelow r.nextSubID r.subscribers (steppedRoom r s).subscribers := by
  cases s with
  | input ev now clk =>
    obtain ⟨h1, h2, h3⟩ := handledRoom_wf r ev now clk h
    exact ⟨h1, by simp [steppedRoom, subscribeCount, h2], h3⟩
  | subscribe =>
    have hs := subscribedRoom_subscribers r h
    obtain ⟨hn, hc⟩ := subscribedRoom_counter r h (hfit rfl)
    refine ⟨?_, ?_, ?_⟩
    · unfold WF
      simp only [steppedRoom]
      rw [hs, hn, hc]
      exact wfSubs_subscribe (snapshotChan r) rfl h
    · simp only [steppedRoom]
      rw [hn]
      simp [subscribeCount]
    · simp only [steppedRoom]
      rw [hs]
      exact extendsBelow_append_fresh _ _ _
  | unsubscribe id =>
    simp only [steppedRoom, unsubscribedRoom]
    cases hg : mapGet r.subscribers id with
    | none => exact ⟨h, by simp [subscribeCount], extendsBelow_refl _ _⟩
    | some ch =>
      exact ⟨wfSubs_unsubscribe (mapGet_mem _ _ _ hg) h, by simp [subscribeCount],
        extendsBelow_delete _ _ _⟩
  | tick =>
    simp only [steppedRoom, tickedRoom]
    exact ⟨wfSubs_lossy _ h, by simp [subscribeCount], extendsBelow_lossy _ _ _⟩

theorem newRoom_wf (a : Auction) : WF (newRoom a) where
  chansOpen := ChansOpen_nil
  closedClosed := by intro p hp; cases hp
  keysNodup := List.nodup_nil
  keysLt := by intro k hk; cases hk
  closedLt := by intro p hp; cases hp
  closedAbsent := by intro p hp; cases hp

theorem handledRoom_wired (r : Room) (ev : Event) (now clk : Time) (h : Wired r) :
    Wired (handledRoom r ev now clk) := by
  unfold handledRoom
  by_cases h1 : ev.Typ = "join_room"
  · obtain ⟨e1, e2, -, -, -⟩ := joinedCore_wiring r ev
    simp only [h1, if_true, Wired, joinedRoom, joinedPresence, e2]
    exact openWiring_lossy _ (openWiring_lossy _ h)
  · simp only [h1, if_false]
    by_cases h2 : ev.Typ = "leave_room"
    · obtain ⟨e1, e2, -, -, -⟩ := leftCore_wiring r ev
      simp only [h2, if_true, Wired, leftRoom, e2]
      exact openWiring_lossy _ h
    · simp only [h2, if_false]
      by_cases h3 : ev.Typ = "place_bid"
      · simp only [h3, if_true]
        cases (bidVerdict r ev now clk).2.1 with
        | true =>
          simp only [if_true, Wired, acceptedRoom, acceptedEvicted, acceptedCore]
          exact openWiring_lossy _ (openWiring_critical _ h)
        | false =>
          simp only [Bool.false_eq_true, if_false, Wired, rejectedRoom]
          exact openWiring_lossy _ h
      · simp only [h3, if_false]
        exact h

theorem steppedRoom_wired (r : Room) (s : Step) (h : Wired r) : Wired (steppedRoom r s) := by
  cases s with
  | input ev now clk => exact handledRoom_wired r ev now clk h
  | subscribe => exact openWiring_subscribe r.nextSubID _ _ rfl rfl h
  | unsubscribe id =>
    simp only [steppedRoom, unsubscribedRoom]
    cases hg : mapGet r.subscribers id with
    | none => exact h
    | some ch => exact openWiring_unsubscribe h
  | tick =>
    simp only [steppedRoom, tickedRoom]
    exact openWiring_lossy _ h

theorem newRoom_wired (a : Auction) : Wired (newRoom a) := wired_of_wf (newRoom_wf a)

/-- A property of rooms that implies open subscriber channels and is kept by every writer
step is kept by every run, and the run does not panic. -/
theorem run_preserves (P : Room → Prop) (hopen : ∀ r, P r → ChansOpen r.subscribers)
    (hstep : ∀ r s, P r → P (steppedRoom r s)) :
    ∀ (steps : List Step) (r : Room), P r → ∃ r', run r steps = .ok r' ∧ P r'
  | [], r, h => ⟨r, rfl, h⟩
  | s :: rest, r, h => by
    obtain ⟨r', hr, hp⟩ := run_preserves P hopen hstep rest (steppedRoom r s) (hstep r s h)
    refine ⟨r', ?_, hp⟩
    simp only [run, step_open r s (hopen r h)]
    exact hr

theorem run_wired (steps : List Step) (r : Room) (h : Wired r) :
    ∃ r', run r steps = .ok r' ∧ Wired r' :=
  run_preserves Wired (fun _ h => h.chansOpen) steppedRoom_wired steps r h

/-! ## Lemmas: the auction descriptor along the writer steps -/

theorem steppedRoom_auction (r : Room) (s : Step) :
    (steppedRoom r s).auction = r.auction ∨
      ∃ clk, (steppedRoom r s).auction =
        { r.auction with EndsAt := extendedEndsAt r.auction clk } := by
  cases s with
  | input ev now clk =>
    simp only [steppedRoom, handledRoom]
    by_cases h1 : ev.Typ = "join_room"
    · simp only [h1, if_true, joinedRoom, joinedPresence]
      exact Or.inl (joinedCore_wiring r ev).2.2.2.2
    · by_cases h2 : ev.Typ = "leave_room"
      · simp only [h1, h2, if_true, if_false, leftRoom]
        exact Or.inl (leftCore_wiring r ev).2.2.2.2
      · by_cases h3 : ev.Typ = "place_bid"
        · cases hacc : (bidVerdict r ev now clk).2.1 with
          | true =>
            right
            exact ⟨clk, by simp [h1, h2, h3, acceptedRoom, acceptedEvicted, acceptedCore]⟩
          | false =>
            left
            simp [h1, h2, h3, rejectedRoom]
        · left
          simp [h1, h2, h3]
  | subscribe => exact Or.inl rfl
  | unsubscribe id =>
    simp only [steppedRoom, unsubscribedRoom]
    cases mapGet r.subscribers id <;> exact Or.inl rfl
  | tick => exact Or.inl rfl

/-- When the soft-close window, in nanoseconds, fits `time.Duration`, no writer step on a room
with open subscriber channels moves the end time back. -/
theorem step_endsAt_mono_of_fit (r : Room) (s : Step) (hopen : ChansOpen r.subscribers)
    (hfit : r.auction.SoftCloseSeconds * Second ≤ maxDuration) :
    ∃ r', step r s = .ok r' ∧ r.auction.EndsAt ≤ r'.auction.EndsAt := by
  refine ⟨_, step_open r s hopen, ?_⟩
  rcases steppedRoom_auction r s with h | ⟨clk, h⟩
  · rw [h]
  · rw [h]
    simp only [extendedEndsAt_eq_spec r.auction clk hfit, antiSnipingSpec]
    by_cases hc : 0 < r.auction.SoftCloseSeconds ∧
        r.auction.EndsAt - clk ≤ r.auction.SoftCloseSeconds * Second
    · have hnn : (0 : Int) ≤ r.auction.SoftCloseSeconds * Second :=
        mul_nonneg (le_of_lt hc.1) (by decide)
      simp only [hc, and_self, if_true]
      exact le_add_of_nonneg_right hnn
    · simp only [hc, if_false]
      exact le_refl _

/-! ## C6: the bid history -/

theorem specReason_mem (r : Room) (ev : Event) (now : Time) :
    specReason r ev now ∈ ["unauthorized", "auction_closed", "below_min_increment", ""] := by
  unfold specReason
  cases ev.User with
  | none => simp
  | some u => split_ifs <;> simp

theorem handledRoom_history_bid (r : Room) (ev : Event) (now clk : Time)
    (h : ev.Typ = "place_bid") :
    (handledRoom r ev now clk).bidHistory = r.bidHistory ++
      [bidEntry ev (bidVerdict r ev now clk).2.1 (specReason r ev now) now] := by
  have h1 : ¬ ev.Typ = "join_room" := by rw [h]; decide
  have h2 : ¬ ev.Typ = "leave_room" := by rw [h]; decide
  unfold handledRoom
  simp only [h1, h2, if_false]
  simp only [h, if_true]
  cases hacc : (bidVerdict r ev now clk).2.1 with
  | true =>
    have hs := (bidVerdict_accepted_iff r ev now clk).mp hacc
    simp [acceptedRoom, acceptedEvicted, acceptedCore, hs]
  | false => simp [rejectedRoom]

theorem handledRoom_history_other (r : Room) (ev : Event) (now clk : Time)
    (h : ev.Typ ≠ "place_bid") : (handledRoom r ev now clk).bidHistory = r.bidHistory := by
  unfold handledRoom
  by_cases h1 : ev.Typ = "join_room"
  · simp [h1, joinedRoom, joinedPresence, (joinedCore_wiring r ev).2.2.2.1]
  · by_cases h2 : ev.Typ = "leave_room"
    · simp [h1, h2, leftRoom, (leftCore_wiring r ev).2.2.2.1]
    · simp [h1, h2, h]

theorem steppedRoom_history_recordKeys (r : Room) (s : Step) :
    (steppedRoom r s).bidHistory.map recordKey =
      r.bidHistory.map recordKey ++ placedBids [s] := by
  cases s with
  | input ev now clk =>
    by_cases h : ev.Typ = "place_bid"
    · simp [steppedRoom, handledRoom_history_bid r ev now clk h, placedBids, h, recordKey,
        bidEntry]
    · simp [steppedRoom, handledRoom_history_other r ev now clk h, placedBids, h]
  | subscribe => simp [steppedRoom, subscribedRoom, placedBids]
  | unsubscribe id =>
    simp only [steppedRoom, unsubscribedRoom, placedBids, List.append_nil]
    cases mapGet r.subscribers id <;> rfl
  | tick => simp [steppedRoom, tickedRoom, placedBids]

theorem placedBids_cons (s : Step) (rest : List Step) :
    placedBids (s :: rest) = placedBids [s] ++ placedBids rest := by
  cases s with
  | input ev now clk =>
    by_cases h : ev.Typ = "place_bid" <;> simp [placedBids, h]
  | subscribe => simp [placedBids]
  | unsubscribe id => simp [placedBids]
  | tick => simp [placedBids]

theorem run_history_recordKeys :
    ∀ (steps : List Step) (r : Room), Wired r →
      ∃ r', run r steps = .ok r' ∧
        r'.bidHistory.map recordKey = r.bidHistory.map recordKey ++ placedBids steps
  | [], r, _ => ⟨r, rfl, by simp [placedBids]⟩
  | s :: rest, r, h => by
    obtain ⟨r', hr, hk⟩ := run_history_recordKeys rest (steppedRoom r s) (steppedRoom_wired r s h)
    refine ⟨r', ?_, ?_⟩
    · simp only [run, step_open r s h.chansOpen]
      exact hr
    · rw [hk, steppedRoom_history_recordKeys, List.append_assoc, ← placedBids_cons]

/-- C6: a writer step on a room with open subscriber channels returns, and if the step is a
`place_bid` event the history afterwards is the history before followed by exactly one record,
which carries the event's amount, the bidder's id and handle (empty strings for an absent
user), the arrival time, the accepted flag of the decision, an empty reason when accepted and
a non-empty reason when rejected; any other step leaves the history as it was.  Hence along
every run from `newRoom` the history lists the bids in arrival order. -/
theorem step_bidHistory (r : Room) (s : Step) (hopen : ChansOpen r.subscribers) :
    ∃ r', step r s = .ok r' ∧
      (∀ ev now clk, s = Step.input ev now clk → ev.Typ = "place_bid" →
        ∃ e, r'.bidHistory = r.bidHistory ++ [e] ∧
          e.AmountCts = ev.AmountCts ∧ e.UserID = userID ev.User ∧
          e.Handle = userHandle ev.User ∧
          (ev.User = none → e.UserID = "" ∧ e.Handle = "") ∧
          e.CreatedAt = now ∧ e.Accepted = (bidVerdict r ev now clk).2.1 ∧
          (e.Accepted = true → e.Reason = "") ∧ (e.Accepted = false → e.Reason ≠ "")) ∧
      ((∀ ev now clk, s = Step.input ev now clk → ev.Typ ≠ "place_bid") →
        r'.bidHistory = r.bidHistory) ∧
      (∀ (a : Auction) (steps : List Step), ∃ rf, run (newRoom a) steps = .ok rf ∧
        rf.bidHistory.map recordKey = placedBids steps) := by
  refine ⟨_, step_open r s hopen, ?_, ?_, ?_⟩
  · intro ev now clk hs hty
    subst hs
    refine ⟨_, handledRoom_history_bid r ev now clk hty, rfl, rfl, rfl, ?_, rfl, rfl, ?_, ?_⟩
    · intro hu
      simp [bidEntry, hu, userID, userHandle]
    · intro hacc
      exact (bidVerdict_accepted_iff r ev now clk).mp hacc
    · intro hacc hre
      have := (bidVerdict_accepted_iff r ev now clk).mpr hre
      simp only [bidEntry] at hacc
      rw [hacc] at this
      cases this
  · intro hother
    cases s with
    | input ev now clk => exact handledRoom_history_other r ev now clk (hother ev now clk rfl)
    | subscribe => rfl
    | unsubscribe id =>
      simp only [steppedRoom, unsubscribedRoom]
      cases mapGet r.subscribers id <;> rfl
    | tick => rfl
  · intro a steps
    obtain ⟨rf, h1, h2⟩ := run_history_recordKeys steps (newRoom a) (newRoom_wired a)
    exact ⟨rf, h1, by simpa [newRoom] using h2⟩

/-- Witness of `step_bidHistory`: a bid of 105 on the example room is recorded, rejected. -/
theorem step_bidHistory_witness :
    ChansOpen roomA.subscribers ∧
    ∃ r', step roomA (Step.input (placeBid alice 105) 1000 1001) = .ok r' ∧
      ∃ e, r'.bidHistory = roomA.bidHistory ++ [e] ∧ e.AmountCts = 105 ∧ e.Accepted = false := by
  refine ⟨by decide, ?_⟩
  obtain ⟨r', h1, h2, -⟩ :=
    step_bidHistory roomA (Step.input (placeBid alice 105) 1000 1001) (by decide)
  obtain ⟨e, he, ha, -, -, -, -, hacc, -⟩ := h2 _ _ _ rfl rfl
  refine ⟨r', h1, e, he, ha, ?_⟩
  rw [hacc]
  decide

/-! ## C7: a rejected bid -/

/-- C7: on a room with open subscriber channels a bid that `processBid` rejects leaves the
current price, the leader, the auction (its end time included), the participants, the keys of
the subscriber map, the subscriber counter and the closed channels as they were; the history
gains one record, not accepted, whose reason is one of the three tags; the subscriber queues
change by the lossy broadcast of `bid_rejected` only. -/
theorem processBid_rejected_frame (r : Room) (ev : Event) (now clk : Time)
    (hopen : ChansOpen r.subscribers) (hrej : (bidVerdict r ev now clk).2.1 = false) :
    ∃ r', processBid r ev now clk = .ok r' ∧
      r'.currentPriceCts = r.currentPriceCts ∧ r'.leader = r.leader ∧
      r'.auction = r.auction ∧ r'.auction.EndsAt = r.auction.EndsAt ∧
      r'.participants = r.participants ∧
      mapKeys r'.subscribers = mapKeys r.subscribers ∧
      r'.nextSubID = r.nextSubID ∧ r'.closedChans = r.closedChans ∧
      (∃ e, r'.bidHistory = r.bidHistory ++ [e] ∧ e.Accepted = false ∧
        e.Reason ∈ ["unauthorized", "auction_closed", "below_min_increment"]) ∧
      (∃ reason, r'.subscribers = lossySubs (rejectedMsg r reason) r.subscribers) := by
  refine ⟨_, processBid_rejected_open r ev now clk hopen hrej, rfl, rfl, rfl, rfl, rfl, ?_, rfl,
    rfl, ⟨_, rfl, rfl, ?_⟩, ⟨_, rfl⟩⟩
  · exact mapKeys_lossySubs _ _
  · have hne : specReason r ev now ≠ "" := by
      intro hh
      have := (bidVerdict_accepted_iff r ev now clk).mpr hh
      rw [hrej] at this
      cases this
    have hm := specReason_mem r ev now
    simp only [bidEntry]
    simp only [List.mem_cons, List.mem_singleton, List.not_mem_nil, or_false] at hm ⊢
    rcases hm with hm | hm | hm | hm
    · exact Or.inl hm
    · exact Or.inr (Or.inl hm)
    · exact Or.inr (Or.inr hm)
    · exact absurd hm hne

/-- Witness of `processBid_rejected_frame`: the bid of 105 on the example room is rejected and
the price stays 100. -/
theorem processBid_rejected_frame_witness :
    ChansOpen roomA.subscribers ∧ (bidVerdict roomA (placeBid alice 105) 1000 1001).2.1 = false ∧
    ∃ r', processBid roomA (placeBid alice 105) 1000 1001 = .ok r' ∧ r'.currentPriceCts = 100 := by
  refine ⟨by decide, by decide, ?_⟩
  obtain ⟨r', h1, h2, -⟩ :=
    processBid_rejected_frame roomA (placeBid alice 105) 1000 1001 (by decide) (by decide)
  exact ⟨r', h1, by rw [h2]; decide⟩

/-! ## C8: the critical broadcast -/

/-- C8: on a subscriber map with distinct keys and open channels `broadcastCritical` returns;
a subscriber whose queue had room is still in the map, its queue being the old one with the
message at the tail, still open, and it is not among the closed channels of the call; a
subscriber whose queue was full is no longer a key of the map and its channel, contents
untouched, is recorded closed; every subscriber in the map afterwards was there before and has
the message at the tail of its queue; nothing else of the room changes. -/
theorem broadcastCritical_delivers_or_evicts (r : Room) (m : Outbound)
    (hopen : ChansOpen r.subscribers) (hnd : (mapKeys r.subscribers).Nodup) :
    ∃ r' gone, broadcastCritical r m = .ok r' ∧
      r' = { r with subscribers := r'.subscribers, closedChans := r.closedChans ++ gone } ∧
      (∀ id ch, (id, ch) ∈ r.subscribers → ch.buf.length < chanCap →
        mapGet r'.subscribers id = some { buf := ch.buf ++ [m], closed := false } ∧
        id ∉ mapKeys gone) ∧
      (∀ id ch, (id, ch) ∈ r.subscribers → chanCap ≤ ch.buf.length →
        id ∉ mapKeys r'.subscribers ∧ mapGet r'.subscribers id = none ∧
        (id, { buf := ch.buf, closed := true }) ∈ gone) ∧
      (∀ id ch1, (id, ch1) ∈ r'.subscribers →
        ∃ ch, (id, ch) ∈ r.subscribers ∧ ch.buf.length < chanCap ∧
          ch1.buf = ch.buf ++ [m]) := by
  have hkn : (mapKeys (keptSubs m r.subscribers)).Nodup :=
    hnd.sublist (mapKeys_keptSubs_sublist m r.subscribers)
  refine ⟨_, goneSubs r.subscribers, broadcastCritical_open r m hopen, rfl, ?_, ?_, ?_⟩
  · intro id ch hm hroom
    have hc : ch.closed = false := hopen (id, ch) hm
    constructor
    · apply mapGet_of_mem _ _ _ hkn
      refine mem_keptSubs.mpr ⟨ch, hm, hroom, ?_⟩
      rw [← hc]
    · intro hk
      obtain ⟨v, hv⟩ := mem_mapKeys.mp hk
      obtain ⟨ch2, hm2, hfull, -⟩ := mem_goneSubs.mp hv
      have := eq_of_mem_of_nodupKeys hnd hm hm2
      subst this
      exact hfull hroom
  · intro id ch hm hfull
    have hc : ch.closed = false := hopen (id, ch) hm
    have habs : id ∉ mapKeys (keptSubs m r.subscribers) := by
      intro hk
      obtain ⟨v, hv⟩ := mem_mapKeys.mp hk
      obtain ⟨ch2, hm2, hroom, -⟩ := mem_keptSubs.mp hv
      have := eq_of_mem_of_nodupKeys hnd hm hm2
      subst this
      exact absurd hroom (not_lt.mpr hfull)
    exact ⟨habs, (mapGet_none _ _).mpr habs, mem_goneSubs.mpr ⟨ch, hm, not_lt.mpr hfull, rfl⟩⟩
  · intro id ch1 hm1
    obtain ⟨ch, hm, hroom, he⟩ := mem_keptSubs.mp hm1
    exact ⟨ch, hm, hroom, by rw [he]⟩

/-- Witness of `broadcastCritical_delivers_or_evicts`: in the example room subscriber 0, whose
queue is full, is evicted and subscriber 1 receives the message. -/
theorem broadcastCritical_delivers_or_evicts_witness :
    ChansOpen roomFull.subscribers ∧ (mapKeys roomFull.subscribers).Nodup ∧
    ∃ r', broadcastCritical roomFull pingMsg = .ok r' ∧
      mapGet r'.subscribers 0 = none ∧
      mapGet r'.subscribers 1 = some { buf := [pingMsg], closed := false } := by
  have hopen : ChansOpen roomFull.subscribers := by decide
  have hnd : (mapKeys roomFull.subscribers).Nodup := by decide
  refine ⟨hopen, hnd, ?_⟩
  obtain ⟨r', gone, h1, -, h2, h3, -⟩ :=
    broadcastCritical_delivers_or_evicts roomFull pingMsg hopen hnd
  refine ⟨r', h1, ?_, ?_⟩
  · have hlen : chanCap ≤ (List.replicate 256 pingMsg).length := by
      rw [List.length_replicate]
      decide
    exact (h3 0 { buf := List.replicate 256 pingMsg, closed := false }
      (List.mem_cons_self _ _) hlen).2.1
  · exact (h2 1 { buf := [], closed := false }
      (List.mem_cons_of_mem _ (List.mem_cons_self _ _)) (by decide)).1

/-! ## C9: snapshot on subscribe -/

theorem steppedRoom_headedBy (id : Int) (snap : Outbound) (r : Room) (s : Step)
    (h : HeadedBy id snap r) (hfit : s = Step.subscribe → IsInt64 (r.nextSubID + 1)) :
    HeadedBy id snap (steppedRoom r s) ∧
      (steppedRoom r s).nextSubID = r.nextSubID + (subscribeCount [s] : Nat) := by
  obtain ⟨hwf, hlt, hhead⟩ := h
  obtain ⟨hwf1, hnext, hext⟩ := steppedRoom_wf r s hwf hfit
  refine ⟨⟨hwf1, ?_, ?_⟩, hnext⟩
  · rw [hnext]
    omega
  · intro ch1 hm1
    obtain ⟨ch0, tail, hm0, he⟩ := hext id ch1 hm1 hlt
    obtain ⟨t0, ht0⟩ := hhead ch0 hm0
    exact ⟨t0 ++ tail, by rw [he, ht0, List.cons_append]⟩

theorem subscribeCount_cons (s : Step) (rest : List Step) :
    subscribeCount (s :: rest) = subscribeCount [s] + subscribeCount rest := by
  cases s <;> simp [subscribeCount, Nat.add_comm]

/-- While the counter does not wrap, a run keeps the snapshot at the head of the queue. -/
theorem run_headedBy (id : Int) (snap : Outbound) :
    ∀ (steps : List Step) (r : Room), HeadedBy id snap r → IsInt64 r.nextSubID →
      r.nextSubID + (subscribeCount steps : Nat) ≤ 9223372036854775807 →
      ∃ r', run r steps = .ok r' ∧ HeadedBy id snap r'
  | [], r, h, _, _ => ⟨r, rfl, h⟩
  | s :: rest, r, h, hint, hbound => by
    rw [subscribeCount_cons] at hbound
    have hfit : s = Step.subscribe → IsInt64 (r.nextSubID + 1) := by
      intro hs
      subst hs
      unfold IsInt64 at hint ⊢
      simp only [subscribeCount] at hbound
      constructor <;> omega
    obtain ⟨h1, hn⟩ := steppedRoom_headedBy id snap r s h hfit
    have hint1 : IsInt64 (steppedRoom r s).nextSubID := by
      unfold IsInt64 at hint ⊢
      rw [hn]
      constructor <;> omega
    obtain ⟨r', hr, hp⟩ := run_headedBy id snap rest (steppedRoom r s) h1 hint1
      (by rw [hn]; omega)
    refine ⟨r', ?_, hp⟩
    simp only [run, step_open r s h.1.chansOpen]
    exact hr

/-- While the counter does not wrap, a run keeps the wiring well formed and moves the counter
by the number of its subscribe requests: every state reached from a new room by a run with
fewer than 2^63 subscribe requests has well-formed wiring. -/
theorem run_wf_of_fit :
    ∀ (steps : List Step) (r : Room), WF r → IsInt64 r.nextSubID →
      r.nextSubID + (subscribeCount steps : Nat) ≤ 9223372036854775807 →
      ∃ r', run r steps = .ok r' ∧ WF r' ∧
        r'.nextSubID = r.nextSubID + (subscribeCount steps : Nat)
  | [], r, h, _, _ => ⟨r, rfl, h, by simp [subscribeCount]⟩
  | s :: rest, r, h, hint, hbound => by
    rw [subscribeCount_cons] at hbound
    have hfit : s = Step.subscribe → IsInt64 (r.nextSubID + 1) := by
      intro hs
      subst hs
      unfold IsInt64 at hint ⊢
      simp only [subscribeCount] at hbound
      constructor <;> omega
    obtain ⟨h1, hn, -⟩ := steppedRoom_wf r s h hfit
    have hint1 : IsInt64 (steppedRoom r s).nextSubID := by
      unfold IsInt64 at hint ⊢
      rw [hn]
      constructor <;> omega
    obtain ⟨r', hr, hp, hn'⟩ := run_wf_of_fit rest (steppedRoom r s) h1 hint1
      (by rw [hn]; omega)
    refine ⟨r', ?_, hp, ?_⟩
    · simp only [run, step_open r s h.chansOpen]
      exact hr
    · rw [subscribeCount_cons s rest, hn', hn]
      push_cast
      omega

theorem buildState_subscribedRoom (r : Room) : buildState (subscribedRoom r) = buildState r := by
  simp [buildState, subscribedRoom]

theorem mem_mapKeys_mapSet_self {α β : Type} [DecidableEq α] :
    ∀ (m : List (α × β)) (k : α) (v : β), k ∈ mapKeys (mapSet m k v)
  | [], k, v => by simp [mapSet, mapKeys]
  | (k1, v1) :: rest, k, v => by
    unfold mapSet
    by_cases hk : k1 = k
    · simp [hk, mapKeys]
    · simp only [hk, if_false, mapKeys, List.map_cons, List.mem_cons]
      exact Or.inr (mem_mapKeys_mapSet_self rest k v)

theorem mem_mapKeys_mapSet_of_mem {α β : Type} [DecidableEq α] :
    ∀ (m : List (α × β)) (k : α) (v : β) (k1 : α), k1 ∈ mapKeys m →
      k1 ∈ mapKeys (mapSet m k v)
  | [], _, _, _, h => by cases h
  | (k2, v2) :: rest, k, v, k1, h => by
    simp only [mapKeys, List.map_cons, List.mem_cons] at h
    unfold mapSet
    by_cases hk : k2 = k
    · simp only [hk, if_true, mapKeys, List.map_cons, List.mem_cons]
      rcases h with h | h
      · exact Or.inl (h.trans hk)
      · exact Or.inr h
    · simp only [hk, if_false, mapKeys, List.map_cons, List.mem_cons]
      rcases h with h | h
      · exact Or.inl h
      · exact Or.inr (mem_mapKeys_mapSet_of_mem rest k v k1 h)

theorem wrap64_succ_wrap64 (x : Int) (n : Nat) :
    wrap64 (wrap64 (x + 1) + (n : Int)) = wrap64 (x + ((n + 1 : Nat) : Int)) := by
  unfold wrap64
  push_cast
  omega

/-- A run of `n` subscribe requests moves the counter `n` times, wrapping around, and keeps
every key of the subscriber map. -/
theorem run_subscribes :
    ∀ (n : Nat) (r : Room), Wired r → IsInt64 r.nextSubID →
      ∃ r', run r (List.replicate n Step.subscribe) = .ok r' ∧
        r'.nextSubID = wrap64 (r.nextSubID + (n : Int)) ∧
        (∀ k ∈ mapKeys r.subscribers, k ∈ mapKeys r'.subscribers) ∧
        (0 < n → r.nextSubID ∈ mapKeys r'.subscribers)
  | 0, r, _, hint => ⟨r, rfl, by simp [wrap64_eq_self hint], fun _ hk => hk, fun h => absurd h (lt_irrefl 0)⟩
  | n + 1, r, hw, _ => by
    have hw1 : Wired (subscribedRoom r) := steppedRoom_wired r Step.subscribe hw
    have hint1 : IsInt64 (subscribedRoom r).nextSubID := wrap64_isInt64 _
    obtain ⟨r', hr, hn, hkeys, -⟩ := run_subscribes n (subscribedRoom r) hw1 hint1
    have hsub : ∀ k ∈ mapKeys r.subscribers, k ∈ mapKeys (subscribedRoom r).subscribers :=
      fun k hk => mem_mapKeys_mapSet_of_mem _ _ _ _ (mem_mapKeys_mapSet_of_mem _ _ _ _ hk)
    refine ⟨r', ?_, ?_, fun k hk => hkeys k (hsub k hk), fun _ => hkeys _ ?_⟩
    · simp only [List.replicate_succ, run, step_open r Step.subscribe hw.chansOpen]
      exact hr
    · rw [hn]
      exact wrap64_succ_wrap64 r.nextSubID n
    · exact mem_mapKeys_mapSet_self _ _ _

/-- C9 (counterexample): after 2^63 subscribe requests on a new room the counter, a 64-bit
`int`, has wrapped around to -2^63 while subscriber 0 is still in the map; the next subscribe
request is given the id -2^63, which is below the id 0 allocated earlier. -/
theorem subscribe_id_after_wrap :
    ∃ r r1 id, run (newRoom auctionA)
        (List.replicate 9223372036854775808 Step.subscribe) = .ok r ∧
      (0 : Int) ∈ mapKeys r.subscribers ∧
      runSubscribe r = .ok (r1, id) ∧ id = -9223372036854775808 ∧ id < 0 := by
  obtain ⟨r, hr, hn, -, h0⟩ :=
    run_subscribes 9223372036854775808 (newRoom auctionA) (newRoom_wired auctionA) (by decide)
  have hid : r.nextSubID = -9223372036854775808 := by
    rw [hn]
    decide
  refine ⟨r, subscribedRoom r, r.nextSubID, hr, h0 (by decide), runSubscribe_eq r, hid, ?_⟩
  rw [hid]
  decide

/-- C9 (amended): on a room with well-formed wiring whose counter can be incremented without
wrapping around, a subscribe request returns the counter value as id; that id is not a key of
the subscriber map and exceeds every key of the map and every id of a closed channel, and the
counter afterwards is id + 1; the map afterwards is the old map, each existing queue
unchanged, plus an open queue under that id holding exactly one message: a `room_state` for
this room whose payload is `buildState` of the room, the same before and after the step, and
every field of that payload is the one of the room (auction id, title, current price, leader
id and handle, end time, soft-close window, increment, number and list of participants,
reserve, history); the rest of the room is unchanged.  After any further writer steps during
which the counter does not wrap around, the id stays below the counter and the queue, while in
the map, still starts with that snapshot, the later messages behind it. -/
theorem runSubscribe_snapshot (r : Room) (h : WF r) (hfit : IsInt64 (r.nextSubID + 1)) :
    ∃ r', runSubscribe r = .ok (r', r.nextSubID) ∧
      r.nextSubID ∉ mapKeys r.subscribers ∧
      (∀ k ∈ mapKeys r.subscribers, k < r.nextSubID) ∧
      (∀ p ∈ r.closedChans, p.1 < r.nextSubID) ∧
      r'.nextSubID = r.nextSubID + 1 ∧
      r' = { r with subscribers := r'.subscribers, nextSubID := r'.nextSubID } ∧
      r'.subscribers = r.subscribers ++ [(r.nextSubID, snapshotChan r)] ∧
      mapGet r'.subscribers r.nextSubID = some (snapshotChan r) ∧
      (∀ id ch, (id, ch) ∈ r.subscribers → mapGet r'.subscribers id = some ch) ∧
      snapshotChan r = { buf := [stateMsg r], closed := false } ∧
      stateMsg r = { Typ := "room_state", RoomID := r.auction.ID,
                     Payload := Payload.roomState (buildState r) } ∧
      buildState r' = buildState r ∧
      ((buildState r).AuctionID = r.auction.ID ∧
        (buildState r).Title = r.auction.Title ∧
        (buildState r).CurrentPriceCts = r.currentPriceCts ∧
        (buildState r).LeaderUserID = userID r.leader ∧
        (buildState r).LeaderHandle = userHandle r.leader ∧
        (buildState r).EndsAt = r.auction.EndsAt ∧
        (buildState r).SoftCloseSeconds = r.auction.SoftCloseSeconds ∧
        (buildState r).MinIncrementCts = r.auction.MinIncrementCents ∧
        (buildState r).Participants = r.participants.length ∧
        (buildState r).ParticipantsList =
          r.participants.filterMap
            (fun kv => kv.2.map (fun u => { UserID := u.ID, Handle := u.Handle })) ∧
        (buildState r).ReservePriceCts = r.auction.ReservePriceCents ∧
        (buildState r).BidHistory = r.bidHistory) ∧
      (∀ steps : List Step,
        r.nextSubID + 1 + (subscribeCount steps : Nat) ≤ 9223372036854775807 →
        ∃ r2, run r' steps = .ok r2 ∧ r.nextSubID < r2.nextSubID ∧
          ∀ ch, (r.nextSubID, ch) ∈ r2.subscribers → ∃ tail, ch.buf = stateMsg r :: tail) := by
  have hfresh : r.nextSubID ∉ mapKeys r.subscribers :=
    fun hk => lt_irrefl _ (h.keysLt r.nextSubID hk)
  have hs := subscribedRoom_subscribers r h
  obtain ⟨hn, hc⟩ := subscribedRoom_counter r h hfit
  have hwf1 : WF (subscribedRoom r) := (steppedRoom_wf r Step.subscribe h (fun _ => hfit)).1
  have hhead : HeadedBy r.nextSubID (stateMsg r) (subscribedRoom r) := by
    refine ⟨hwf1, by rw [hn]; exact lt_add_one _, ?_⟩
    intro ch hm
    rw [hs] at hm
    rcases List.mem_append.mp hm with hm | hm
    · exact absurd (mem_mapKeys.mpr ⟨ch, hm⟩) hfresh
    · have := (Prod.mk.injEq _ _ _ _ ▸ List.mem_singleton.mp hm).2
      exact ⟨[], by rw [this]; rfl⟩
  have hrest : subscribedRoom r =
      { r with subscribers := (subscribedRoom r).subscribers,
               nextSubID := (subscribedRoom r).nextSubID } := by
    have hc2 := hc
    simp only [subscribedRoom] at hc2 ⊢
    rw [hc2]
  refine ⟨subscribedRoom r, runSubscribe_eq r, hfresh, h.keysLt, h.closedLt, hn, hrest, hs, ?_, ?_,
    rfl, rfl, buildState_subscribedRoom r,
    ⟨rfl, rfl, rfl, ?_, ?_, rfl, rfl, rfl, rfl, ?_, rfl, rfl⟩, ?_⟩
  · apply mapGet_of_mem _ _ _ hwf1.keysNodup
    rw [hs]
    exact List.mem_append_right _ (List.mem_singleton_self _)
  · intro id ch hm
    apply mapGet_of_mem _ _ _ hwf1.keysNodup
    rw [hs]
    exact List.mem_append_left _ hm
  · simp only [buildState, userID]
  · simp only [buildState, userHandle]
  · simp only [buildState]
    congr 1
    funext kv
    cases kv.2 <;> rfl
  · intro steps hbound
    have hint1 : IsInt64 (subscribedRoom r).nextSubID := by
      rw [hn]
      exact hfit
    obtain ⟨r2, hr, -, hlt, hh⟩ :=
      run_headedBy r.nextSubID (stateMsg r) steps (subscribedRoom r) hhead hint1
        (by rw [hn]; exact hbound)
    exact ⟨r2, hr, hlt, hh⟩

theorem roomBusy_wf : WF roomBusy :=
  ⟨by decide, by decide, by decide, by decide, by decide, by decide⟩

/-- Witness of `runSubscribe_snapshot`: on the example room with two subscribers, a closed
channel and the counter at 5, the new subscriber gets id 5, subscriber 0 keeps its queue, and
the payload of the snapshot lists alice as participant and the one record of the history. -/
theorem runSubscribe_snapshot_witness :
    WF roomBusy ∧ IsInt64 (roomBusy.nextSubID + 1) ∧
    ∃ r', runSubscribe roomBusy = .ok (r', 5) ∧
      mapGet r'.subscribers 0 = some { buf := [pingMsg], closed := false } ∧
      mapGet r'.subscribers 5 = some (snapshotChan roomBusy) ∧
      (buildState roomBusy).ParticipantsList = [{ UserID := "A", Handle := "alice" }] ∧
      (buildState roomBusy).BidHistory = roomBusy.bidHistory := by
  have hfit : IsInt64 (roomBusy.nextSubID + 1) := by decide
  refine ⟨roomBusy_wf, hfit, ?_⟩
  obtain ⟨r', h1, -, -, -, -, -, -, h2, h3, -, -, -, hfields, -⟩ :=
    runSubscribe_snapshot roomBusy roomBusy_wf hfit
  refine ⟨r', h1, h3 0 _ (List.mem_cons_self _ _), h2, ?_, hfields.2.2.2.2.2.2.2.2.2.2.2⟩
  rw [hfields.2.2.2.2.2.2.2.2.2.1]
  decide

/-! ## C10: the writer does not panic -/

/-- C10: every finite sequence of writer steps from `newRoom` runs to the end without a panic
(no send on a closed channel, no close of a closed channel, no dereference of an absent user);
in the room it reaches every channel of the subscriber map is open, every channel the writer
has closed is closed and its id is not a key of the map, and any further step returns too. -/
theorem run_never_panics (a : Auction) (steps : List Step) :
    ∃ r, run (newRoom a) steps = .ok r ∧ ChansOpen r.subscribers ∧
      (∀ p ∈ r.closedChans, p.2.closed = true ∧ p.1 ∉ mapKeys r.subscribers) ∧
      (∀ s, ∃ r', step r s = .ok r') := by
  obtain ⟨r, hr, hwf⟩ := run_wired steps (newRoom a) (newRoom_wired a)
  exact ⟨r, hr, hwf.chansOpen, fun p hp => ⟨hwf.closedClosed p hp, hwf.closedAbsent p hp⟩,
    fun s => ⟨_, step_open r s hwf.chansOpen⟩⟩

/-! ## C13: the leader -/

theorem joinedCore_leader (r : Room) (ev : Event) : (joinedCore r ev).leader = r.leader := by
  unfold joinedCore
  cases ev.User <;> rfl

theorem leftCore_leader (r : Room) (ev : Event) : (leftCore r ev).leader = r.leader := by
  unfold leftCore
  cases ev.User <;> rfl

theorem lastAccepted_append_accepted (h : List BidView) (e : BidView)
    (he : e.Accepted = true) : lastAccepted (h ++ [e]) = some e := by
  simp [lastAccepted, List.filter_append, he]

theorem lastAccepted_append_rejected (h : List BidView) (e : BidView)
    (he : e.Accepted = false) : lastAccepted (h ++ [e]) = lastAccepted h := by
  simp [lastAccepted, List.filter_append, he]

theorem handledRoom_leaderInv (r : Room) (ev : Event) (now clk : Time) (h : LeaderInv r) :
    LeaderInv (handledRoom r ev now clk) := by
  by_cases h1 : ev.Typ = "join_room"
  · have hd : handledRoom r ev now clk = joinedRoom r ev := by
      unfold handledRoom
      rw [if_pos h1]
    rw [hd]
    simp only [LeaderInv, joinedRoom, joinedPresence, (joinedCore_wiring r ev).2.2.2.1,
      joinedCore_leader]
    exact h
  · by_cases h2 : ev.Typ = "leave_room"
    · have hd : handledRoom r ev now clk = leftRoom r ev := by
        unfold handledRoom
        rw [if_neg h1, if_pos h2]
      rw [hd]
      simp only [LeaderInv, leftRoom, (leftCore_wiring r ev).2.2.2.1, leftCore_leader]
      exact h
    · by_cases h3 : ev.Typ = "place_bid"
      · have hd : handledRoom r ev now clk =
            if (bidVerdict r ev now clk).2.1 then acceptedRoom r ev now clk
            else rejectedRoom r ev now := by
          unfold handledRoom
          rw [if_neg h1, if_neg h2, if_pos h3]
        rw [hd]
        cases hacc : (bidVerdict r ev now clk).2.1 with
        | true =>
          obtain ⟨⟨u, hu⟩, -⟩ := bidVerdict_accepted r ev now clk hacc
          simp only [if_true, LeaderInv, acceptedRoom, acceptedEvicted, acceptedCore]
          rw [lastAccepted_append_accepted _ _ rfl]
          simp [bidEntry, hu, userID, userHandle]
        | false =>
          simp only [Bool.false_eq_true, if_false, LeaderInv, rejectedRoom]
          rw [lastAccepted_append_rejected _ _ rfl]
          exact h
      · have hd : handledRoom r ev now clk = r := by
          unfold handledRoom
          rw [if_neg h1, if_neg h2, if_neg h3]
        rw [hd]
        exact h

theorem steppedRoom_leaderInv (r : Room) (s : Step) (h : LeaderInv r) :
    LeaderInv (steppedRoom r s) := by
  cases s with
  | input ev now clk => exact handledRoom_leaderInv r ev now clk h
  | subscribe => exact h
  | unsubscribe id =>
    simp only [steppedRoom, unsubscribedRoom]
    cases mapGet r.subscribers id <;> exact h
  | tick => exact h

theorem lastAccepted_isSome_iff (h : List BidView) :
    (lastAccepted h).isSome = true ↔ ∃ b ∈ h, b.Accepted = true := by
  unfold lastAccepted
  rw [List.getLast?_isSome]
  constructor
  · intro hne
    obtain ⟨b, hb⟩ := List.exists_mem_of_ne_nil _ hne
    exact ⟨b, (List.mem_filter.mp hb).1, (List.mem_filter.mp hb).2⟩
  · rintro ⟨b, hb, hacc⟩
    exact List.ne_nil_of_mem (List.mem_filter.mpr ⟨hb, hacc⟩)

/-- In every room reached from `newRoom` the room has a leader exactly when the history holds
an accepted record, the leader then has the user id and handle of the last accepted record,
and the `leaderUserId` of the snapshot is the leader's id (the empty string without a
leader). -/
theorem run_leader_matches_history (a : Auction) (steps : List Step) :
    ∃ r, run (newRoom a) steps = .ok r ∧
      (r.leader.isSome = true ↔ ∃ b ∈ r.bidHistory, b.Accepted = true) ∧
      (∀ u, r.leader = some u →
        ∃ b, lastAccepted r.bidHistory = some b ∧ b.UserID = u.ID ∧ b.Handle = u.Handle) ∧
      (buildState r).LeaderUserID = userID r.leader := by
  obtain ⟨r, hr, -, hinv⟩ :=
    run_preserves (fun r => Wired r ∧ LeaderInv r) (fun _ hp => hp.1.chansOpen)
      (fun r s hp => ⟨steppedRoom_wired r s hp.1, steppedRoom_leaderInv r s hp.2⟩)
      steps (newRoom a) ⟨newRoom_wired a, rfl⟩
  refine ⟨r, hr, ?_, ?_, ?_⟩
  · rw [← lastAccepted_isSome_iff]
    unfold LeaderInv at hinv
    cases hl : r.leader <;> cases hb : lastAccepted r.bidHistory <;> simp [hl, hb] at hinv ⊢
  · intro u hu
    unfold LeaderInv at hinv
    rw [hu] at hinv
    cases hb : lastAccepted r.bidHistory with
    | none => simp [hb] at hinv
    | some b =>
      simp only [hb, Option.map_some', Option.some.injEq, Prod.mk.injEq] at hinv
      exact ⟨b, rfl, hinv.1, hinv.2⟩
  · simp only [buildState, userID]

/-- C13 (code defect): the text adapter forwards a bid envelope without a `user` field as a
`place_bid` event whose user is present with an empty id; from `newRoom` that bid is accepted,
the room has a leader and an accepted record, and the `leaderUserId` of the snapshot built by
`buildState` is the empty string. -/
theorem leader_with_empty_id :
    wsOnMessage "a1" alice bidWithoutUser = [Effect.input "a1" (placeBid noUser 110)] ∧
    ∃ r, run (newRoom auctionA) [Step.input (placeBid noUser 110) 1000 1001] = .ok r ∧
      r.leader = some noUser ∧ (∃ b ∈ r.bidHistory, b.Accepted = true) ∧
      (buildState r).LeaderUserID = "" := by
  refine ⟨by decide, _, rfl, by decide, ?_, by decide⟩
  exact ⟨bidEntry (placeBid noUser 110) true "" 1000, by decide, rfl⟩

/-! ## C12: the two transports -/

/-- C12 (counterexample): after joining room `0-7` as alice, a `place_bid` envelope that names
bob is forwarded by the text adapter as a bid of bob and by the data-channel handler as a bid of
alice; and a further `join_room` envelope is ignored by the text adapter while the data-channel
handler forwards a `join_room` event. -/
theorem transports_forward_differently :
    forwarded (wsOnMessage "0-7" alice
        { Typ := "place_bid", RoomID := "0-7", User := bob, AmountCts := 110 }) =
      [("0-7", placeBid bob 110)] ∧
    forwarded (dcOnMessage managerSoft (dcJoined "0-7" alice)
        { Typ := "place_bid", RoomID := "0-7", User := bob, AmountCts := 110 }).2.2 =
      [("0-7", placeBid alice 110)] ∧
    forwarded (wsOnMessage "0-7" alice
        { Typ := "place_bid", RoomID := "0-7", User := bob, AmountCts := 110 }) ≠
      forwarded (dcOnMessage managerSoft (dcJoined "0-7" alice)
        { Typ := "place_bid", RoomID := "0-7", User := bob, AmountCts := 110 }).2.2 ∧
    forwarded (wsOnMessage "0-7" alice
        { Typ := "join_room", RoomID := "0-7", User := alice, AmountCts := 0 }) = [] ∧
    forwarded (dcOnMessage managerSoft (dcJoined "0-7" alice)
        { Typ := "join_room", RoomID := "0-7", User := alice, AmountCts := 0 }).2.2 =
      [("0-7", { Typ := "join_room", User := some alice, AmountCts := 0 })] := by
  refine ⟨?_, ?_, ?_, ?_, ?_⟩ <;> decide

/-- C12 (amended): once the data-channel handler has joined the same room as the joined user J
of the text adapter, every later envelope that is not a `join_room` and that, when it is a
`place_bid`, names J as its user makes both handlers forward the same list of events to the
same room: one `place_bid` of J with the envelope's amount, one `leave_room` of J, or nothing;
the data-channel handler leaves the registry and its captured variables as they were.  The
join itself puts the data-channel handler in that state. -/
theorem transports_agree_for_own_user (m : Manager) (room : String) (J : User) (e : Envelope)
    (hty : e.Typ ≠ "join_room") (hu : e.Typ = "place_bid" → e.User = J) :
    forwarded (wsOnMessage room J e) =
      forwarded (dcOnMessage m (dcJoined room J) e).2.2 ∧
    (dcOnMessage m (dcJoined room J) e).1 = m ∧
    (dcOnMessage m (dcJoined room J) e).2.1 = dcJoined room J ∧
    (∀ (st : DCState) (amount : Int), (Manager.RoomFor m room).2 = true →
      (dcOnMessage m st
        { Typ := "join_room", RoomID := room, User := J, AmountCts := amount }).2.1 =
        dcJoined room J) := by
  refine ⟨?_, ?_, ?_, ?_⟩
  · unfold wsOnMessage dcOnMessage dcJoined
    rw [if_neg hty]
    by_cases h2 : e.Typ = "place_bid"
    · have hJ := hu h2
      simp [h2, forwarded, hJ]
    · by_cases h3 : e.Typ = "leave_room"
      · simp [h2, h3, forwarded]
      · simp [h2, h3, forwarded]
  · unfold dcOnMessage dcJoined
    rw [if_neg hty]
    split_ifs <;> rfl
  · unfold dcOnMessage dcJoined
    rw [if_neg hty]
    split_ifs <;> rfl
  · intro st amount hroom
    unfold dcOnMessage dcJoined
    simp only [if_true]
    rcases hr : Manager.RoomFor m room with ⟨m1, ok⟩
    rw [hr] at hroom
    simp only at hroom
    subst hroom
    rfl

/-- Witness of `transports_agree_for_own_user`: alice's own bid of 110 is forwarded alike. -/
theorem transports_agree_for_own_user_witness :
    aliceBid.Typ ≠ "join_room" ∧ (aliceBid.Typ = "place_bid" → aliceBid.User = alice) ∧
    forwarded (wsOnMessage "0-7" alice aliceBid) =
      forwarded (dcOnMessage managerSoft (dcJoined "0-7" alice) aliceBid).2.2 :=
  ⟨by decide, fun _ => rfl,
    (transports_agree_for_own_user managerSoft "0-7" alice aliceBid
      (by decide) (fun _ => rfl)).1⟩

/-! ## C11: the descriptor held by the registry -/

theorem mapGet_mapSet_same {α β : Type} [DecidableEq α] :
    ∀ (m : List (α × β)) (k : α) (v : β), mapGet (mapSet m k v) k = some v
  | [], k, v => by simp [mapSet, mapGet]
  | (k1, v1) :: rest, k, v => by
    unfold mapSet
    by_cases hk : k1 = k
    · simp [hk, mapGet]
    · simp only [hk, if_false, mapGet]
      exact mapGet_mapSet_same rest k v

theorem map_set_same {α β : Type} (f : α → β) :
    ∀ (l : List α) (i : Nat) (x : α), (∀ y, l[i]? = some y → f x = f y) →
      (l.set i x).map f = l.map f
  | [], _, _, _ => rfl
  | y :: rest, 0, x, h => by
    simp only [List.set_cons_zero, List.map_cons]
    rw [h y (by simp)]
  | y :: rest, i + 1, x, h => by
    simp only [List.set_cons_succ, List.map_cons]
    rw [map_set_same f rest i x (fun z hz => h z (by simpa using hz))]

theorem getElem?_of_map_eq {α β : Type} (f : α → β) {l l1 : List α} (h : l1.map f = l.map f)
    {i : Nat} {a : α} (ha : l[i]? = some a) : ∃ a1, l1[i]? = some a1 ∧ f a1 = f a := by
  have h1 : (l1.map f)[i]? = (l.map f)[i]? := by rw [h]
  rw [List.getElem?_map, List.getElem?_map, ha] at h1
  cases h2 : l1[i]? with
  | none => rw [h2] at h1; cases h1
  | some a1 =>
    rw [h2] at h1
    exact ⟨a1, rfl, Option.some.inj h1⟩

theorem steppedRoom_withoutEndsAt (r : Room) (s : Step) :
    withoutEndsAt (steppedRoom r s).auction = withoutEndsAt r.auction := by
  rcases steppedRoom_auction r s with h | ⟨clk, h⟩
  · rw [h]
  · rw [h]
    rfl

theorem stepRoom_registryInv (K : List Auction) (A : List (String × Nat)) (id : String)
    (m : Manager) (s : Step) (h : RegistryInv K A id m) :
    ∃ m1, Manager.stepRoom m id s = .ok m1 ∧ RegistryInv K A id m1 := by
  obtain ⟨hK, hA, ref, href, hwf⟩ := h
  have hwf0 : Wired { ref.room with
      auction := (m.objects[ref.auctionPtr]?).getD ref.room.auction } := hwf
  have hstep := step_open { ref.room with
      auction := (m.objects[ref.auctionPtr]?).getD ref.room.auction } s hwf0.chansOpen
  unfold Manager.stepRoom
  simp only [href, hstep]
  refine ⟨_, rfl, ?_, hA, _, mapGet_mapSet_same _ _ _, steppedRoom_wired _ s hwf0⟩
  rw [← hK]
  apply map_set_same
  intro y hy
  rw [steppedRoom_withoutEndsAt]
  simp [hy]

theorem runRoom_registryInv (K : List Auction) (A : List (String × Nat)) (id : String) :
    ∀ (steps : List Step) (m : Manager), RegistryInv K A id m →
      ∃ m1, Manager.runRoom m id steps = .ok m1 ∧ RegistryInv K A id m1
  | [], m, h => ⟨m, rfl, h⟩
  | s :: rest, m, h => by
    obtain ⟨m1, h1, hinv⟩ := stepRoom_registryInv K A id m s h
    obtain ⟨m2, h2, hinv2⟩ := runRoom_registryInv K A id rest m1 hinv
    refine ⟨m2, ?_, hinv2⟩
    simp only [Manager.runRoom, h1]
    exact h2

theorem roomFor_after_create (m : Manager) (p : CreateAuctionParams) (now : Time) (rnd : Nat)
    (hwf : ∀ id ref, (id, ref) ∈ m.rooms → WF ref.room) :
    (Manager.RoomFor (m.Create p now rnd).1 (m.Create p now rnd).2.ID).2 = true ∧
    RegistryInv ((m.Create p now rnd).1.objects.map withoutEndsAt)
      (m.Create p now rnd).1.auctions (m.Create p now rnd).2.ID
      (Manager.RoomFor (m.Create p now rnd).1 (m.Create p now rnd).2.ID).1 := by
  have hget : mapGet (m.Create p now rnd).1.auctions (m.Create p now rnd).2.ID =
      some m.objects.length := mapGet_mapSet_same _ _ _
  have hobj : (m.Create p now rnd).1.objects[m.objects.length]? =
      some (m.Create p now rnd).2 := by
    simp [Manager.Create]
  unfold Manager.RoomFor
  cases hr : mapGet (m.Create p now rnd).1.rooms (m.Create p now rnd).2.ID with
  | some ref =>
    exact ⟨rfl, rfl, rfl, ref, hr, wired_of_wf (hwf _ ref (mapGet_mem _ _ _ hr))⟩
  | none =>
    simp only [hget, hobj]
    exact ⟨trivial, rfl, rfl, _, mapGet_mapSet_same _ _ _, newRoom_wired _⟩

theorem fields_of_withoutEndsAt_eq {a b : Auction} (h : withoutEndsAt a = withoutEndsAt b) :
    a.ID = b.ID ∧ a.Title = b.Title ∧ a.StartPriceCents = b.StartPriceCents ∧
      a.MinIncrementCents = b.MinIncrementCents ∧ a.ReservePriceCents = b.ReservePriceCents ∧
      a.SoftCloseSeconds = b.SoftCloseSeconds ∧ a.CreatedAt = b.CreatedAt := by
  cases a
  cases b
  simp only [withoutEndsAt, Auction.mk.injEq] at h
  obtain ⟨h1, h2, h3, h4, h5, -, h6, h7⟩ := h
  exact ⟨h1, h2, h3, h4, h5, h6, h7⟩

/-- C11 (counterexample): a descriptor created at time 0 for 5 s with a soft-close window of
10 s has id `0-7` and end time 5 s; after `RoomFor` and one bid accepted at 3 s in its room,
`Manager.Get` returns a descriptor whose end time is 15 s. -/
theorem get_returns_moved_endsAt :
    (NewManager.Create paramsSoft 0 7).2.ID = "0-7" ∧
    (NewManager.Create paramsSoft 0 7).2.EndsAt = 5000000000 ∧
    (Manager.RoomFor (NewManager.Create paramsSoft 0 7).1 "0-7").2 = true ∧
    ∃ m3 a1, Manager.runRoom managerSoft "0-7"
        [Step.input (placeBid alice 110) 3000000000 3000000000] = .ok m3 ∧
      Manager.Get m3 "0-7" = some a1 ∧ a1.EndsAt = 15000000000 ∧
      a1.EndsAt ≠ (NewManager.Create paramsSoft 0 7).2.EndsAt := by
  refine ⟨by decide, by decide, by decide, _, _, rfl, rfl, by decide, by decide⟩

/-- C11 (amended): for every registry whose rooms have well-formed wiring, every descriptor
registered by `Create` is what `Get` returns for its id, `RoomFor` of that id returns a room,
and after every sequence of steps of that room `Get` returns a descriptor whose id, title,
start price, minimum increment, reserve price, soft-close window and creation time are those
`Create` returned; the end time is left out. -/
theorem get_after_room_steps (m : Manager) (p : CreateAuctionParams) (now : Time) (rnd : Nat)
    (steps : List Step) (hwf : ∀ id ref, (id, ref) ∈ m.rooms → WF ref.room) :
    Manager.Get (m.Create p now rnd).1 (m.Create p now rnd).2.ID =
      some (m.Create p now rnd).2 ∧
    (Manager.RoomFor (m.Create p now rnd).1 (m.Create p now rnd).2.ID).2 = true ∧
    ∃ m3 a1,
      Manager.runRoom (Manager.RoomFor (m.Create p now rnd).1 (m.Create p now rnd).2.ID).1
        (m.Create p now rnd).2.ID steps = .ok m3 ∧
      Manager.Get m3 (m.Create p now rnd).2.ID = some a1 ∧
      a1.ID = (m.Create p now rnd).2.ID ∧ a1.Title = (m.Create p now rnd).2.Title ∧
      a1.StartPriceCents = (m.Create p now rnd).2.StartPriceCents ∧
      a1.MinIncrementCents = (m.Create p now rnd).2.MinIncrementCents ∧
      a1.ReservePriceCents = (m.Create p now rnd).2.ReservePriceCents ∧
      a1.SoftCloseSeconds = (m.Create p now rnd).2.SoftCloseSeconds ∧
      a1.CreatedAt = (m.Create p now rnd).2.CreatedAt := by
  have hget : mapGet (m.Create p now rnd).1.auctions (m.Create p now rnd).2.ID =
      some m.objects.length := mapGet_mapSet_same _ _ _
  have hobj : (m.Create p now rnd).1.objects[m.objects.length]? =
      some (m.Create p now rnd).2 := by
    simp [Manager.Create]
  obtain ⟨hroom, hinv⟩ := roomFor_after_create m p now rnd hwf
  obtain ⟨m3, hrun, hK, hA, -⟩ := runRoom_registryInv _ _ _ steps _ hinv
  obtain ⟨a1, ha1, hsame⟩ := getElem?_of_map_eq withoutEndsAt hK hobj
  refine ⟨?_, hroom, m3, a1, hrun, ?_, ?_⟩
  · simp only [Manager.Get, hget, hobj]
  · simp only [Manager.Get, hA, hget, ha1]
  · exact fields_of_withoutEndsAt_eq hsame

/-- Witness of `get_after_room_steps`: on the empty registry, after the accepted bid at 3 s,
`Get` still returns the title and the soft-close window of the created descriptor. -/
theorem get_after_room_steps_witness :
    (∀ id ref, (id, ref) ∈ NewManager.rooms → WF ref.room) ∧
    ∃ m3 a1, Manager.runRoom managerSoft "0-7"
        [Step.input (placeBid alice 110) 3000000000 3000000000] = .ok m3 ∧
      Manager.Get m3 "0-7" = some a1 ∧ a1.Title = "lot" ∧ a1.SoftCloseSeconds = 10 := by
  have hwf : ∀ id ref, (id, ref) ∈ NewManager.rooms → WF ref.room := by
    intro id ref h
    cases h
  obtain ⟨-, -, m3, a1, h1, h2, -, h3, -, -, -, h4, -⟩ :=
    get_after_room_steps NewManager paramsSoft 0 7
      [Step.input (placeBid alice 110) 3000000000 3000000000] hwf
  exact ⟨hwf, m3, a1, h1, h2, h3, h4⟩

/-! ## Lemmas: binary64 rounding -/

/-- Rounding to the nearest integer moves a value by at most one half. -/
theorem roundHalfEven_error (m : ℚ) : |(roundHalfEven m : ℚ) - m| ≤ 1 / 2 := by
  have h1 := Int.floor_le m
  have h2 := Int.lt_floor_add_one m
  unfold roundHalfEven
  rw [abs_le]
  split_ifs <;> push_cast <;> constructor <;> linarith

/-- Zero is a double. -/
theorem roundF64_zero : roundF64 0 = some 0 := by
  have h : (roundHalfEven 0 : ℚ) = 0 := by
    simp [roundHalfEven]
  unfold roundF64
  simp only [zero_div, h, zero_mul, abs_zero]
  rw [if_pos (by positivity)]

/-- The overflow threshold lies above 2^61. -/
theorem two_zpow_1024_gt : (2305843009213693952 : ℚ) < 2 ^ (1024 : ℤ) := by
  have h : (2 : ℚ) ^ (61 : ℤ) ≤ 2 ^ (1024 : ℤ) := zpow_le_zpow_right₀ (by norm_num) (by norm_num)
  have h2 : (2 : ℚ) ^ (61 : ℤ) = 2305843009213693952 := by norm_num
  have h3 : (2 : ℚ) ^ (61 : ℤ) < 2 ^ (1024 : ℤ) := zpow_lt_zpow_right₀ (by norm_num) (by norm_num)
  linarith

/-- A value of the normal range, of magnitude at most 2^60, rounds to a finite double within
the relative error 2^-53. -/
theorem roundF64_error (q : ℚ) (hq : q = 0 ∨ (2 : ℚ) ^ (-1022 : ℤ) ≤ |q|)
    (hb : |q| ≤ 1152921504606846976) :
    ∃ r, roundF64 q = some r ∧ |r - q| ≤ |q| / 9007199254740992 := by
  rcases hq with hq | hq
  · subst hq
    exact ⟨0, roundF64_zero, by simp⟩
  · have hpos : 0 < |q| := lt_of_lt_of_le (by positivity) hq
    have he : (-1022 : ℤ) ≤ Int.log 2 |q| := by
      have := (Int.zpow_le_iff_le_log (b := 2) (by norm_num) hpos (x := -1022)).mp (by simpa using hq)
      exact this
    have hlog : (2 : ℚ) ^ (Int.log 2 |q|) ≤ |q| := by
      have := Int.zpow_log_le_self (b := 2) (r := |q|) (by norm_num) hpos
      simpa using this
    have hexp : f64Exponent q = Int.log 2 |q| := max_eq_left he
    have hu : (2 : ℚ) ^ (Int.log 2 |q| - 52) = 2 ^ (Int.log 2 |q|) / 4503599627370496 := by
      rw [zpow_sub₀ (by norm_num)]
      norm_num
    have hupos : (0 : ℚ) < 2 ^ (Int.log 2 |q| - 52) := by positivity
    have hule : (2 : ℚ) ^ (Int.log 2 |q| - 52) ≤ |q| / 4503599627370496 := by
      rw [hu]
      exact div_le_div_of_nonneg_right hlog (by norm_num)
    have herr := roundHalfEven_error (q / 2 ^ (Int.log 2 |q| - 52))
    have hr : |(roundHalfEven (q / 2 ^ (Int.log 2 |q| - 52)) : ℚ) * 2 ^ (Int.log 2 |q| - 52) - q|
        ≤ |q| / 9007199254740992 := by
      have e1 : (roundHalfEven (q / 2 ^ (Int.log 2 |q| - 52)) : ℚ) * 2 ^ (Int.log 2 |q| - 52) - q
          = ((roundHalfEven (q / 2 ^ (Int.log 2 |q| - 52)) : ℚ) - q / 2 ^ (Int.log 2 |q| - 52))
            * 2 ^ (Int.log 2 |q| - 52) := by
        field_simp
      rw [e1, abs_mul, abs_of_pos hupos]
      calc |(roundHalfEven (q / 2 ^ (Int.log 2 |q| - 52)) : ℚ) - q / 2 ^ (Int.log 2 |q| - 52)|
              * 2 ^ (Int.log 2 |q| - 52)
            ≤ 1 / 2 * 2 ^ (Int.log 2 |q| - 52) := by
              exact mul_le_mul_of_nonneg_right herr (le_of_lt hupos)
        _ ≤ 1 / 2 * (|q| / 4503599627370496) := by
              exact mul_le_mul_of_nonneg_left hule (by norm_num)
        _ = |q| / 9007199254740992 := by ring
    refine ⟨_, ?_, hr⟩
    unfold roundF64
    simp only [hexp]
    rw [if_pos]
    have habs : |(roundHalfEven (q / 2 ^ (Int.log 2 |q| - 52)) : ℚ) * 2 ^ (Int.log 2 |q| - 52)|
        ≤ |q| + |q| / 9007199254740992 := by
      have := abs_sub_abs_le_abs_sub
        ((roundHalfEven (q / 2 ^ (Int.log 2 |q| - 52)) : ℚ) * 2 ^ (Int.log 2 |q| - 52)) q
      linarith
    have := two_zpow_1024_gt
    linarith

/-- An integer rounds to itself. -/
theorem roundHalfEven_intCast (z : Int) : roundHalfEven (z : ℚ) = z := by
  unfold roundHalfEven
  simp

/-- The smallest normal double lies below 1/128. -/
theorem subnormal_le : (2 : ℚ) ^ (-1022 : ℤ) ≤ 1 / 128 := by
  have h : (2 : ℚ) ^ (-1022 : ℤ) ≤ 2 ^ (-7 : ℤ) := zpow_le_zpow_right₀ (by norm_num) (by norm_num)
  have h2 : (2 : ℚ) ^ (-7 : ℤ) = 1 / 128 := by norm_num
  linarith

/-- Every integer of magnitude at most 2^52 is a double. -/
theorem roundF64_intCast (c : Int) (hc : |c| ≤ 4503599627370496) :
    roundF64 (c : ℚ) = some (c : ℚ) := by
  by_cases h0 : c = 0
  · subst h0
    simpa using roundF64_zero
  · have hc1 : (1 : ℚ) ≤ |(c : ℚ)| := by
      have : (1 : Int) ≤ |c| := Int.one_le_abs h0
      exact_mod_cast this
    have hcq : |(c : ℚ)| ≤ 4503599627370496 := by exact_mod_cast hc
    have hpos : (0 : ℚ) < |(c : ℚ)| := by linarith
    have he0 : (0 : ℤ) ≤ Int.log 2 |(c : ℚ)| :=
      (Int.zpow_le_iff_le_log (b := 2) (by norm_num) hpos (x := 0)).mp (by simpa using hc1)
    have he1 : Int.log 2 |(c : ℚ)| < 53 :=
      (Int.lt_zpow_iff_log_lt (b := 2) (by norm_num) hpos (x := 53)).mp (by
        have : ((2 : ℕ) : ℚ) ^ (53 : ℤ) = 9007199254740992 := by norm_num
        rw [this]
        linarith)
    have hexp : f64Exponent (c : ℚ) = Int.log 2 |(c : ℚ)| := max_eq_left (by omega)
    obtain ⟨k, hk⟩ : ∃ k : ℕ, Int.log 2 |(c : ℚ)| - 52 = -(k : ℤ) :=
      ⟨(52 - Int.log 2 |(c : ℚ)|).toNat, by omega⟩
    have hu : (2 : ℚ) ^ (Int.log 2 |(c : ℚ)| - 52) = ((2 : ℚ) ^ k)⁻¹ := by
      rw [hk, zpow_neg, zpow_natCast]
    have hm : (c : ℚ) / ((2 : ℚ) ^ k)⁻¹ = ((c * 2 ^ k : Int) : ℚ) := by
      push_cast
      field_simp
    unfold roundF64
    simp only [hexp, hu, hm, roundHalfEven_intCast]
    have hval : ((c * 2 ^ k : Int) : ℚ) * ((2 : ℚ) ^ k)⁻¹ = (c : ℚ) := by
      push_cast
      field_simp
    rw [hval, if_pos]
    have := two_zpow_1024_gt
    linarith

/-- A value that is zero or of magnitude between 1/128 and 2^49 + 1 rounds to a finite double
within the relative error 2^-53, hence within 1/15. -/
theorem roundF64_near (q : ℚ) (hq : q = 0 ∨ (1 : ℚ) / 128 ≤ |q|)
    (hb : |q| ≤ 562949953421313) :
    ∃ r, roundF64 q = some r ∧ |r - q| ≤ |q| / 9007199254740992 ∧ |r - q| ≤ 1 / 15 := by
  obtain ⟨r, h1, h2⟩ := roundF64_error q
    (hq.imp id (fun h => le_trans subnormal_le h)) (by linarith)
  refine ⟨r, h1, h2, ?_⟩
  have : |q| / 9007199254740992 ≤ 1 / 15 := by
    rw [div_le_iff₀ (by norm_num)]
    linarith
  linarith

/-- The two roundings of `toCents` at a finite double. -/
theorem toCents_eq (x y z : ℚ) (hy : roundF64 (x * 100) = some y)
    (hz : roundF64 (y + 1 / 2) = some z) : toCents (some x) = truncToInt64 (some z) := by
  unfold toCents F64.mul F64.add
  simp only [hy, hz]

/-- The conversion to `int64` of a double that lies between c + 1/8 and c + 7/8: the fraction
is cut toward zero, which gives c from zero upward and c + 1 below zero. -/
theorem truncToInt64_near (c : Int) (z : ℚ) (hc : |c| ≤ 562949953421312)
    (h1 : (c : ℚ) + 1 / 8 ≤ z) (h2 : z ≤ (c : ℚ) + 7 / 8) :
    truncToInt64 (some z) = if 0 ≤ c then c else c + 1 := by
  have hcz := abs_le.mp hc
  unfold truncToInt64
  simp only
  by_cases h0 : 0 ≤ c
  · have hc0 : (0 : ℚ) ≤ (c : ℚ) := by exact_mod_cast h0
    have hfl : ⌊z⌋ = c := by
      rw [Int.floor_eq_iff]
      constructor <;> linarith
    rw [if_pos (by linarith : (0 : ℚ) ≤ z), hfl, if_pos h0, if_pos (by constructor <;> omega)]
  · have hc1 : (c : ℚ) ≤ -1 := by
      have : c ≤ -1 := by omega
      exact_mod_cast this
    have hce : ⌈z⌉ = c + 1 := by
      rw [Int.ceil_eq_iff]
      push_cast
      constructor <;> linarith
    rw [if_neg (by linarith : ¬ (0 : ℚ) ≤ z), hce, if_neg h0,
      if_pos (by constructor <;> omega)]

/-- The heart of the round trip: for |c| ≤ 2^49 the quotient `float64(c) / 100` is the double x
nearest c/100, and `toCents` at x gives c for c ≥ 0 and c + 1 for c < 0. -/
theorem toCents_nearest (c : Int) (hc : |c| ≤ 562949953421312) :
    ∃ x : ℚ, roundF64 ((c : ℚ) / 100) = some x ∧ fromCents c = some x ∧
      |x - (c : ℚ) / 100| ≤ |(c : ℚ) / 100| / 9007199254740992 ∧
      toCents (some x) = if 0 ≤ c then c else c + 1 := by
  have hC : |(c : ℚ)| ≤ 562949953421312 := by exact_mod_cast hc
  have hCle := (abs_le.mp hC)
  have habs100 : |(c : ℚ) / 100| = |(c : ℚ)| / 100 := by
    rw [abs_div]
    norm_num
  -- the three cases of the sign of c, as facts on the rational
  have hsign : c = 0 ∨ (1 : ℚ) ≤ (c : ℚ) ∨ (c : ℚ) ≤ -1 := by
    rcases lt_trichotomy c 0 with h | h | h
    · right; right
      have : c ≤ -1 := by omega
      exact_mod_cast this
    · left; exact h
    · right; left
      have : (1 : Int) ≤ c := by omega
      exact_mod_cast this
  -- x, the double nearest c/100
  have hq1 : (c : ℚ) / 100 = 0 ∨ (1 : ℚ) / 128 ≤ |(c : ℚ) / 100| := by
    rcases hsign with h | h | h
    · left; subst h; simp
    · right
      rw [habs100, abs_of_pos (by linarith)]
      linarith
    · right
      rw [habs100, abs_of_neg (by linarith)]
      linarith
  obtain ⟨x, hx1, hx2, -⟩ := roundF64_near ((c : ℚ) / 100) hq1 (by rw [habs100]; linarith)
  have hx3 := abs_le.mp hx2
  rw [habs100] at hx3
  -- y = x * 100 rounded
  have hxb : |x * 100| ≤ 562949953421313 := by
    rw [abs_le]
    rcases abs_cases (c : ℚ) with ⟨h1, _⟩ | ⟨h1, _⟩ <;> rw [h1] at hx3 <;> constructor <;> linarith
  have hq2 : x * 100 = 0 ∨ (1 : ℚ) / 128 ≤ |x * 100| := by
    rcases hsign with h | h | h
    · left
      subst h
      simp only [Int.cast_zero, zero_div, abs_zero, sub_zero] at hx2
      have : x = 0 := abs_eq_zero.mp (le_antisymm hx2 (abs_nonneg x))
      rw [this]
      simp
    · right
      rw [abs_of_pos (by linarith)] at hx3
      exact le_trans (by linarith) (le_abs_self _)
    · right
      rw [abs_of_neg (by linarith)] at hx3
      exact le_trans (by linarith) (neg_le_abs _)
  obtain ⟨y, hy1, -, hy2⟩ := roundF64_near (x * 100) hq2 hxb
  have hy3 := abs_le.mp hy2
  have hxC : (c : ℚ) - 1 / 16 ≤ x * 100 ∧ x * 100 ≤ (c : ℚ) + 1 / 16 := by
    rcases abs_cases (c : ℚ) with ⟨h1, _⟩ | ⟨h1, _⟩ <;> rw [h1] at hx3 <;> constructor <;> linarith
  -- z = y + 0.5 rounded
  have hyb : |y + 1 / 2| ≤ 562949953421313 := by
    rw [abs_le]
    constructor <;> linarith
  have hq3 : y + 1 / 2 = 0 ∨ (1 : ℚ) / 128 ≤ |y + 1 / 2| := by
    right
    rcases hsign with h | h | h
    · subst h
      simp only [Int.cast_zero] at hxC
      exact le_trans (by linarith) (le_abs_self _)
    · exact le_trans (by linarith) (le_abs_self _)
    · exact le_trans (by linarith) (neg_le_abs _)
  obtain ⟨z, hz1, -, hz2⟩ := roundF64_near (y + 1 / 2) hq3 hyb
  have hz3 := abs_le.mp hz2
  have hzC : (c : ℚ) + 1 / 8 ≤ z ∧ z ≤ (c : ℚ) + 7 / 8 := by
    constructor <;> linarith
  refine ⟨x, hx1, ?_, hx2, ?_⟩
  · unfold fromCents F64.ofInt F64.div
    rw [roundF64_intCast c (le_trans hc (by norm_num))]
    simp only
    rw [if_neg (by norm_num)]
    exact hx1
  · rw [toCents_eq x y z hy1 hz1]
    exact truncToInt64_near c z hc hzC.1 hzC.2

/-- A value in the lower half of a unit interval rounds down. -/
theorem roundHalfEven_below (m : ℚ) (n : Int) (h1 : (n : ℚ) ≤ m) (h2 : m < n + 1 / 2) :
    roundHalfEven m = n := by
  have hf : ⌊m⌋ = n := Int.floor_eq_iff.mpr ⟨h1, by linarith⟩
  unfold roundHalfEven
  rw [hf, if_pos (by linarith)]

/-- A value in the upper half of a unit interval rounds up. -/
theorem roundHalfEven_above (m : ℚ) (n : Int) (h1 : (n : ℚ) + 1 / 2 < m) (h2 : m < n + 1) :
    roundHalfEven m = n + 1 := by
  have hf : ⌊m⌋ = n := Int.floor_eq_iff.mpr ⟨by linarith, h2⟩
  unfold roundHalfEven
  rw [hf, if_neg (by linarith), if_pos (by linarith)]

/-- A tie above an odd integer rounds up, to the even neighbour. -/
theorem roundHalfEven_tie_odd (m : ℚ) (n : Int) (h : m = n + 1 / 2) (hodd : n % 2 = 1) :
    roundHalfEven m = n + 1 := by
  have hf : ⌊m⌋ = n := Int.floor_eq_iff.mpr ⟨by linarith, by linarith⟩
  unfold roundHalfEven
  rw [hf, if_neg (by linarith), if_neg (by linarith), if_neg (by omega)]

/-- Rounding a value whose binade is known. -/
theorem roundF64_of_binade (q : ℚ) (e n : Int) (he : -1022 ≤ e) (h1 : (2 : ℚ) ^ e ≤ |q|)
    (h2 : |q| < (2 : ℚ) ^ (e + 1)) (hn : roundHalfEven (q / 2 ^ (e - 52)) = n)
    (hfin : |(n : ℚ) * 2 ^ (e - 52)| < 2 ^ (1024 : ℤ)) :
    roundF64 q = some ((n : ℚ) * 2 ^ (e - 52)) := by
  have hpos : 0 < |q| := lt_of_lt_of_le (by positivity) h1
  have hlo : e ≤ Int.log 2 |q| :=
    (Int.zpow_le_iff_le_log (b := 2) (by norm_num) hpos (x := e)).mp (by simpa using h1)
  have hhi : Int.log 2 |q| < e + 1 :=
    (Int.lt_zpow_iff_log_lt (b := 2) (by norm_num) hpos (x := e + 1)).mp (by simpa using h2)
  have hlog : Int.log 2 |q| = e := by omega
  have hexp : f64Exponent q = e := by
    unfold f64Exponent
    rw [hlog]
    exact max_eq_left he
  unfold roundF64
  simp only [hexp, hn]
  rw [if_pos hfin]

/-- The double nearest -0.01 is -5764607523034235 / 2^59. -/
theorem roundF64_neg_cent :
    roundF64 (((-1 : Int) : ℚ) / 100) = some (-5764607523034235 / 576460752303423488) := by
  have h := roundF64_of_binade (((-1 : Int) : ℚ) / 100) (-7) (-5764607523034235) (by norm_num)
    (by norm_num [abs_of_neg]) (by norm_num [abs_of_neg])
    (by
      have e : ((-1 : Int) : ℚ) / 100 / 2 ^ ((-7 : ℤ) - 52) = -5764607523034234.88 := by
        norm_num
      rw [e]
      exact roundHalfEven_below (-5764607523034234.88) (-5764607523034235)
        (by norm_num) (by norm_num))
    (by
      have := two_zpow_1024_gt
      have e : |((-5764607523034235 : Int) : ℚ) * 2 ^ ((-7 : ℤ) - 52)| ≤ 1 := by
        rw [abs_le]
        constructor <;> norm_num
      linarith)
  rw [h]
  norm_num

/-- The two roundings of `fromCents`. -/
theorem fromCents_eq (c : Int) (a x : ℚ) (ha : roundF64 (c : ℚ) = some a)
    (hx : roundF64 (a / 100) = some x) : fromCents c = some x := by
  unfold fromCents F64.ofInt F64.div
  simp only [ha]
  rw [if_neg (by norm_num)]
  exact hx

/-- The conversion to `int64` of a double that is not negative and whose integer part fits. -/
theorem truncToInt64_floor (z : ℚ) (t : Int) (h0 : 0 ≤ z) (hf : ⌊z⌋ = t) (ht : IsInt64 t) :
    truncToInt64 (some z) = t := by
  unfold truncToInt64
  simp only
  have ht2 : -9223372036854775808 ≤ t ∧ t ≤ 9223372036854775807 := ht
  rw [if_pos h0, hf, if_pos ht2]

/-- The conversion to `int64` of a double above the `int64` range. -/
theorem truncToInt64_above (z : ℚ) (t : Int) (h0 : 0 ≤ z) (hf : ⌊z⌋ = t)
    (ht : 9223372036854775807 < t) : truncToInt64 (some z) = -9223372036854775808 := by
  unfold truncToInt64
  simp only
  rw [if_pos h0, hf, if_neg (by omega)]

/-- Rounding a value whose binade is known, the result given in lowest terms. -/
theorem roundF64_at (q r : ℚ) (e n : Int) (he : -1022 ≤ e) (h1 : (2 : ℚ) ^ e ≤ |q|)
    (h2 : |q| < (2 : ℚ) ^ (e + 1)) (hn : roundHalfEven (q / 2 ^ (e - 52)) = n)
    (hr : (n : ℚ) * 2 ^ (e - 52) = r) (hb : |r| ≤ 18446744073709551616) :
    roundF64 q = some r := by
  rw [roundF64_of_binade q e n he h1 h2 hn (by
    rw [hr]
    have h : (2 : ℚ) ^ (64 : ℤ) < 2 ^ (1024 : ℤ) :=
      zpow_lt_zpow_right₀ (by norm_num) (by norm_num)
    have h64 : (2 : ℚ) ^ (64 : ℤ) = 18446744073709551616 := by norm_num
    linarith), hr]

/-- The double nearest 1.10 is 2476979795053773 / 2^51. -/
theorem roundF64_dollar_ten :
    roundF64 (((110 : Int) : ℚ) / 100) = some (2476979795053773 / 2251799813685248) := by
  refine roundF64_at _ _ 0 4953959590107546 (by norm_num) (by norm_num [abs_of_pos])
    (by norm_num [abs_of_pos]) ?_ (by norm_num) (by norm_num [abs_of_pos])
  have := roundHalfEven_above (((110 : Int) : ℚ) / 100 / 2 ^ ((0 : ℤ) - 52))
    4953959590107545 (by norm_num) (by norm_num)
  rw [this]
  norm_num

/-- The double nearest 45035996273704.97, the amount of 2^52 + 1 cents. -/
theorem roundF64_large_cent :
    roundF64 (((4503599627370497 : Int) : ℚ) / 100) = some (1441151880758559 / 32) := by
  refine roundF64_at _ _ 45 5764607523034236 (by norm_num) (by norm_num [abs_of_pos])
    (by norm_num [abs_of_pos]) ?_ (by norm_num) (by norm_num [abs_of_pos])
  exact roundHalfEven_below _ _ (by norm_num) (by norm_num)

/-- The product of that double and 100 rounds to 2^52 + 1. -/
theorem roundF64_large_product :
    roundF64 ((1441151880758559 / 32 : ℚ) * 100) = some 4503599627370497 := by
  refine roundF64_at _ _ 52 4503599627370497 (by norm_num) (by norm_num [abs_of_pos])
    (by norm_num [abs_of_pos]) ?_ (by norm_num) (by norm_num [abs_of_pos])
  have := roundHalfEven_above ((1441151880758559 / 32 : ℚ) * 100 / 2 ^ ((52 : ℤ) - 52))
    4503599627370496 (by norm_num) (by norm_num)
  rw [this]
  norm_num

/-- Between 2^52 and 2^53 the doubles are the integers: 2^52 + 1 + 0.5 is a tie, and it goes
to the even neighbour 2^52 + 2. -/
theorem roundF64_large_sum :
    roundF64 ((4503599627370497 : ℚ) + 1 / 2) = some 4503599627370498 := by
  refine roundF64_at _ _ 52 4503599627370498 (by norm_num) (by norm_num [abs_of_pos])
    (by norm_num [abs_of_pos]) ?_ (by norm_num) (by norm_num [abs_of_pos])
  have := roundHalfEven_tie_odd (((4503599627370497 : ℚ) + 1 / 2) / 2 ^ ((52 : ℤ) - 52))
    4503599627370497 (by norm_num) (by norm_num)
  rw [this]
  norm_num

/-- The upper bound of the round trip cannot be dropped: for c = 2^52 + 1 cents the double
nearest c/100 is 1441151880758559 / 32, and `toCents` of it is c + 1. -/
theorem toCents_large_cent :
    IsInt64 4503599627370497 ∧
      roundF64 (((4503599627370497 : Int) : ℚ) / 100) = some (1441151880758559 / 32) ∧
      toCents (some (1441151880758559 / 32)) = 4503599627370497 + 1 := by
  refine ⟨by decide, roundF64_large_cent, ?_⟩
  rw [toCents_eq _ _ _ roundF64_large_product roundF64_large_sum]
  exact truncToInt64_floor _ _ (by norm_num)
    (by rw [Int.floor_eq_iff]; constructor <;> norm_num) (by decide)

/-- The amount 1e17 is a double. -/
theorem roundF64_huge : roundF64 100000000000000000 = some 100000000000000000 := by
  refine roundF64_at _ _ 56 6250000000000000 (by norm_num) (by norm_num [abs_of_pos])
    (by norm_num [abs_of_pos]) ?_ (by norm_num) (by norm_num [abs_of_pos])
  have e : (100000000000000000 : ℚ) / 2 ^ ((56 : ℤ) - 52) = ((6250000000000000 : Int) : ℚ) := by
    norm_num
  rw [e, roundHalfEven_intCast]

/-- The product of 1e17 and 100 is the double 1e19. -/
theorem roundF64_huge_product :
    roundF64 ((100000000000000000 : ℚ) * 100) = some 10000000000000000000 := by
  refine roundF64_at _ _ 63 4882812500000000 (by norm_num) (by norm_num [abs_of_pos])
    (by norm_num [abs_of_pos]) ?_ (by norm_num) (by norm_num [abs_of_pos])
  have e : (100000000000000000 : ℚ) * 100 / 2 ^ ((63 : ℤ) - 52)
      = ((4882812500000000 : Int) : ℚ) := by
    norm_num
  rw [e, roundHalfEven_intCast]

/-- The sum of 1e19 and 0.5 rounds back to 1e19. -/
theorem roundF64_huge_sum :
    roundF64 ((10000000000000000000 : ℚ) + 1 / 2) = some 10000000000000000000 := by
  refine roundF64_at _ _ 63 4882812500000000 (by norm_num) (by norm_num [abs_of_pos])
    (by norm_num [abs_of_pos]) ?_ (by norm_num) (by norm_num [abs_of_pos])
  exact roundHalfEven_below _ _ (by norm_num) (by norm_num)

/-- An amount whose cents do not fit `int64`: `toCents(1e17)` is -2^63. -/
theorem toCents_out_of_range :
    toCents (some 100000000000000000) = -9223372036854775808 := by
  rw [toCents_eq _ _ _ roundF64_huge_product roundF64_huge_sum]
  exact truncToInt64_above _ 10000000000000000000 (by norm_num)
    (by rw [Int.floor_eq_iff]; constructor <;> norm_num) (by norm_num)

/-- The conversion from zero cents is the double zero. -/
theorem fromCents_zero : fromCents 0 = some 0 :=
  fromCents_eq 0 0 0 (by simpa using roundF64_zero) (by simpa using roundF64_zero)

/-- The fused evaluation agrees with the separate roundings on the amounts of at most 2^49
cents: with one rounding too, `toCents` at the double nearest c/100 gives c for c ≥ 0 and
c + 1 for c < 0. -/
theorem toCentsFused_nearest (c : Int) (hc : |c| ≤ 562949953421312) :
    ∃ x : ℚ, roundF64 ((c : ℚ) / 100) = some x ∧
      toCentsFused (some x) = if 0 ≤ c then c else c + 1 := by
  obtain ⟨x, hx1, -, hx2, -⟩ := toCents_nearest c hc
  have hC : |(c : ℚ)| ≤ 562949953421312 := by exact_mod_cast hc
  have habs100 : |(c : ℚ) / 100| = |(c : ℚ)| / 100 := by
    rw [abs_div]
    norm_num
  rw [habs100] at hx2
  have hx3 := abs_le.mp hx2
  have hCle := abs_le.mp hC
  have hxC : (c : ℚ) - 1 / 16 ≤ x * 100 ∧ x * 100 ≤ (c : ℚ) + 1 / 16 := by
    constructor <;> linarith
  have hq : x * 100 + 1 / 2 = 0 ∨ (1 : ℚ) / 128 ≤ |x * 100 + 1 / 2| := by
    right
    by_cases h0 : 0 ≤ c
    · have hc0 : (0 : ℚ) ≤ (c : ℚ) := by exact_mod_cast h0
      exact le_trans (by linarith) (le_abs_self _)
    · have hc1 : (c : ℚ) ≤ -1 := by
        have : c ≤ -1 := by omega
        exact_mod_cast this
      exact le_trans (by linarith) (neg_le_abs _)
  obtain ⟨z, hz1, -, hz2⟩ := roundF64_near (x * 100 + 1 / 2) hq
    (by rw [abs_le]; constructor <;> linarith)
  have hz3 := abs_le.mp hz2
  refine ⟨x, hx1, ?_⟩
  unfold toCentsFused
  simp only [hz1]
  exact truncToInt64_near c z hc (by linarith) (by linarith)

/-- A value of magnitude below 2^(E+1) rounds to a finite double within half a unit in the
last place of the binade of exponent E, that is within 2^(E-53). -/
theorem roundF64_abs (q : ℚ) (E : Int) (hE : -1022 ≤ E) (hE2 : E ≤ 60)
    (hq : |q| < (2 : ℚ) ^ (E + 1)) :
    ∃ r, roundF64 q = some r ∧ |r - q| ≤ (2 : ℚ) ^ (E - 53) := by
  by_cases h0 : q = 0
  · subst h0
    exact ⟨0, roundF64_zero, by simp; positivity⟩
  · have hpos : 0 < |q| := abs_pos.mpr h0
    have hlog : Int.log 2 |q| < E + 1 :=
      (Int.lt_zpow_iff_log_lt (b := 2) (by norm_num) hpos (x := E + 1)).mp (by simpa using hq)
    have he : f64Exponent q ≤ E := max_le (by omega) hE
    have hupos : (0 : ℚ) < 2 ^ (f64Exponent q - 52) := by positivity
    have hule : (2 : ℚ) ^ (f64Exponent q - 52) ≤ 2 ^ (E - 52) :=
      zpow_le_zpow_right₀ (by norm_num) (by omega)
    have hhalf : (2 : ℚ) ^ (E - 52) = 2 * 2 ^ (E - 53) := by
      have : E - 52 = (E - 53) + 1 := by ring
      rw [this, zpow_add_one₀ (by norm_num)]
      ring
    have herr := roundHalfEven_error (q / 2 ^ (f64Exponent q - 52))
    have hr : |(roundHalfEven (q / 2 ^ (f64Exponent q - 52)) : ℚ) * 2 ^ (f64Exponent q - 52) - q|
        ≤ 2 ^ (E - 53) := by
      have e1 : (roundHalfEven (q / 2 ^ (f64Exponent q - 52)) : ℚ) * 2 ^ (f64Exponent q - 52) - q
          = ((roundHalfEven (q / 2 ^ (f64Exponent q - 52)) : ℚ) - q / 2 ^ (f64Exponent q - 52))
            * 2 ^ (f64Exponent q - 52) := by
        field_simp
      rw [e1, abs_mul, abs_of_pos hupos]
      calc |(roundHalfEven (q / 2 ^ (f64Exponent q - 52)) : ℚ) - q / 2 ^ (f64Exponent q - 52)|
              * 2 ^ (f64Exponent q - 52)
            ≤ 1 / 2 * 2 ^ (f64Exponent q - 52) :=
              mul_le_mul_of_nonneg_right herr (le_of_lt hupos)
        _ ≤ 1 / 2 * 2 ^ (E - 52) := mul_le_mul_of_nonneg_left hule (by norm_num)
        _ = 2 ^ (E - 53) := by rw [hhalf]; ring
    refine ⟨_, ?_, hr⟩
    unfold roundF64
    simp only
    rw [if_pos]
    have habs : |(roundHalfEven (q / 2 ^ (f64Exponent q - 52)) : ℚ) * 2 ^ (f64Exponent q - 52)|
        ≤ |q| + 2 ^ (E - 53) := by
      have := abs_sub_abs_le_abs_sub
        ((roundHalfEven (q / 2 ^ (f64Exponent q - 52)) : ℚ) * 2 ^ (f64Exponent q - 52)) q
      linarith
    have hb1 : (2 : ℚ) ^ (E + 1) ≤ 2 ^ (61 : ℤ) := zpow_le_zpow_right₀ (by norm_num) (by omega)
    have hb2 : (2 : ℚ) ^ (E - 53) ≤ 2 ^ (61 : ℤ) := zpow_le_zpow_right₀ (by norm_num) (by omega)
    have hb3 : (2 : ℚ) ^ (62 : ℤ) < 2 ^ (1024 : ℤ) :=
      zpow_lt_zpow_right₀ (by norm_num) (by norm_num)
    have hb4 : (2 : ℚ) ^ (62 : ℤ) = 2 * 2 ^ (61 : ℤ) := by norm_num
    linarith

/-- Rounding a value whose binade is known: the result is the rounded multiple of the unit
in the last place of that binade. -/
theorem roundF64_binade (q : ℚ) (e : Int) (he : -1022 ≤ e) (he2 : e ≤ 60)
    (h1 : (2 : ℚ) ^ e ≤ |q|) (h2 : |q| < (2 : ℚ) ^ (e + 1)) :
    roundF64 q = some ((roundHalfEven (q / 2 ^ (e - 52)) : ℚ) * 2 ^ (e - 52)) := by
  obtain ⟨r, hr, -⟩ := roundF64_abs q e he he2 h2
  have hpos : 0 < |q| := lt_of_lt_of_le (by positivity) h1
  have hlo : e ≤ Int.log 2 |q| :=
    (Int.zpow_le_iff_le_log (b := 2) (by norm_num) hpos (x := e)).mp (by simpa using h1)
  have hhi : Int.log 2 |q| < e + 1 :=
    (Int.lt_zpow_iff_log_lt (b := 2) (by norm_num) hpos (x := e + 1)).mp (by simpa using h2)
  have hexp : f64Exponent q = e := by
    unfold f64Exponent
    rw [show Int.log 2 |q| = e by omega]
    exact max_eq_left he
  unfold roundF64 at hr ⊢
  simp only [hexp] at hr ⊢
  by_cases hfin : |(roundHalfEven (q / 2 ^ (e - 52)) : ℚ) * 2 ^ (e - 52)| < 2 ^ (1024 : ℤ)
  · rw [if_pos hfin]
  · rw [if_neg hfin] at hr
    cases hr

/-- The round trip below 2^45 currency units: for 0 ≤ c < 100 * 2^45 the quotient
`float64(c) / 100` is a finite double x within 2^-9 of c/100, and `toCents` at x gives c. -/
theorem toCents_exact_below (c : Int) (h0 : 0 ≤ c) (hc : c < 3518437208883200) :
    ∃ x : ℚ, roundF64 ((c : ℚ) / 100) = some x ∧ fromCents c = some x ∧
      |x - (c : ℚ) / 100| ≤ 1 / 512 ∧ toCents (some x) = c := by
  have hC0 : (0 : ℚ) ≤ (c : ℚ) := by exact_mod_cast h0
  have hC1 : (c : ℚ) ≤ 3518437208883199 := by
    have : c ≤ 3518437208883199 := by omega
    exact_mod_cast this
  have hint : IsInt64 c := by
    unfold IsInt64
    constructor <;> omega
  have p45 : (2 : ℚ) ^ ((44 : ℤ) + 1) = 35184372088832 := by norm_num
  have p9 : (2 : ℚ) ^ ((44 : ℤ) - 53) = 1 / 512 := by norm_num
  have p51 : (2 : ℚ) ^ (51 : ℤ) = 2251799813685248 := by norm_num
  have p51' : (2 : ℚ) ^ ((50 : ℤ) + 1) = 2251799813685248 := by norm_num
  have p52 : (2 : ℚ) ^ ((51 : ℤ) + 1) = 4503599627370496 := by norm_num
  have p50 : (2 : ℚ) ^ (50 : ℤ) = 1125899906842624 := by norm_num
  have p8 : (2 : ℚ) ^ ((50 : ℤ) - 53) = 1 / 8 := by norm_num
  have u51 : (2 : ℚ) ^ ((51 : ℤ) - 52) = 1 / 2 := by norm_num
  have u50 : (2 : ℚ) ^ ((50 : ℤ) - 52) = 1 / 4 := by norm_num
  -- x, the double nearest c/100
  obtain ⟨x, hx1, hx2⟩ := roundF64_abs ((c : ℚ) / 100) 44 (by norm_num) (by norm_num)
    (by rw [p45, abs_of_nonneg (by positivity)]; linarith)
  rw [p9] at hx2
  have hx3 := abs_le.mp hx2
  have hw : (c : ℚ) - 25 / 128 ≤ x * 100 ∧ x * 100 ≤ (c : ℚ) + 25 / 128 := by
    constructor <;> linarith
  have hfrom : fromCents c = some x :=
    fromCents_eq c c x (roundF64_intCast c (by rw [abs_of_nonneg h0]; omega)) hx1
  refine ⟨x, hx1, hfrom, hx2, ?_⟩
  by_cases hbig : (2251799813685248 : ℚ) ≤ x * 100
  · -- the product lies in the binade of 2^51, where the doubles are the multiples of 1/2
    have hy := roundF64_binade (x * 100) 51 (by norm_num) (by norm_num)
      (by rw [p51, abs_of_nonneg (by linarith)]; exact hbig)
      (by rw [p52, abs_of_nonneg (by linarith)]; linarith)
    rw [u51] at hy
    have herr := abs_le.mp (roundHalfEven_error (x * 100 / (1 / 2)))
    have hdiv : x * 100 / (1 / 2) = 2 * (x * 100) := by ring
    rw [hdiv] at herr hy
    have hM : roundHalfEven (2 * (x * 100)) = 2 * c := by
      have ha : ((roundHalfEven (2 * (x * 100)) : Int) : ℚ) < ((2 * c + 1 : Int) : ℚ) := by
        push_cast
        linarith
      have hb : ((2 * c - 1 : Int) : ℚ) < ((roundHalfEven (2 * (x * 100)) : Int) : ℚ) := by
        push_cast
        linarith
      have ha' : roundHalfEven (2 * (x * 100)) < 2 * c + 1 := by exact_mod_cast ha
      have hb' : 2 * c - 1 < roundHalfEven (2 * (x * 100)) := by exact_mod_cast hb
      omega
    rw [hM] at hy
    have hyc : ((2 * c : Int) : ℚ) * (1 / 2) = (c : ℚ) := by
      push_cast
      ring
    rw [hyc] at hy
    -- c itself is at least 2^51, so c + 1/2 lies in the same binade
    have hcge : (2251799813685248 : ℚ) ≤ (c : ℚ) := by
      have h1 : ((2251799813685247 : Int) : ℚ) < ((c : Int) : ℚ) := by
        push_cast
        linarith
      have h2 : (2251799813685247 : Int) < c := by exact_mod_cast h1
      have h3 : (2251799813685248 : Int) ≤ c := by omega
      exact_mod_cast h3
    have hz := roundF64_binade ((c : ℚ) + 1 / 2) 51 (by norm_num) (by norm_num)
      (by rw [p51, abs_of_nonneg (by linarith)]; linarith)
      (by rw [p52, abs_of_nonneg (by linarith)]; linarith)
    rw [u51] at hz
    have hdiv2 : ((c : ℚ) + 1 / 2) / (1 / 2) = ((2 * c + 1 : Int) : ℚ) := by
      push_cast
      ring
    rw [hdiv2, roundHalfEven_intCast] at hz
    rw [toCents_eq x _ _ hy hz]
    refine truncToInt64_floor _ c ?_ ?_ hint
    · push_cast
      linarith
    · rw [Int.floor_eq_iff]
      push_cast
      constructor <;> linarith
  · -- the product lies below 2^51, where the doubles are at most 1/4 apart
    have hbig' : x * 100 < 2251799813685248 := lt_of_not_le hbig
    obtain ⟨y, hy1, hy2⟩ := roundF64_abs (x * 100) 50 (by norm_num) (by norm_num)
      (by rw [p51', abs_lt]; constructor <;> linarith)
    rw [p8] at hy2
    have hy3 := abs_le.mp hy2
    by_cases hv : y + 1 / 2 < 2251799813685248
    · obtain ⟨z, hz1, hz2⟩ := roundF64_abs (y + 1 / 2) 50 (by norm_num) (by norm_num)
        (by rw [p51', abs_lt]; constructor <;> linarith)
      rw [p8] at hz2
      have hz3 := abs_le.mp hz2
      rw [toCents_eq x y z hy1 hz1]
      refine truncToInt64_floor z c (by linarith) ?_ hint
      rw [Int.floor_eq_iff]
      constructor <;> linarith
    · -- the sum reaches 2^51 although the product does not: then c = 2^51
      have hv' : (2251799813685248 : ℚ) ≤ y + 1 / 2 := le_of_not_lt hv
      have hceq : c = 2251799813685248 := by
        have h1 : ((2251799813685247 : Int) : ℚ) < ((c : Int) : ℚ) := by
          push_cast
          linarith
        have h2 : ((c : Int) : ℚ) < ((2251799813685249 : Int) : ℚ) := by
          push_cast
          linarith
        have h1' : (2251799813685247 : Int) < c := by exact_mod_cast h1
        have h2' : c < (2251799813685249 : Int) := by exact_mod_cast h2
        omega
      have hCeq : (c : ℚ) = 2251799813685248 := by
        rw [hceq]
        norm_num
      -- the product is in the binade of 2^50, and its double does not exceed 2^51
      have hyb := roundF64_binade (x * 100) 50 (by norm_num) (by norm_num)
        (by rw [p50, abs_of_nonneg (by linarith)]; linarith)
        (by rw [p51', abs_of_nonneg (by linarith)]; linarith)
      rw [u50] at hyb
      have hyeq : y = (roundHalfEven (x * 100 / (1 / 4)) : ℚ) * (1 / 4) :=
        Option.some.inj (hy1.symm.trans hyb)
      have herr := abs_le.mp (roundHalfEven_error (x * 100 / (1 / 4)))
      have hdiv : x * 100 / (1 / 4) = 4 * (x * 100) := by ring
      rw [hdiv] at herr hyeq
      have hMle : roundHalfEven (4 * (x * 100)) ≤ 9007199254740992 := by
        have ha : ((roundHalfEven (4 * (x * 100)) : Int) : ℚ)
            < ((9007199254740993 : Int) : ℚ) := by
          push_cast
          linarith
        have ha' : roundHalfEven (4 * (x * 100)) < 9007199254740993 := by exact_mod_cast ha
        omega
      have hyle : y ≤ 2251799813685248 := by
        have : ((roundHalfEven (4 * (x * 100)) : Int) : ℚ) ≤ ((9007199254740992 : Int) : ℚ) := by
          exact_mod_cast hMle
        push_cast at this
        rw [hyeq]
        linarith
      -- the sum is in the binade of 2^51
      have hz := roundF64_binade (y + 1 / 2) 51 (by norm_num) (by norm_num)
        (by rw [p51, abs_of_nonneg (by linarith)]; exact hv')
        (by rw [p52, abs_of_nonneg (by linarith)]; linarith)
      rw [u51] at hz
      have herr2 := abs_le.mp (roundHalfEven_error ((y + 1 / 2) / (1 / 2)))
      have hdiv2 : (y + 1 / 2) / (1 / 2) = 2 * (y + 1 / 2) := by ring
      rw [hdiv2] at herr2 hz
      have hN : 4503599627370496 ≤ roundHalfEven (2 * (y + 1 / 2)) ∧
          roundHalfEven (2 * (y + 1 / 2)) ≤ 4503599627370497 := by
        have ha : ((4503599627370495 : Int) : ℚ)
            < ((roundHalfEven (2 * (y + 1 / 2)) : Int) : ℚ) := by
          push_cast
          linarith
        have hb : ((roundHalfEven (2 * (y + 1 / 2)) : Int) : ℚ)
            < ((4503599627370498 : Int) : ℚ) := by
          push_cast
          linarith
        have ha' : (4503599627370495 : Int) < roundHalfEven (2 * (y + 1 / 2)) := by
          exact_mod_cast ha
        have hb' : roundHalfEven (2 * (y + 1 / 2)) < (4503599627370498 : Int) := by
          exact_mod_cast hb
        constructor <;> omega
      have hN1 : ((4503599627370496 : Int) : ℚ)
          ≤ ((roundHalfEven (2 * (y + 1 / 2)) : Int) : ℚ) := by exact_mod_cast hN.1
      have hN2 : ((roundHalfEven (2 * (y + 1 / 2)) : Int) : ℚ)
          ≤ ((4503599627370497 : Int) : ℚ) := by exact_mod_cast hN.2
      push_cast at hN1 hN2
      rw [toCents_eq x y _ hy1 hz]
      refine truncToInt64_floor _ c (by linarith) ?_ hint
      rw [Int.floor_eq_iff, hCeq]
      constructor <;> linarith

/-- The double nearest 35184372088832.02, the amount of 100 * 2^45 + 2 cents. -/
theorem roundF64_first_cent :
    roundF64 (((3518437208883202 : Int) : ℚ) / 100) = some (4503599627370499 / 128) := by
  refine roundF64_at _ _ 45 4503599627370499 (by norm_num) (by norm_num [abs_of_pos])
    (by norm_num [abs_of_pos]) ?_ (by norm_num) (by norm_num [abs_of_pos])
  have := roundHalfEven_above (((3518437208883202 : Int) : ℚ) / 100 / 2 ^ ((45 : ℤ) - 52))
    4503599627370498 (by norm_num) (by norm_num)
  rw [this]
  norm_num

/-- The product of that double and 100 rounds up to 3518437208883202.5. -/
theorem roundF64_first_product :
    roundF64 ((4503599627370499 / 128 : ℚ) * 100) = some (7036874417766405 / 2) := by
  refine roundF64_at _ _ 51 7036874417766405 (by norm_num) (by norm_num [abs_of_pos])
    (by norm_num [abs_of_pos]) ?_ (by norm_num) (by norm_num [abs_of_pos])
  have := roundHalfEven_above ((4503599627370499 / 128 : ℚ) * 100 / 2 ^ ((51 : ℤ) - 52))
    7036874417766404 (by norm_num) (by norm_num)
  rw [this]
  norm_num

/-- The sum of 3518437208883202.5 and 0.5 is the double 3518437208883203. -/
theorem roundF64_first_sum :
    roundF64 ((7036874417766405 / 2 : ℚ) + 1 / 2) = some 3518437208883203 := by
  refine roundF64_at _ _ 51 7036874417766406 (by norm_num) (by norm_num [abs_of_pos])
    (by norm_num [abs_of_pos]) ?_ (by norm_num) (by norm_num [abs_of_pos])
  have e : ((7036874417766405 / 2 : ℚ) + 1 / 2) / 2 ^ ((51 : ℤ) - 52)
      = ((7036874417766406 : Int) : ℚ) := by
    norm_num
  rw [e, roundHalfEven_intCast]

/-- The double nearest 35184372088832.03, the amount of 100 * 2^45 + 3 cents. -/
theorem roundF64_first_back :
    roundF64 (((3518437208883203 : Int) : ℚ) / 100) = some (1125899906842625 / 32) := by
  refine roundF64_at _ _ 45 4503599627370500 (by norm_num) (by norm_num [abs_of_pos])
    (by norm_num [abs_of_pos]) ?_ (by norm_num) (by norm_num [abs_of_pos])
  have := roundHalfEven_above (((3518437208883203 : Int) : ℚ) / 100 / 2 ^ ((45 : ℤ) - 52))
    4503599627370499 (by norm_num) (by norm_num)
  rw [this]
  norm_num

/-- An amount just above 2^45 whose round trip fails: for c = 100 * 2^45 + 2 cents the
double nearest c/100 has `toCents` = c + 1, and c + 1 cents convert to another double. -/
theorem toCents_first_failure :
    roundF64 (((3518437208883202 : Int) : ℚ) / 100) = some (4503599627370499 / 128) ∧
      fromCents 3518437208883202 = some (4503599627370499 / 128) ∧
      toCents (some (4503599627370499 / 128)) = 3518437208883203 ∧
      fromCents 3518437208883203 = some (1125899906842625 / 32) := by
  refine ⟨roundF64_first_cent, ?_, ?_, ?_⟩
  · exact fromCents_eq _ _ _ (roundF64_intCast _ (by decide)) roundF64_first_cent
  · rw [toCents_eq _ _ _ roundF64_first_product roundF64_first_sum]
    exact truncToInt64_floor _ _ (by norm_num)
      (by rw [Int.floor_eq_iff]; constructor <;> norm_num) (by decide)
  · exact fromCents_eq _ _ _ (roundF64_intCast _ (by decide)) roundF64_first_back

/-- The fused evaluation below 2^45 currency units: with one rounding too, `toCents` at the
double nearest c/100 gives c for 0 ≤ c < 100 * 2^45. -/
theorem toCentsFused_exact_below (c : Int) (h0 : 0 ≤ c) (hc : c < 3518437208883200) :
    ∃ x : ℚ, roundF64 ((c : ℚ) / 100) = some x ∧ toCentsFused (some x) = c := by
  obtain ⟨x, hx1, -, hx2, -⟩ := toCents_exact_below c h0 hc
  have hC0 : (0 : ℚ) ≤ (c : ℚ) := by exact_mod_cast h0
  have hC1 : (c : ℚ) ≤ 3518437208883199 := by
    have : c ≤ 3518437208883199 := by omega
    exact_mod_cast this
  have hint : IsInt64 c := by
    unfold IsInt64
    constructor <;> omega
  have p52 : (2 : ℚ) ^ ((51 : ℤ) + 1) = 4503599627370496 := by norm_num
  have p7 : (2 : ℚ) ^ ((51 : ℤ) - 53) = 1 / 4 := by norm_num
  have hx3 := abs_le.mp hx2
  obtain ⟨z, hz1, hz2⟩ := roundF64_abs (x * 100 + 1 / 2) 51 (by norm_num) (by norm_num)
    (by rw [p52, abs_lt]; constructor <;> linarith)
  rw [p7] at hz2
  have hz3 := abs_le.mp hz2
  refine ⟨x, hx1, ?_⟩
  unfold toCentsFused
  simp only [hz1]
  refine truncToInt64_floor z c (by linarith) ?_ hint
  rw [Int.floor_eq_iff]
  constructor <;> linarith

/-! ## C14: the money conversion -/

/-- C14 (counterexample): the round trip fails at two amounts of exactly two decimals whose
cents are `int64`s.  For c = -1 the amount is -0.01 and the double nearest it is
x = -5764607523034235 / 2^59; `toCents` at x is `int64` of a double near -0.5, which the
conversion truncates to 0, so fromCents(toCents(x)) is the double 0, not x.  With the
arithmetic taken exactly over the rationals the same happens: -0.01 * 100 + 0.5 = -0.5
truncates to 0, and 0 / 100 is not -0.01.  For c = 100 * 2^45 + 2 the amount is
35184372088832.02 and the double nearest it is x = 4503599627370499 / 128; the product x * 100
rounds up to c + 0.5, so toCents(x) = c + 1, and fromCents(c + 1) is another double. -/
theorem roundTrip_fails_outside_range :
    (IsInt64 (-1) ∧
      roundF64 (((-1 : Int) : ℚ) / 100) = some (-5764607523034235 / 576460752303423488) ∧
      fromCents (-1) = some (-5764607523034235 / 576460752303423488) ∧
      toCents (some (-5764607523034235 / 576460752303423488)) = 0 ∧
      fromCents (toCents (some (-5764607523034235 / 576460752303423488))) = some 0 ∧
      fromCents (toCents (some (-5764607523034235 / 576460752303423488))) ≠
        some (-5764607523034235 / 576460752303423488) ∧
      toCentsExact (((-1 : Int) : ℚ) / 100) = 0 ∧
      fromCentsExact (toCentsExact (((-1 : Int) : ℚ) / 100)) ≠ ((-1 : Int) : ℚ) / 100) ∧
    (IsInt64 3518437208883202 ∧
      roundF64 (((3518437208883202 : Int) : ℚ) / 100) = some (4503599627370499 / 128) ∧
      fromCents 3518437208883202 = some (4503599627370499 / 128) ∧
      toCents (some (4503599627370499 / 128)) = 3518437208883202 + 1 ∧
      fromCents (toCents (some (4503599627370499 / 128))) = some (1125899906842625 / 32) ∧
      fromCents (toCents (some (4503599627370499 / 128))) ≠
        some (4503599627370499 / 128)) := by
  constructor
  · obtain ⟨x, hx1, hx2, -, hx3⟩ := toCents_nearest (-1) (by decide)
    have hx : x = -5764607523034235 / 576460752303423488 :=
      Option.some.inj (hx1.symm.trans roundF64_neg_cent)
    subst hx
    have ht : toCents (some (-5764607523034235 / 576460752303423488)) = 0 := by
      rw [hx3]
      decide
    have he : toCentsExact (((-1 : Int) : ℚ) / 100) = 0 := by
      unfold toCentsExact truncExact
      have hneg : ¬ (0 : ℚ) ≤ ((-1 : Int) : ℚ) / 100 * 100 + 1 / 2 := by norm_num
      rw [if_neg hneg, Int.ceil_eq_iff]
      constructor <;> norm_num
    refine ⟨by decide, hx1, hx2, ht, ?_, ?_, he, ?_⟩
    · rw [ht]
      exact fromCents_zero
    · rw [ht, fromCents_zero]
      intro h
      have := Option.some.inj h
      norm_num at this
    · rw [he]
      norm_num [fromCentsExact]
  · obtain ⟨h1, h2, h3, h4⟩ := toCents_first_failure
    have h3' : toCents (some (4503599627370499 / 128)) = 3518437208883202 + 1 := by
      rw [h3]
      decide
    refine ⟨by decide, h1, h2, h3', ?_, ?_⟩
    · rw [h3]
      exact h4
    · rw [h3, h4]
      intro h
      have := Option.some.inj h
      norm_num at this

/-- C14 (amended): in `float64` arithmetic, for every integer c with 0 ≤ c < 100 * 2^45 (the
amounts of exactly two decimals from 0 up to 2^45): the quotient float64(c) / 100 is a finite
double x, the one nearest c/100 and within 2^-9 of it; toCents(x) = c; and
fromCents(toCents(x)) = x. -/
theorem roundTrip_float64_nonneg (c : Int) (h0 : 0 ≤ c) (hc : c < 3518437208883200) :
    ∃ x : ℚ, roundF64 ((c : ℚ) / 100) = some x ∧ fromCents c = some x ∧
      |x - (c : ℚ) / 100| ≤ 1 / 512 ∧
      toCents (some x) = c ∧ fromCents (toCents (some x)) = some x := by
  obtain ⟨x, hx1, hx2, hx3, hx4⟩ := toCents_exact_below c h0 hc
  exact ⟨x, hx1, hx2, hx3, hx4, by rw [hx4]; exact hx2⟩

/-- Witness of `roundTrip_float64_nonneg`: the double nearest 1.10 is 2476979795053773 / 2^51;
it converts to 110 cents, and 110 cents convert back to it. -/
theorem roundTrip_float64_nonneg_witness :
    (0 : Int) ≤ 110 ∧ (110 : Int) < 3518437208883200 ∧
      roundF64 (((110 : Int) : ℚ) / 100) = some (2476979795053773 / 2251799813685248) ∧
      toCents (some (2476979795053773 / 2251799813685248)) = 110 ∧
      fromCents (toCents (some (2476979795053773 / 2251799813685248))) =
        some (2476979795053773 / 2251799813685248) := by
  obtain ⟨x, h1, -, -, h4, h5⟩ := roundTrip_float64_nonneg 110 (by decide) (by decide)
  have hx : x = 2476979795053773 / 2251799813685248 :=
    Option.some.inj (h1.symm.trans roundF64_dollar_ten)
  subst hx
  exact ⟨by decide, by decide, h1, h4, h5⟩

end Rtb
